import Mathlib

/-!
Packet and chunk model of the INET packet library.

Shallow embedding of `src/inet/common/packet/Packet.cc` and `Packet.h`, together with the
chunk algebra those files call into.  Offsets and lengths are mathematical integers in one
length unit (the octet of `BytesChunk.cc`); `Packet.cc` only adds and compares them, and the
values involved stay far below the 64 bit range of the source type.

The chunk classes themselves (`Chunk`, `SliceChunk`, `SequenceChunk`, ...) are not part of the
sources at hand; their operations are modelled from the specification and marked as such.

`BytesChunk.cc` and the `FieldsChunkSerializer` of `Serializer.cc` are embedded as they stand; the
byte streams they write to (`ByteStream.h`) are again modelled from the specification.

The header serializers (`UdpHeaderSerializer.cc`, `IPv4HeaderSerializer.cc`,
`IPv6HeaderSerializer.cc`) and `MACRelayUnit.cc` are embedded as they stand; where a serializer
goes through `htons` and `ntohs`, the byte order of the host is a parameter.  `ChunkBuffer` and
`ReorderBuffer` are modelled from the specification.
-/

namespace Inet

/-! ## Chunks -/

/-- Modelled from the spec: the status flags every chunk carries (section 3.1): mutability,
completeness, correctness, representation. -/
structure ChunkFlags where
  immutable : Bool := false
  incomplete : Bool := false
  incorrect : Bool := false
  improper : Bool := false
deriving DecidableEq, Repr

/-- Modelled from the spec: the chunk type identifiers (`TYPE_BYTES`, `TYPE_SEQUENCE`, ... of the
missing `Chunk.h`) and the requested type of a typed peek; `any` stands for the untyped request. -/
inductive ChunkType where
  | any
  | emptyChunk
  | lengthChunk
  | bytesChunk
  | fieldsChunk (typeId : Nat)
  | sliceChunk
  | sequenceChunk
deriving DecidableEq, Repr

/-- Modelled from the spec: the chunk variants of section 3.1 (the class declarations `Chunk.h`,
`SliceChunk.h`, `SequenceChunk.h`, `FieldsChunk.h` are missing).  `lengthChunk` is the
`ByteCountChunk` of the tests, a `fieldsChunk` is a typed record with its field values, its length
and its optional cached serialized bytes, a `sliceChunk` is a window `(inner, offset, length)` and a
`sequenceChunk` is the concatenation of its elements. -/
inductive Chunk where
  | emptyChunk (flags : ChunkFlags)
  | lengthChunk (flags : ChunkFlags) (length : Nat)
  | bytesChunk (flags : ChunkFlags) (bytes : List Nat)
  | fieldsChunk (flags : ChunkFlags) (typeId : Nat) (fields : List Int) (chunkLength : Nat)
      (serializedBytes : Option (List Nat))
  | sliceChunk (flags : ChunkFlags) (chunk : Chunk) (offset length : Nat)
  | sequenceChunk (flags : ChunkFlags) (chunks : List Chunk)
deriving Repr

/-- One length unit of chunk content: a fill unit of a length-only chunk, an octet of a bytes
chunk, or the `k`-th unit of a typed record. -/
inductive ContentUnit where
  | fill
  | octet (value : Nat)
  | field (typeId : Nat) (fields : List Int) (k : Nat)
deriving DecidableEq, Repr

namespace Chunk

/-- Modelled from the spec: the status flags of a chunk. -/
def flags : Chunk → ChunkFlags
  | .emptyChunk f => f
  | .lengthChunk f _ => f
  | .bytesChunk f _ => f
  | .fieldsChunk f _ _ _ _ => f
  | .sliceChunk f _ _ _ => f
  | .sequenceChunk f _ => f

/-- Modelled from the spec: the chunk with its status flags replaced. -/
def setFlags (g : ChunkFlags) : Chunk → Chunk
  | .emptyChunk _ => .emptyChunk g
  | .lengthChunk _ n => .lengthChunk g n
  | .bytesChunk _ bs => .bytesChunk g bs
  | .fieldsChunk _ t fs n s => .fieldsChunk g t fs n s
  | .sliceChunk _ c o l => .sliceChunk g c o l
  | .sequenceChunk _ cs => .sequenceChunk g cs

/-- Modelled from the spec: `Chunk::getChunkType`. -/
def getChunkType : Chunk → ChunkType
  | .emptyChunk _ => .emptyChunk
  | .lengthChunk _ _ => .lengthChunk
  | .bytesChunk _ _ => .bytesChunk
  | .fieldsChunk _ t _ _ _ => .fieldsChunk t
  | .sliceChunk _ _ _ _ => .sliceChunk
  | .sequenceChunk _ _ => .sequenceChunk

/-- Modelled from the spec: `Chunk::isImmutable`. -/
def isImmutable (c : Chunk) : Bool := c.flags.immutable

/-- Modelled from the spec: `Chunk::markImmutable`, the one-way transition to immutable. -/
def markImmutable (c : Chunk) : Chunk := c.setFlags { c.flags with immutable := true }

/-- Modelled from the spec: the private mutable copy a copy-on-write mutation works on. -/
def makeMutable (c : Chunk) : Chunk := c.setFlags { c.flags with immutable := false }

/-- Modelled from the spec: marks a chunk as a fragment of a larger logical chunk. -/
def markIncomplete (c : Chunk) : Chunk := c.setFlags { c.flags with incomplete := true }

mutual
/-- Modelled from the spec: `Chunk::getChunkLength` for each variant. -/
def getChunkLength : Chunk → Nat
  | .emptyChunk _ => 0
  | .lengthChunk _ n => n
  | .bytesChunk _ bs => bs.length
  | .fieldsChunk _ _ _ n _ => n
  | .sliceChunk _ _ _ l => l
  | .sequenceChunk _ cs => lengthSum cs
/-- Modelled from the spec: the total length of the elements of a sequence. -/
def lengthSum : List Chunk → Nat
  | [] => 0
  | c :: cs => getChunkLength c + lengthSum cs
end

mutual
/-- Logical content of a chunk, one entry per length unit. -/
def units : Chunk → List ContentUnit
  | .emptyChunk _ => []
  | .lengthChunk _ n => List.replicate n .fill
  | .bytesChunk _ bs => bs.map .octet
  | .fieldsChunk _ t fs n _ => (List.range n).map (.field t fs)
  | .sliceChunk _ c o l => ((units c).drop o).take l
  | .sequenceChunk _ cs => unitsList cs
/-- Concatenated logical content of a list of chunks. -/
def unitsList : List Chunk → List ContentUnit
  | [] => []
  | c :: cs => units c ++ unitsList cs
end

mutual
/-- Well-formedness: every slice window lies inside its inner chunk. -/
def wellFormed : Chunk → Bool
  | .emptyChunk _ => true
  | .lengthChunk _ _ => true
  | .bytesChunk _ _ => true
  | .fieldsChunk _ _ _ _ _ => true
  | .sliceChunk _ c o l => wellFormed c && decide (o + l ≤ getChunkLength c)
  | .sequenceChunk _ cs => wellFormedList cs
/-- Well-formedness of every chunk of a list. -/
def wellFormedList : List Chunk → Bool
  | [] => true
  | c :: cs => wellFormed c && wellFormedList cs
end

mutual
/-- Modelled from the spec: two slices are over the same inner chunk (section 4.2); the shared
reference of the source is modelled by structural identity. -/
def same : Chunk → Chunk → Bool
  | .emptyChunk f, .emptyChunk g => decide (f = g)
  | .lengthChunk f n, .lengthChunk g m => decide (f = g) && decide (n = m)
  | .bytesChunk f a, .bytesChunk g b => decide (f = g) && decide (a = b)
  | .fieldsChunk f t fs n s, .fieldsChunk g u gs m r =>
      decide (f = g) && decide (t = u) && decide (fs = gs) && decide (n = m) && decide (s = r)
  | .sliceChunk f c o l, .sliceChunk g d p k =>
      decide (f = g) && same c d && decide (o = p) && decide (l = k)
  | .sequenceChunk f cs, .sequenceChunk g ds => decide (f = g) && sameList cs ds
  | _, _ => false
/-- Structural identity of two lists of chunks. -/
def sameList : List Chunk → List Chunk → Bool
  | [], [] => true
  | c :: cs, d :: ds => same c d && sameList cs ds
  | _, _ => false
end

/-- Modelled from the spec: flags of a chunk newly derived from a chunk with flags `f`: mutable,
complete, properly represented; the incorrect mark propagates (section 3.1). -/
def derivedFlags (f : ChunkFlags) : ChunkFlags := { incorrect := f.incorrect }

/-- Modelled from the spec: flags of a chunk merged from chunks with flags `f` and `g`; the
incorrect mark propagates (section 3.1). -/
def mergedFlags (f g : ChunkFlags) : ChunkFlags := { incorrect := f.incorrect || g.incorrect }

/-- Modelled from the spec: section 4.2, a slice covering the full inner chunk becomes the inner
chunk. -/
def simplifySlice (f : ChunkFlags) (c : Chunk) (o l : Nat) : Chunk :=
  if o = 0 ∧ l = c.getChunkLength then c else .sliceChunk f c o l

/-- Modelled from the spec: section 4.2, when two adjacent chunks merge: slices over the same inner
chunk with contiguous offsets, two bytes chunks, two length chunks; never two fields chunks. -/
def mergePair : Chunk → Chunk → Option Chunk
  | .bytesChunk f a, .bytesChunk g b => some (.bytesChunk (mergedFlags f g) (a ++ b))
  | .lengthChunk f n, .lengthChunk g m => some (.lengthChunk (mergedFlags f g) (n + m))
  | .sliceChunk f c o l, .sliceChunk g d p k =>
      if same c d ∧ o + l = p then some (simplifySlice (mergedFlags f g) c o (l + k)) else none
  | _, _ => none

/-- Modelled from the spec: the merge pass of section 4.2 over the chunks following `acc`, the
chunk currently being extended. -/
def mergeInto (acc : Chunk) : List Chunk → List Chunk
  | [] => [acc]
  | c :: cs =>
    match mergePair acc c with
    | some m => mergeInto m cs
    | none => acc :: mergeInto c cs

/-- Modelled from the spec: section 4.2, the merge pass over adjacent pairs. -/
def mergeChunks : List Chunk → List Chunk
  | [] => []
  | c :: cs => mergeInto c cs

/-- Modelled from the spec: section 4.2, flattening: a sequence is inlined as its elements, an empty
chunk contributes nothing. -/
def inlineChunk : Chunk → List Chunk
  | .sequenceChunk _ cs => cs
  | .emptyChunk _ => []
  | c => [c]

/-- Modelled from the spec: section 4.2, a sequence with exactly one element collapses to it. -/
def collapse : List Chunk → Chunk
  | [] => .emptyChunk {}
  | [c] => c
  | cs => .sequenceChunk {} cs

mutual
/-- Modelled from the spec: section 4.1, the per-variant slicing of the window `[o, o + l)` for an
untyped request.  Bytes and length chunks return themselves when the window is whole and a new
chunk otherwise; a fields chunk returns itself when whole and a slice referencing itself otherwise;
a slice delegates to its inner chunk with composed offsets; a sequence collects the covering
windows of its elements, merges them and collapses a single element. -/
def window : Chunk → Nat → Nat → Chunk
  | .emptyChunk f, _, _ => .emptyChunk f
  | .lengthChunk f n, o, l =>
      if o = 0 ∧ l = n then .lengthChunk f n else .lengthChunk (derivedFlags f) l
  | .bytesChunk f bs, o, l =>
      if o = 0 ∧ l = bs.length then .bytesChunk f bs
      else .bytesChunk (derivedFlags f) ((bs.drop o).take l)
  | .fieldsChunk f t fs n s, o, l =>
      if o = 0 ∧ l = n then .fieldsChunk f t fs n s
      else .sliceChunk (derivedFlags f) (.fieldsChunk f t fs n s) o l
  | .sliceChunk _ c so _, o, l => window c (so + o) l
  | .sequenceChunk _ cs, o, l => collapse (mergeChunks (windowList cs o l))
/-- Modelled from the spec: section 4.1, the covering windows of the elements of a sequence for
the window `[o, o + l)`, flattened. -/
def windowList : List Chunk → Nat → Nat → List Chunk
  | [], _, _ => []
  | c :: cs, o, l =>
      if l = 0 then []
      else if getChunkLength c ≤ o then windowList cs (o - getChunkLength c) l
      else
        inlineChunk (window c o (min l (getChunkLength c - o)))
          ++ windowList cs 0 (l - min l (getChunkLength c - o))
end

end Chunk

/-! ## Iterators and peeking -/

/-- Modelled from the spec: the chunk iterator of section 3.3, built in `Packet.cc` as
`Chunk::Iterator(isForward, position, index)`.  The position of a backward iterator is counted
from the end of the chunk. -/
structure Iterator where
  isForward : Bool
  position : Int
  index : Int
deriving DecidableEq, Repr

/-- Modelled from the spec: `Chunk::ForwardIterator(position, index)` as the `Packet` constructors
call it. -/
def ForwardIterator (position index : Int) : Iterator := ⟨true, position, index⟩

/-- Modelled from the spec: `Chunk::BackwardIterator(position, index)` as the `Packet`
constructors call it. -/
def BackwardIterator (position index : Int) : Iterator := ⟨false, position, index⟩

/-- Modelled from the spec: the fatal error kinds of section 7 raised by chunk operations. -/
inductive ChunkError where
  | programmingError
  | unsupportedOperation
deriving DecidableEq, Repr

/-- The type conversion fallback of section 4.1 (serialize the source, then run the deserializer
registered for the requested type), taken as a parameter: it stands for the serializer registry. -/
abbrev TypeConversion := ChunkType → Chunk → Option Chunk

namespace Chunk

/-- Modelled from the spec: the index of the element boundary at distance `position` in a list of
element lengths, `-1` (no hint) when `position` is not on a boundary. -/
def boundaryIndex : List Nat → Int → Int → Int
  | [], position, k => if position = 0 then k else -1
  | n :: ns, position, k =>
      if position = 0 then k
      else if position < n then -1
      else boundaryIndex ns (position - n) (k + 1)

/-- Modelled from the spec: the index hint that is consistent with a position (section 3.3): for a
sequence the number of elements passed, counted from the end the iterator starts at; other chunks
keep the hint they have. -/
def indexAt (c : Chunk) (isForward : Bool) (position index : Int) : Int :=
  match c with
  | .sequenceChunk _ cs =>
      boundaryIndex ((if isForward then cs else cs.reverse).map getChunkLength) position 0
  | _ => index

/-- Modelled from the spec: `Chunk::seekIterator`, which sets the authoritative position and
adjusts the index hint with it. -/
def seekIterator (c : Chunk) (it : Iterator) (offset : Int) : Iterator :=
  { it with position := offset, index := c.indexAt it.isForward offset it.index }

/-- Modelled from the spec: `Chunk::moveIterator`, which adds `length` to the authoritative
position and adjusts the index hint with it (section 3.3).  The direction of the iterator plays no
part in it: `testIteration` moves a backward iterator, whose position is counted from the end of
the chunk, by the positive length of the chunk it has peeked and finds it at 10 and at 20. -/
def moveIterator (c : Chunk) (it : Iterator) (length : Int) : Iterator :=
  { it with
    position := it.position + length,
    index := c.indexAt it.isForward (it.position + length) it.index }

/-- Modelled from the spec: the peek engine of section 4.1 up to the type conversion.  A negative
length other than the sentinel and an out-of-range position are programming errors; length `0`
yields an empty chunk, except on a chunk of length 0, whose zero-length window is the whole chunk
(`BytesChunk::peek` tests the whole window first); `-1` means up to the end of the chunk; a region
exceeding the chunk is shortened and the result marked incomplete; a whole window requested with
the chunk's own type returns the chunk itself. -/
def peekWindow (c : Chunk) (it : Iterator) (length : Int) (T : ChunkType) :
    Except ChunkError Chunk :=
  if length < -1 ∨ it.position < 0 ∨ (c.getChunkLength : Int) < it.position then
    .error .programmingError
  else if length = 0 ∧ 0 < c.getChunkLength then .ok (.emptyChunk {})
  else
    let available := ((c.getChunkLength : Int) - it.position).toNat
    let l := if length = -1 then available else min length.toNat available
    let o := if it.isForward then it.position.toNat else available - l
    let r := if o = 0 ∧ l = c.getChunkLength ∧ T = c.getChunkType then c else c.window o l
    .ok (if length ≠ -1 ∧ (available : Int) < length then r.markIncomplete else r)

/-- Modelled from the spec: the untyped `Chunk::peek(iterator, length)`. -/
def peek (c : Chunk) (it : Iterator) (length : Int) : Except ChunkError (Option Chunk) :=
  (c.peekWindow it length .any).map some

/-- Modelled from the spec: `Chunk::peek(offset, length)`, a peek with a forward iterator at
`offset` (`Packet.cc` builds it as `Chunk::Iterator(true, offset, -1)`). -/
def peekAt (c : Chunk) (offset length : Int) : Except ChunkError (Option Chunk) :=
  c.peek ⟨true, offset, -1⟩ length

/-- Modelled from the spec: the typed `Chunk::peek<T>(iterator, length)`: the window is returned
when it has the requested type (or is the empty chunk of a zero-length request), otherwise the type
conversion fallback decides, and the result is null when the window cannot be converted. -/
def peekAs (conv : TypeConversion) (T : ChunkType) (c : Chunk) (it : Iterator) (length : Int) :
    Except ChunkError (Option Chunk) :=
  (c.peekWindow it length T).map fun r =>
    if T = .any ∨ length = 0 ∨ r.getChunkType = T then some r else conv T r

/-! ### Insertion and removal -/

/-- Modelled from the spec: section 4.4, contents support cheap front insertion when they are a
sequence or same-type compatible with the inserted chunk (bytes with bytes, length with length,
a slice directly preceding a slice of the same inner chunk). -/
def canInsertAtBeginning : Chunk → Chunk → Bool
  | .sequenceChunk _ _, _ => true
  | .bytesChunk _ _, .bytesChunk _ _ => true
  | .lengthChunk _ _, .lengthChunk _ _ => true
  | .sliceChunk _ c o _, .sliceChunk _ d p k => same d c && decide (p + k = o)
  | _, _ => false

/-- Modelled from the spec: section 4.4, the counterpart of `canInsertAtBeginning` at the back. -/
def canInsertAtEnd : Chunk → Chunk → Bool
  | .sequenceChunk _ _, _ => true
  | .bytesChunk _ _, .bytesChunk _ _ => true
  | .lengthChunk _ _, .lengthChunk _ _ => true
  | .sliceChunk _ c o l, .sliceChunk _ d p _ => same c d && decide (o + l = p)
  | _, _ => false

/-- Modelled from the spec: `insertAtBeginning`; a sequence inlines the inserted chunk and runs the
merge pass (section 4.2), compatible chunks grow in place. -/
def insertAtBeginning : Chunk → Chunk → Chunk
  | .sequenceChunk f cs, chunk => .sequenceChunk f (mergeChunks (inlineChunk chunk ++ cs))
  | .bytesChunk f bs, .bytesChunk _ b => .bytesChunk f (b ++ bs)
  | .lengthChunk f n, .lengthChunk _ m => .lengthChunk f (m + n)
  | .sliceChunk f c _ l, .sliceChunk _ _ p k => .sliceChunk f c p (k + l)
  | c, _ => c

/-- Modelled from the spec: `insertAtEnd`, the counterpart of `insertAtBeginning` at the back. -/
def insertAtEnd : Chunk → Chunk → Chunk
  | .sequenceChunk f cs, chunk => .sequenceChunk f (mergeChunks (cs ++ inlineChunk chunk))
  | .bytesChunk f bs, .bytesChunk _ b => .bytesChunk f (bs ++ b)
  | .lengthChunk f n, .lengthChunk _ m => .lengthChunk f (n + m)
  | .sliceChunk f c o l, .sliceChunk _ _ _ k => .sliceChunk f c o (l + k)
  | c, _ => c

/-- Modelled from the spec: contents that are trimmed in place, as `BytesChunk::removeFromBeginning`
does for a bytes chunk; a length chunk is trimmed by length subtraction.  Other contents are
trimmed by a peek of the remaining window. -/
def canRemoveFromBeginning : Chunk → Int → Bool
  | .bytesChunk _ _, _ => true
  | .lengthChunk _ _, _ => true
  | _, _ => false

/-- Modelled from the spec: the counterpart of `canRemoveFromBeginning` at the back. -/
def canRemoveFromEnd : Chunk → Int → Bool
  | .bytesChunk _ _, _ => true
  | .lengthChunk _ _, _ => true
  | _, _ => false

/-- Modelled from the spec: in-place removal of `length` units from the front; for a bytes chunk
as `BytesChunk::removeFromBeginning` erases `[begin, begin + length)`. -/
def removeFromBeginning : Chunk → Int → Chunk
  | .bytesChunk f bs, length => .bytesChunk f (bs.drop length.toNat)
  | .lengthChunk f n, length => .lengthChunk f (n - length.toNat)
  | c, _ => c

/-- Modelled from the spec: in-place removal of `length` units from the back; for a bytes chunk
as `BytesChunk::removeFromEnd` erases `[end - length, end)`. -/
def removeFromEnd : Chunk → Int → Chunk
  | .bytesChunk f bs, length => .bytesChunk f (bs.take (bs.length - length.toNat))
  | .lengthChunk f n, length => .lengthChunk f (n - length.toNat)
  | c, _ => c

end Chunk

/-! ## Packets -/

/-- How a `Packet` operation can abort: a failed `assert` (a programming error), a call through
null contents, or an error raised by the chunk it calls into. -/
inductive PacketError where
  | assertionFailed
  | nullDereference
  | chunkError (e : ChunkError)
deriving DecidableEq, Repr

/-- The members of `Packet` (`Packet.cc`): the contents, null for a packet without contents, the
header iterator and the trailer iterator. -/
structure Packet where
  contents : Option Chunk
  headerIterator : Iterator
  trailerIterator : Iterator
deriving Repr

/-- Result of a mutating `Packet` operation: the value returned together with the packet after the
call, or the error together with the packet as it stands when the call aborts. -/
inductive Outcome (α : Type) where
  | ok (value : α) (packet : Packet)
  | failed (error : PacketError) (packet : Packet)

namespace Packet

/-- `Packet::Packet(const char *name, short kind)`: no contents, both iterators at 0. -/
def new : Packet := ⟨none, ForwardIterator 0 0, BackwardIterator 0 0⟩

/-- `Packet::Packet(const char *name, const std::shared_ptr<Chunk>& contents)`: the contents must
be immutable. -/
def withContents (contents : Chunk) : Outcome Unit :=
  let p : Packet := ⟨some contents, ForwardIterator 0 0, BackwardIterator 0 0⟩
  if contents.isImmutable then .ok () p else .failed .assertionFailed p

/-- Modelled from the spec: `getPacketLength` (section 6.3; the inline definition is in the missing
revision of `Packet.h`): the length of the contents, 0 without contents. -/
def getPacketLength (p : Packet) : Int :=
  match p.contents with
  | none => 0
  | some c => (c.getChunkLength : Int)

/-- Modelled from the spec: `getHeaderPopOffset` (section 6.3), the front offset from the start. -/
def getHeaderPopOffset (p : Packet) : Int := p.headerIterator.position

/-- Modelled from the spec: `getHeaderPoppedLength`, the length the front iterator passed over. -/
def getHeaderPoppedLength (p : Packet) : Int := p.headerIterator.position

/-- Modelled from the spec: `getTrailerPopOffset` (section 6.3), the back offset measured from the
start of the packet, as `setTrailerPopOffset` and `testTrailer` use it. -/
def getTrailerPopOffset (p : Packet) : Int := p.getPacketLength - p.trailerIterator.position

/-- Modelled from the spec: `getTrailerPoppedLength`, the length the back iterator passed over. -/
def getTrailerPoppedLength (p : Packet) : Int := p.trailerIterator.position

/-- The data length, as `getDataSize` in `Packet.h`: packet length minus both iterator
positions. -/
def getDataLength (p : Packet) : Int :=
  p.getPacketLength - p.headerIterator.position - p.trailerIterator.position

/-- Lift the result of a chunk operation into a `Packet` result. -/
def liftChunk {α : Type} : Except ChunkError α → Except PacketError α
  | .ok a => .ok a
  | .error e => .error (.chunkError e)

/-- `Packet::setHeaderPopOffset` (`Packet.cc`). -/
def setHeaderPopOffset (p : Packet) (offset : Int) : Outcome Unit :=
  match p.contents with
  | none => .failed .assertionFailed p
  | some c =>
    if 0 ≤ offset ∧ offset ≤ p.getPacketLength - p.trailerIterator.position then
      let q : Packet := { p with headerIterator := c.seekIterator p.headerIterator offset }
      if q.getDataLength > 0 then .ok () q else .failed .assertionFailed q
    else .failed .assertionFailed p

/-- `Packet::peekHeader(bit length)` (`Packet.cc`). -/
def peekHeader (p : Packet) (length : Int) : Except PacketError (Option Chunk) :=
  if -1 ≤ length ∧ length ≤ p.getDataLength then
    match p.contents with
    | none => .ok none
    | some c => liftChunk (c.peek p.headerIterator length)
  else .error .assertionFailed

/-- `Packet::popHeader(bit length)` (`Packet.cc`). -/
def popHeader (p : Packet) (length : Int) : Outcome (Option Chunk) :=
  if -1 ≤ length ∧ length ≤ p.getDataLength then
    match p.peekHeader length with
    | .error e => .failed e p
    | .ok none => .ok none p
    | .ok (some chunk) =>
      match p.contents with
      | none => .failed .nullDereference p
      | some c =>
        .ok (some chunk)
          { p with headerIterator := c.moveIterator p.headerIterator chunk.getChunkLength }
  else .failed .assertionFailed p

/-- `Packet::setTrailerPopOffset` (`Packet.cc`). -/
def setTrailerPopOffset (p : Packet) (offset : Int) : Outcome Unit :=
  match p.contents with
  | none => .failed .assertionFailed p
  | some c =>
    if p.headerIterator.position ≤ offset then
      let q : Packet :=
        { p with trailerIterator := c.seekIterator p.trailerIterator (p.getPacketLength - offset) }
      if q.getDataLength > 0 then .ok () q else .failed .assertionFailed q
    else .failed .assertionFailed p

/-- `Packet::peekTrailer(bit length)` (`Packet.cc`). -/
def peekTrailer (p : Packet) (length : Int) : Except PacketError (Option Chunk) :=
  if -1 ≤ length ∧ length ≤ p.getDataLength then
    match p.contents with
    | none => .ok none
    | some c => liftChunk (c.peek p.trailerIterator length)
  else .error .assertionFailed

/-- `Packet::popTrailer(bit length)` (`Packet.cc`): the trailer iterator is moved by
`-chunk->getChunkLength()`. -/
def popTrailer (p : Packet) (length : Int) : Outcome (Option Chunk) :=
  if -1 ≤ length ∧ length ≤ p.getDataLength then
    match p.peekTrailer length with
    | .error e => .failed e p
    | .ok none => .ok none p
    | .ok (some chunk) =>
      match p.contents with
      | none => .failed .nullDereference p
      | some c =>
        .ok (some chunk)
          { p with trailerIterator := c.moveIterator p.trailerIterator (-(chunk.getChunkLength : Int)) }
  else .failed .assertionFailed p

/-- The window handed to `contents->peek` by `Packet::peekDataAt` (`Packet.cc`): the forward
iterator at `peekOffset` and `peekLength`. -/
def peekDataAtWindow (p : Packet) (offset length : Int) : Iterator × Int :=
  (⟨true, p.headerIterator.position + offset, -1⟩,
    if length = -1 then p.getDataLength - offset else length)

/-- `Packet::peekDataAt(bit offset, bit length)` (`Packet.cc`). -/
def peekDataAt (p : Packet) (offset length : Int) : Except PacketError (Option Chunk) :=
  if 0 ≤ offset ∧ offset ≤ p.getDataLength then
    if -1 ≤ length ∧ length ≤ p.getDataLength then
      match p.contents with
      | none => .ok none
      | some c =>
        liftChunk (c.peek (p.peekDataAtWindow offset length).1 (p.peekDataAtWindow offset length).2)
    else .error .assertionFailed
  else .error .assertionFailed

/-- `Packet::peekAt(bit offset, bit length)` (`Packet.cc`). -/
def peekAt (p : Packet) (offset length : Int) : Except PacketError (Option Chunk) :=
  if 0 ≤ offset ∧ offset ≤ p.getPacketLength then
    if -1 ≤ length ∧ length ≤ p.getPacketLength then
      match p.contents with
      | none => .ok none
      | some c =>
        liftChunk (c.peek ⟨true, offset, -1⟩
          (if length = -1 then p.getPacketLength - offset else length))
    else .error .assertionFailed
  else .error .assertionFailed

/-- Modelled from the spec: `makeContentsMutable` (declared in the missing revision of
`Packet.h`), the copy-on-write step that gives the packet a private mutable copy of its
contents. -/
def makeContentsMutable (c : Chunk) : Chunk := c.makeMutable

/-- The contents a packet holds when `contents->markImmutable()` is reached with the result of a
peek: a null result is a call through a null pointer. -/
def markPeeked (p : Packet) : Except ChunkError (Option Chunk) → Outcome Unit
  | .error e => .failed (.chunkError e) p
  | .ok none => .failed .nullDereference { p with contents := none }
  | .ok (some c) => .ok () { p with contents := some c.markImmutable }

/-- `Packet::prepend` (`Packet.cc`). -/
def prepend (p : Packet) (chunk : Chunk) : Outcome Unit :=
  if chunk.isImmutable then
    if p.headerIterator.position = 0 then
      match p.contents with
      | none => .ok () { p with contents := some chunk }
      | some c =>
        if c.canInsertAtBeginning chunk then
          markPeeked p
            (((makeContentsMutable c).insertAtBeginning chunk).peekAt 0
              ((makeContentsMutable c).insertAtBeginning chunk).getChunkLength)
        else
          .ok () { p with
            contents :=
              some (((Chunk.sequenceChunk {} []).insertAtBeginning c).insertAtBeginning chunk).markImmutable }
    else .failed .assertionFailed p
  else .failed .assertionFailed p

/-- `Packet::append` (`Packet.cc`). -/
def append (p : Packet) (chunk : Chunk) : Outcome Unit :=
  if chunk.isImmutable then
    if p.trailerIterator.position = 0 then
      match p.contents with
      | none => .ok () { p with contents := some chunk }
      | some c =>
        if c.canInsertAtEnd chunk then
          markPeeked p
            (((makeContentsMutable c).insertAtEnd chunk).peekAt 0
              ((makeContentsMutable c).insertAtEnd chunk).getChunkLength)
        else
          .ok () { p with
            contents :=
              some (((Chunk.sequenceChunk {} []).insertAtEnd c).insertAtEnd chunk).markImmutable }
    else .failed .assertionFailed p
  else .failed .assertionFailed p

/-- `Packet::pushHeader` (`Packet.cc`). -/
def pushHeader (p : Packet) (chunk : Chunk) : Outcome Unit :=
  if p.headerIterator.position = 0 then p.prepend chunk else .failed .assertionFailed p

/-- `Packet::pushTrailer` (`Packet.cc`). -/
def pushTrailer (p : Packet) (chunk : Chunk) : Outcome Unit :=
  if p.trailerIterator.position = 0 then p.append chunk else .failed .assertionFailed p

/-- The contents a packet holds after the `else` branch of `Packet::removeFromBeginning` and
`Packet::removeFromEnd`: the peeked remainder, marked immutable unless it is null. -/
def keepPeeked (p : Packet) : Except ChunkError (Option Chunk) → Outcome Unit
  | .error e => .failed (.chunkError e) p
  | .ok none => .ok () { p with contents := none }
  | .ok (some c) => .ok () { p with contents := some c.markImmutable }

/-- `Packet::removeFromBeginning` (`Packet.cc`). -/
def removeFromBeginning (p : Packet) (length : Int) : Outcome Unit :=
  if 0 ≤ length ∧ length ≤ p.getPacketLength then
    if p.headerIterator.position = 0 then
      match p.contents with
      | none => .failed .nullDereference p
      | some c =>
        if c.canRemoveFromBeginning length then
          .ok () { p with
            contents := some ((makeContentsMutable c).removeFromBeginning length).markImmutable }
        else keepPeeked p (c.peekAt length ((c.getChunkLength : Int) - length))
    else .failed .assertionFailed p
  else .failed .assertionFailed p

/-- `Packet::removeFromEnd` (`Packet.cc`). -/
def removeFromEnd (p : Packet) (length : Int) : Outcome Unit :=
  if 0 ≤ length ∧ length ≤ p.getPacketLength then
    if p.trailerIterator.position = 0 then
      match p.contents with
      | none => .failed .nullDereference p
      | some c =>
        if c.canRemoveFromEnd length then
          .ok () { p with
            contents := some ((makeContentsMutable c).removeFromEnd length).markImmutable }
        else keepPeeked p (c.peekAt 0 ((c.getChunkLength : Int) - length))
    else .failed .assertionFailed p
  else .failed .assertionFailed p

/-- `Packet::removePoppedHeaders` (`Packet.cc`). -/
def removePoppedHeaders (p : Packet) : Outcome Unit :=
  match p.setHeaderPopOffset 0 with
  | .failed e q => .failed e q
  | .ok _ q => q.removeFromBeginning p.getHeaderPoppedLength

/-- `Packet::removePoppedTrailers` (`Packet.cc`). -/
def removePoppedTrailers (p : Packet) : Outcome Unit :=
  match p.setTrailerPopOffset 0 with
  | .failed e q => .failed e q
  | .ok _ q => q.removeFromEnd p.getTrailerPoppedLength

/-! ### The typed operations of `Packet.h` -/

/-- `Packet::peekHeader<T>` (`Packet.h`): `data->peek<T>(headerIterator, byteLength)`. -/
def peekHeaderAs (conv : TypeConversion) (T : ChunkType) (p : Packet) (length : Int) :
    Except PacketError (Option Chunk) :=
  match p.contents with
  | none => .error .nullDereference
  | some c => liftChunk (c.peekAs conv T p.headerIterator length)

/-- `Packet::popHeader<T>` (`Packet.h`). -/
def popHeaderAs (conv : TypeConversion) (T : ChunkType) (p : Packet) (length : Int) :
    Outcome (Option Chunk) :=
  match p.peekHeaderAs conv T length with
  | .error e => .failed e p
  | .ok none => .ok none p
  | .ok (some chunk) =>
    match p.contents with
    | none => .failed .nullDereference p
    | some c =>
      .ok (some chunk)
        { p with headerIterator := c.moveIterator p.headerIterator chunk.getChunkLength }

/-- `Packet::peekTrailer<T>` (`Packet.h`): `data->peek<T>(trailerIterator, byteLength)`. -/
def peekTrailerAs (conv : TypeConversion) (T : ChunkType) (p : Packet) (length : Int) :
    Except PacketError (Option Chunk) :=
  match p.contents with
  | none => .error .nullDereference
  | some c => liftChunk (c.peekAs conv T p.trailerIterator length)

/-- `Packet::popTrailer<T>` (`Packet.h`). -/
def popTrailerAs (conv : TypeConversion) (T : ChunkType) (p : Packet) (length : Int) :
    Outcome (Option Chunk) :=
  match p.peekTrailerAs conv T length with
  | .error e => .failed e p
  | .ok none => .ok none p
  | .ok (some chunk) =>
    match p.contents with
    | none => .failed .nullDereference p
    | some c =>
      .ok (some chunk)
        { p with trailerIterator := c.moveIterator p.trailerIterator (-(chunk.getChunkLength : Int)) }

/-- `Packet::getDataPosition` (`Packet.h`). -/
def getDataPosition (p : Packet) : Int := p.headerIterator.position

/-- `Packet::peekData<T>` (`Packet.h`): a peek from a forward iterator at `getDataPosition()`. -/
def peekDataAs (conv : TypeConversion) (T : ChunkType) (p : Packet) (length : Int) :
    Except PacketError (Option Chunk) :=
  match p.contents with
  | none => .error .nullDereference
  | some c => liftChunk (c.peekAs conv T ⟨true, p.getDataPosition, -1⟩ length)

/-- The forward iterator built by `Packet::peekDataAt<T>` (`Packet.h`):
`SequenceIterator(data, true, -1, byteOffset)`. -/
def peekDataAtAsIterator (_p : Packet) (offset : Int) : Iterator := ⟨true, offset, -1⟩

/-- `Packet::peekDataAt<T>` (`Packet.h`): a peek from a forward iterator at `byteOffset`. -/
def peekDataAtAs (conv : TypeConversion) (T : ChunkType) (p : Packet) (offset length : Int) :
    Except PacketError (Option Chunk) :=
  match p.contents with
  | none => .error .nullDereference
  | some c => liftChunk (c.peekAs conv T (p.peekDataAtAsIterator offset) length)

/-- Logical content of a packet: the content of its chunk, nothing without contents. -/
def contentUnits (p : Packet) : List ContentUnit :=
  match p.contents with
  | none => []
  | some c => c.units

end Packet

/-! ## Values used by the unit tests -/

/-- `makeVector` (`UnitTest.cc`): the octets `0, 1, ..., length - 1`. -/
def makeVector (length : Nat) : List Nat := List.range length

/-- `makeImmutableByteCountChunk` (`UnitTest.cc`). -/
def makeImmutableByteCountChunk (length : Nat) : Chunk :=
  (Chunk.lengthChunk {} length).markImmutable

/-- `makeImmutableBytesChunk` (`UnitTest.cc`). -/
def makeImmutableBytesChunk (bytes : List Nat) : Chunk :=
  (Chunk.bytesChunk {} bytes).markImmutable

/-- A serializer registry without any registered conversion. -/
def noConversion : TypeConversion := fun _ _ => none

/-! ## Serialized octets of chunk content -/

/-- The octet a content unit serializes to: `'?'` for a fill unit (the fill byte written by
`ByteCountChunkSerializer::serialize`), the octet itself for a bytes chunk, and for a typed record
the octet `fieldOctet typeId fields k` its registered serializer writes at offset `k`. -/
def ContentUnit.toOctet (fieldOctet : Nat → List Int → Nat → Nat) : ContentUnit → Nat
  | .fill => 63
  | .octet value => value
  | .field typeId fields k => fieldOctet typeId fields k

/-- The bytes of a chunk: the octets its content serializes to. -/
def Chunk.bytesOf (fieldOctet : Nat → List Int → Nat → Nat) (c : Chunk) : List Nat :=
  c.units.map (ContentUnit.toOctet fieldOctet)

/-- The bytes of a packet: the bytes of its contents, none without contents. -/
def Packet.bytesOf (fieldOctet : Nat → List Int → Nat → Nat) (p : Packet) : List Nat :=
  p.contentUnits.map (ContentUnit.toOctet fieldOctet)

/-! ## `BytesChunk` (`BytesChunk.cc`) -/

/-- The members of `BytesChunk` (`BytesChunk.cc`, `ByteArrayChunk.h`): the status flags of the
`Chunk` base and the octets. -/
structure BytesChunk where
  flags : ChunkFlags
  bytes : List Nat
deriving DecidableEq, Repr

/-- Result of a mutating `BytesChunk` operation: the value returned together with the chunk after
the call, or a failed assertion together with the chunk as it stands when the call aborts. -/
inductive BytesOutcome (α : Type) where
  | ok (value : α) (chunk : BytesChunk)
  | failed (chunk : BytesChunk)
deriving DecidableEq, Repr

/-- What `BytesChunk::peek` returns: `shared_from_this()`, the chunk itself, or a chunk newly
built by `std::make_shared<BytesChunk>`. -/
inductive BytesPeek where
  | sharedFromThis
  | makeShared (chunk : BytesChunk)
deriving DecidableEq, Repr

namespace BytesChunk

/-- `BytesChunk::BytesChunk(const std::vector<uint8_t>& bytes)`: a mutable chunk with these
octets. -/
def ofBytes (bytes : List Nat) : BytesChunk := ⟨{}, bytes⟩

/-- Modelled from the spec: `Chunk::isMutable` of the `Chunk` base (section 3.1). -/
def isMutable (c : BytesChunk) : Bool := !c.flags.immutable

/-- Modelled from the spec: `Chunk::markImmutable` of the `Chunk` base, the one-way transition to
immutable. -/
def markImmutable (c : BytesChunk) : BytesChunk := { c with flags := { c.flags with immutable := true } }

/-- `getByteLength` (`ByteArrayChunk.h`), the `getChunkLength` of `BytesChunk.cc`:
`bytes.size()`. -/
def getChunkLength (c : BytesChunk) : Int := (c.bytes.length : Int)

/-- `getBytes` (`ByteArrayChunk.h`). -/
def getBytes (c : BytesChunk) : List Nat := c.bytes

/-- The chunk as a value of the chunk algebra. -/
def toChunk (c : BytesChunk) : Chunk := .bytesChunk c.flags c.bytes

/-- `BytesChunk::setBytes` (`BytesChunk.cc`); `assertMutable()` is the assertion of the `Chunk`
base that the chunk is mutable. -/
def setBytes (c : BytesChunk) (bytes : List Nat) : BytesOutcome Unit :=
  if c.isMutable then .ok () { c with bytes := bytes } else .failed c

/-- `BytesChunk::insertToBeginning` (`BytesChunk.cc`); `handleChange()` of the `Chunk` base has
nothing to reset in a bytes chunk. -/
def insertToBeginning (c : BytesChunk) (chunk : Chunk) : BytesOutcome Bool :=
  if c.isMutable then
    match chunk with
    | .bytesChunk _ bytes => .ok true { c with bytes := bytes ++ c.bytes }
    | _ => .ok false c
  else .failed c

/-- `BytesChunk::insertToEnd` (`BytesChunk.cc`). -/
def insertToEnd (c : BytesChunk) (chunk : Chunk) : BytesOutcome Bool :=
  if c.isMutable then
    match chunk with
    | .bytesChunk _ bytes => .ok true { c with bytes := c.bytes ++ bytes }
    | _ => .ok false c
  else .failed c

/-- `BytesChunk::removeFromBeginning` (`BytesChunk.cc`).  The first assertion compares the signed
`byteLength` with the unsigned `bytes.size()`, that is after conversion to 64 bit unsigned. -/
def removeFromBeginning (c : BytesChunk) (byteLength : Int) : BytesOutcome Bool :=
  if byteLength % 2 ^ 64 ≤ (c.bytes.length : Int) then
    if c.isMutable then .ok true { c with bytes := c.bytes.drop byteLength.toNat }
    else .failed c
  else .failed c

/-- `BytesChunk::removeFromEnd` (`BytesChunk.cc`), with the same unsigned comparison. -/
def removeFromEnd (c : BytesChunk) (byteLength : Int) : BytesOutcome Bool :=
  if byteLength % 2 ^ 64 ≤ (c.bytes.length : Int) then
    if c.isMutable then
      .ok true { c with bytes := c.bytes.take (c.bytes.length - byteLength.toNat) }
    else .failed c
  else .failed c

/-- `BytesChunk::peek(const Iterator& iterator, int64_t byteLength)` (`BytesChunk.cc`).  The new
chunk is built from the vector range `[begin + position, end)` for `byteLength == -1` and
`[begin + position, begin + position + byteLength)` otherwise; a range that leaves the vector is
undefined behaviour and modelled as a programming error. -/
def peek (c : BytesChunk) (iterator : Iterator) (byteLength : Int) :
    Except ChunkError BytesPeek :=
  if iterator.position = 0 ∧ byteLength = c.getChunkLength then .ok .sharedFromThis
  else if 0 ≤ iterator.position ∧ iterator.position ≤ c.getChunkLength ∧
      (byteLength = -1 ∨ (0 ≤ byteLength ∧ iterator.position + byteLength ≤ c.getChunkLength)) then
    .ok (.makeShared (ofBytes
      (if byteLength = -1 then c.bytes.drop iterator.position.toNat
       else (c.bytes.drop iterator.position.toNat).take byteLength.toNat)))
  else .error .programmingError

/-- The chunk a peek on `c` hands out. -/
def peeked (c : BytesChunk) : BytesPeek → BytesChunk
  | .sharedFromThis => c
  | .makeShared chunk => chunk

/-- The mutating operations of `BytesChunk.cc`. -/
inductive Operation where
  | setBytes (bytes : List Nat)
  | insertToBeginning (chunk : Chunk)
  | insertToEnd (chunk : Chunk)
  | removeFromBeginning (byteLength : Int)
  | removeFromEnd (byteLength : Int)

/-- The chunk after one attempted operation, and whether the attempt was rejected. -/
def attempt (c : BytesChunk) : Operation → Bool × BytesChunk
  | .setBytes bytes =>
      match c.setBytes bytes with
      | .ok _ d => (false, d)
      | .failed d => (true, d)
  | .insertToBeginning chunk =>
      match c.insertToBeginning chunk with
      | .ok _ d => (false, d)
      | .failed d => (true, d)
  | .insertToEnd chunk =>
      match c.insertToEnd chunk with
      | .ok _ d => (false, d)
      | .failed d => (true, d)
  | .removeFromBeginning byteLength =>
      match c.removeFromBeginning byteLength with
      | .ok _ d => (false, d)
      | .failed d => (true, d)
  | .removeFromEnd byteLength =>
      match c.removeFromEnd byteLength with
      | .ok _ d => (false, d)
      | .failed d => (true, d)

/-- The chunk after a sequence of attempted operations. -/
def attemptAll (c : BytesChunk) : List Operation → BytesChunk
  | [] => c
  | op :: ops => attemptAll (c.attempt op).2 ops

end BytesChunk

/-! ## Byte streams and the `FieldsChunk` serializer -/

/-- Modelled from the spec: the octets `src[offset .. offset + length)` that the byte streams of
section 6.2 copy (`ByteStream.h` is missing), up to the end of `src` for the length `-1` that
`FieldsChunkSerializer::serialize` passes for a whole chunk; a window that leaves `src` is an
out-of-range offset (section 7). -/
def byteWindow (src : List Nat) (offset length : Int) : Except ChunkError (List Nat) :=
  if 0 ≤ offset ∧ offset ≤ (src.length : Int) ∧
      (length = -1 ∨ (0 ≤ length ∧ offset + length ≤ (src.length : Int))) then
    .ok (if length = -1 then src.drop offset.toNat else (src.drop offset.toNat).take length.toNat)
  else .error .programmingError

/-- Modelled from the spec: `ByteOutputStream` (section 6.2; `ByteStream.h` is missing), an
append-only sequence of octets. -/
structure ByteOutputStream where
  bytes : List Nat
deriving DecidableEq, Repr

namespace ByteOutputStream

/-- Modelled from the spec: `getPosition`, the number of octets written so far. -/
def getPosition (stream : ByteOutputStream) : Int := (stream.bytes.length : Int)

/-- Modelled from the spec: `getSize`. -/
def getSize (stream : ByteOutputStream) : Int := (stream.bytes.length : Int)

/-- Modelled from the spec: `getBytes`. -/
def getBytes (stream : ByteOutputStream) : List Nat := stream.bytes

/-- Modelled from the spec: `writeBytes(src, offset, length)`, which appends the octets
`src[offset .. offset + length)`. -/
def writeBytes (stream : ByteOutputStream) (src : List Nat) (offset length : Int) :
    Except ChunkError ByteOutputStream :=
  match byteWindow src offset length with
  | .error e => .error e
  | .ok window => .ok ⟨stream.bytes ++ window⟩

/-- Modelled from the spec: `copyBytes(offset, length)`, the octets `[offset, offset + length)`
written so far; `copyBytes()` is `copyBytes(0, -1)`, all of them. -/
def copyBytes (stream : ByteOutputStream) (offset length : Int) : Except ChunkError (List Nat) :=
  byteWindow stream.bytes offset length

end ByteOutputStream

/-- Modelled from the spec: `ByteInputStream` (section 6.2; `ByteStream.h` is missing): the octets
to read and the read position. -/
structure ByteInputStream where
  bytes : List Nat
  position : Int
deriving DecidableEq, Repr

namespace ByteInputStream

/-- Modelled from the spec: `getPosition`. -/
def getPosition (stream : ByteInputStream) : Int := stream.position

/-- Modelled from the spec: `getRemainingSize`. -/
def getRemainingSize (stream : ByteInputStream) : Int :=
  (stream.bytes.length : Int) - stream.position

/-- Modelled from the spec: `copyBytes(offset, length)`, the octets `[offset, offset + length)` of
the input. -/
def copyBytes (stream : ByteInputStream) (offset length : Int) : Except ChunkError (List Nat) :=
  byteWindow stream.bytes offset length

end ByteInputStream

/-- The process-wide counters `ChunkSerializer::totalSerializedBytes` and
`ChunkSerializer::totalDeserializedBytes` (`Serializer.cc`; `totalSerializedBitCount` and
`totalDeserializedBitCount` in `serializer/FieldsChunkSerializer.cc`). -/
structure SerializerCounters where
  totalSerializedBytes : Int
  totalDeserializedBytes : Int
deriving DecidableEq, Repr

/-- Modelled from the spec: a `FieldsChunk` (section 3.1; `FieldsChunk.h` is missing): the field
values of the record, its chunk length and the optional cached serialized bytes. -/
structure FieldsChunk where
  flags : ChunkFlags
  typeId : Nat
  fields : List Int
  chunkLength : Nat
  serializedBytes : Option (List Nat)
deriving DecidableEq, Repr

namespace FieldsChunk

/-- Modelled from the spec: `getChunkLength`. -/
def getChunkLength (chunk : FieldsChunk) : Int := (chunk.chunkLength : Int)

/-- Modelled from the spec: `getSerializedBytes`, null when nothing is cached. -/
def getSerializedBytes (chunk : FieldsChunk) : Option (List Nat) := chunk.serializedBytes

/-- Modelled from the spec: `setSerializedBytes`, which stores the cache. -/
def setSerializedBytes (chunk : FieldsChunk) (bytes : List Nat) : FieldsChunk :=
  { chunk with serializedBytes := some bytes }

end FieldsChunk

/-- The pure virtual methods of `FieldsChunkSerializer` (`Serializer.h`) that a concrete serializer
provides.  `serialize(stream, chunk)` appends octets to the append-only stream, or throws (`none`);
`deserialize(stream)` builds a chunk from the input and leaves the stream at a new position, or
throws. -/
structure ConcreteSerializer where
  serialize : ByteOutputStream → FieldsChunk → Option (List Nat)
  deserialize : ByteInputStream → Option (FieldsChunk × Int)

namespace FieldsChunkSerializer

/-- The whole-chunk branch of `FieldsChunkSerializer::serialize`: the concrete serializer writes to
the stream, the counter grows by the number of octets written and these octets, copied back from
the stream, become the cache. -/
def serializeWhole (concrete : ConcreteSerializer) (stream : ByteOutputStream)
    (counters : SerializerCounters) (chunk : FieldsChunk) :
    Except ChunkError (ByteOutputStream × SerializerCounters × FieldsChunk) :=
  match concrete.serialize stream chunk with
  | none => .error .unsupportedOperation
  | some written =>
    match (ByteOutputStream.mk (stream.bytes ++ written)).copyBytes stream.getPosition
        ((ByteOutputStream.mk (stream.bytes ++ written)).getPosition - stream.getPosition) with
    | .error e => .error e
    | .ok copied =>
      .ok (⟨stream.bytes ++ written⟩,
        { counters with
          totalSerializedBytes := counters.totalSerializedBytes +
            ((ByteOutputStream.mk (stream.bytes ++ written)).getPosition - stream.getPosition) },
        chunk.setSerializedBytes copied)

/-- The last branch of `FieldsChunkSerializer::serialize`: the concrete serializer writes to a new
stream `chunkStream`, the requested window of it is written to the stream, the counter grows by the
size of `chunkStream` and all its octets become the cache. -/
def serializeWindow (concrete : ConcreteSerializer) (stream : ByteOutputStream)
    (counters : SerializerCounters) (chunk : FieldsChunk) (offset length : Int) :
    Except ChunkError (ByteOutputStream × SerializerCounters × FieldsChunk) :=
  match concrete.serialize ⟨[]⟩ chunk with
  | none => .error .unsupportedOperation
  | some written =>
    match stream.writeBytes (ByteOutputStream.mk written).getBytes offset length with
    | .error e => .error e
    | .ok result =>
      match (ByteOutputStream.mk written).copyBytes 0 (-1) with
      | .error e => .error e
      | .ok copied =>
        .ok (result,
          { counters with
            totalSerializedBytes :=
              counters.totalSerializedBytes + (ByteOutputStream.mk written).getSize },
          chunk.setSerializedBytes copied)

/-- `FieldsChunkSerializer::serialize(stream, chunk, offset, length)` (`Serializer.cc`, and with
bit lengths converted to octets `serializer/FieldsChunkSerializer.cc`): the stream, the counters
and the chunk after the call. -/
def serialize (concrete : ConcreteSerializer) (stream : ByteOutputStream)
    (counters : SerializerCounters) (chunk : FieldsChunk) (offset length : Int) :
    Except ChunkError (ByteOutputStream × SerializerCounters × FieldsChunk) :=
  match chunk.getSerializedBytes with
  | some cached =>
    match stream.writeBytes cached offset length with
    | .error e => .error e
    | .ok result => .ok (result, counters, chunk)
  | none =>
    if offset = 0 ∧ (length = -1 ∨ length = chunk.getChunkLength) then
      serializeWhole concrete stream counters chunk
    else serializeWindow concrete stream counters chunk offset length

/-- `FieldsChunkSerializer::deserialize(stream, typeInfo)` (`Serializer.cc`,
`serializer/FieldsChunkSerializer.cc`): the chunk returned, the stream and the counters after the
call. -/
def deserialize (concrete : ConcreteSerializer) (stream : ByteInputStream)
    (counters : SerializerCounters) :
    Except ChunkError (FieldsChunk × ByteInputStream × SerializerCounters) :=
  match concrete.deserialize stream with
  | none => .error .unsupportedOperation
  | some (fieldsChunk, position) =>
    match (ByteInputStream.mk stream.bytes position).copyBytes stream.getPosition
        ((ByteInputStream.mk stream.bytes position).getPosition - stream.getPosition) with
    | .error e => .error e
    | .ok copied =>
      .ok (fieldsChunk.setSerializedBytes copied, ⟨stream.bytes, position⟩,
        { counters with
          totalDeserializedBytes := counters.totalDeserializedBytes +
            ((ByteInputStream.mk stream.bytes position).getPosition - stream.getPosition) })

end FieldsChunkSerializer

/-- `BytesChunkSerializer::serialize` (`Serializer.cc`): the stream and the counters after the
call. -/
def BytesChunkSerializer.serialize (stream : ByteOutputStream) (counters : SerializerCounters)
    (chunk : BytesChunk) (offset length : Int) :
    Except ChunkError (ByteOutputStream × SerializerCounters) :=
  match stream.writeBytes chunk.getBytes offset
      (if length = -1 then chunk.getChunkLength - offset else length) with
  | .error e => .error e
  | .ok result =>
    .ok (result,
      { counters with
        totalSerializedBytes := counters.totalSerializedBytes +
          (if length = -1 then chunk.getChunkLength - offset else length) })

/-! ## Example serializer of the unit tests -/

/-- Modelled from the spec: the `TlvHeaderBool` of the unit tests (scenario S4: a bool header of
length 3; its message file is missing), with the type 1 that `TlvHeaderSerializer::deserialize`
dispatches on. -/
def tlvHeaderBool (boolValue : Nat) : FieldsChunk := ⟨{}, 1, [(boolValue : Int)], 3, none⟩

/-- `TlvHeaderBoolSerializer` (`UnitTest.cc`): `serialize` writes the type, the chunk length in
octets and the value with `writeUint8`; `deserialize` makes a `TlvHeaderBool`, asserts that the
next two octets are its type and its length, and reads the value. -/
def tlvHeaderBoolSerializer : ConcreteSerializer where
  serialize _ chunk :=
    some [chunk.typeId % 256, chunk.chunkLength % 256, (chunk.fields.headD 0).toNat % 256]
  deserialize stream :=
    match stream.bytes.drop stream.position.toNat with
    | type :: length :: value :: _ =>
      if (tlvHeaderBool 0).typeId = type ∧ (tlvHeaderBool 0).chunkLength = length then
        some (tlvHeaderBool value, stream.position + 3)
      else none
    | _ => none

/-! ## Stream primitives and the serializers of the built-in chunks -/

namespace ByteOutputStream

/-- Modelled from the spec: `writeByte(value)` (section 6.2), which appends one octet; the
parameter is a `uint8_t`. -/
def writeByte (stream : ByteOutputStream) (value : Int) : ByteOutputStream :=
  ⟨stream.bytes ++ [(value % 256).toNat]⟩

/-- Modelled from the spec: `writeByteRepeatedly(value, count)`, which appends `count` copies of
the octet, none for a count that is not positive. -/
def writeByteRepeatedly (stream : ByteOutputStream) (value : Int) (count : Int) :
    ByteOutputStream :=
  ⟨stream.bytes ++ List.replicate count.toNat (value % 256).toNat⟩

/-- Modelled from the spec: `writeUint16(value)`, which appends the two octets of the 16 bit value
in network byte order. -/
def writeUint16 (stream : ByteOutputStream) (value : Int) : ByteOutputStream :=
  ⟨stream.bytes ++ [((value % 65536) / 256).toNat, (value % 256).toNat]⟩

end ByteOutputStream

namespace ByteInputStream

/-- Modelled from the spec: `readByte` (section 6.2), which returns the octet at the read position
and advances the position by one; reading outside the input is an out-of-range offset. -/
def readByte (stream : ByteInputStream) : Except ChunkError (Nat × ByteInputStream) :=
  if 0 ≤ stream.position then
    match stream.bytes.drop stream.position.toNat with
    | value :: _ => .ok (value, { stream with position := stream.position + 1 })
    | [] => .error .programmingError
  else .error .programmingError

/-- The loop of `readByteRepeatedly`: `count` reads, each asserted to return `value`. -/
def readByteRepeatedlyLoop (value : Nat) : Nat → ByteInputStream → Except ChunkError ByteInputStream
  | 0, stream => .ok stream
  | count + 1, stream =>
    match stream.readByte with
    | .error e => .error e
    | .ok (read, next) =>
      if read = value then readByteRepeatedlyLoop value count next else .error .programmingError

/-- Modelled from the spec: `readByteRepeatedly(value, count)` (section 6.2, assertive), which
reads `count` octets and asserts that each of them is `value`. -/
def readByteRepeatedly (stream : ByteInputStream) (value : Nat) (count : Int) :
    Except ChunkError ByteInputStream :=
  readByteRepeatedlyLoop value count.toNat stream

/-- Modelled from the spec: `readUint16`, which reads two octets as a 16 bit value in network byte
order. -/
def readUint16 (stream : ByteInputStream) : Except ChunkError (Nat × ByteInputStream) :=
  match stream.readByte with
  | .error e => .error e
  | .ok (high, next) =>
    match next.readByte with
    | .error e => .error e
    | .ok (low, last) => .ok (high * 256 + low, last)

end ByteInputStream

namespace ByteCountChunkSerializer

/-- `ByteCountChunkSerializer::serialize` (`Serializer.cc`,
`serializer/ByteCountChunkSerializer.cc`) for a chunk of length `chunkLength`: the stream and the
counters after the call. -/
def serialize (stream : ByteOutputStream) (counters : SerializerCounters) (chunkLength : Nat)
    (offset length : Int) : ByteOutputStream × SerializerCounters :=
  (stream.writeByteRepeatedly 63
      (if length = -1 then (chunkLength : Int) - offset else length),
    { counters with
      totalSerializedBytes := counters.totalSerializedBytes +
        (if length = -1 then (chunkLength : Int) - offset else length) })

/-- `ByteCountChunkSerializer::deserialize` (`Serializer.cc`,
`serializer/ByteCountChunkSerializer.cc`): the chunk returned, the stream and the counters after
the call. -/
def deserialize (stream : ByteInputStream) (counters : SerializerCounters) :
    Except ChunkError (Chunk × ByteInputStream × SerializerCounters) :=
  match stream.readByteRepeatedly 63 stream.getRemainingSize with
  | .error e => .error e
  | .ok next =>
    .ok (.lengthChunk {} stream.getRemainingSize.toNat, next,
      { counters with
        totalDeserializedBytes := counters.totalDeserializedBytes + stream.getRemainingSize })

end ByteCountChunkSerializer

namespace BytesChunkSerializer

/-- The loop of `BytesChunkSerializer::deserialize`: `count` reads, each pushed to the back of
`chunkBytes`. -/
def readLoop : Nat → ByteInputStream → List Nat → Except ChunkError (List Nat × ByteInputStream)
  | 0, stream, chunkBytes => .ok (chunkBytes, stream)
  | count + 1, stream, chunkBytes =>
    match stream.readByte with
    | .error e => .error e
    | .ok (read, next) => readLoop count next (chunkBytes ++ [read])

/-- `BytesChunkSerializer::deserialize` (`Serializer.cc`): the chunk returned, the stream and the
counters after the call. -/
def deserialize (stream : ByteInputStream) (counters : SerializerCounters) :
    Except ChunkError (BytesChunk × ByteInputStream × SerializerCounters) :=
  match readLoop stream.getRemainingSize.toNat stream [] with
  | .error e => .error e
  | .ok (chunkBytes, next) =>
    match (BytesChunk.ofBytes []).setBytes chunkBytes with
    | .failed _ => .error .programmingError
    | .ok _ byteArrayChunk =>
      .ok (byteArrayChunk, next,
        { counters with
          totalDeserializedBytes := counters.totalDeserializedBytes + stream.getRemainingSize })

end BytesChunkSerializer

/-! ## Protocol header serializers -/

/-- The CRC modes the header serializers test for (`CRC_OFF`, `CRC_COMPUTED`); `other` stands for
the remaining values of the enumeration, whose declaration is missing. -/
inductive CrcMode where
  | CRC_OFF
  | CRC_COMPUTED
  | other (value : Nat)
deriving DecidableEq, Repr

/-- Result of a concrete header serializer: the stream after a completed call, or the error thrown
together with the stream as it stands when the call aborts. -/
inductive SerializeOutcome where
  | ok (stream : ByteOutputStream)
  | failed (error : ChunkError) (stream : ByteOutputStream)
deriving DecidableEq, Repr

/-- The fields of `UdpHeader` that `UdpHeaderSerializer` reads and writes (the message definition
is missing). -/
structure UdpHeader where
  sourcePort : Int
  destinationPort : Int
  totalLengthField : Int
  crc : Int
  crcMode : CrcMode
deriving DecidableEq, Repr

namespace UdpHeaderSerializer

/-- `UdpHeaderSerializer::serialize` (`UdpHeaderSerializer.cc`): three fields are written, then
the CRC mode is tested and the call either throws or writes the CRC. -/
def serialize (stream : ByteOutputStream) (udpHeader : UdpHeader) : SerializeOutcome :=
  if udpHeader.crcMode ≠ .CRC_OFF ∧ udpHeader.crcMode ≠ .CRC_COMPUTED then
    .failed .unsupportedOperation
      (((stream.writeUint16 udpHeader.sourcePort).writeUint16
        udpHeader.destinationPort).writeUint16 udpHeader.totalLengthField)
  else
    .ok ((((stream.writeUint16 udpHeader.sourcePort).writeUint16
      udpHeader.destinationPort).writeUint16 udpHeader.totalLengthField).writeUint16
        udpHeader.crc)

/-- `UdpHeaderSerializer::deserialize` (`UdpHeaderSerializer.cc`): the header and the stream after
the call. -/
def deserialize (stream : ByteInputStream) : Except ChunkError (UdpHeader × ByteInputStream) :=
  match stream.readUint16 with
  | .error e => .error e
  | .ok (sourcePort, s1) =>
    match s1.readUint16 with
    | .error e => .error e
    | .ok (destinationPort, s2) =>
      match s2.readUint16 with
      | .error e => .error e
      | .ok (totalLengthField, s3) =>
        match s3.readUint16 with
        | .error e => .error e
        | .ok (crc, s4) =>
          .ok (⟨sourcePort, destinationPort, totalLengthField, crc,
              if crc = 0 then .CRC_OFF else .CRC_COMPUTED⟩, s4)

end UdpHeaderSerializer

/-- The fields of `IPv4Header` that `IPv4HeaderSerializer::serialize` reads (the message definition
is missing); the option array is only reached behind an unconditional throw. -/
structure IPv4Header where
  headerLength : Int
  version : Int
  typeOfService : Int
  identification : Int
  fragmentOffset : Int
  moreFragments : Bool
  dontFragment : Bool
  timeToLive : Int
  transportProtocol : Int
  srcAddress : Int
  destAddress : Int
  totalLengthField : Int
  crcMode : CrcMode
  crc : Int
deriving DecidableEq, Repr

namespace IPv4HeaderSerializer

/-- `IP_HEADER_BYTES`, the size of `struct ip` (its header `ip.h` is missing). -/
def IP_HEADER_BYTES : Nat := 20

/-- `IP_MF`, the more-fragments flag of the `ip_off` field. -/
def IP_MF : Nat := 0x2000

/-- `IP_DF`, the dont-fragment flag of the `ip_off` field. -/
def IP_DF : Nat := 0x4000

/-- The two octets of a 16 bit value after `htons`, as they lie in memory. -/
def htons (value : Int) : List Nat := [((value % 65536) / 256).toNat, (value % 256).toNat]

/-- The four octets of a 32 bit value after `htonl`, as they lie in memory. -/
def htonl (value : Int) : List Nat :=
  [((value % 4294967296) / 16777216).toNat, ((value % 16777216) / 65536).toNat,
    ((value % 65536) / 256).toNat, (value % 256).toNat]

/-- The local `uint16_t ip_off` of `IPv4HeaderSerializer::serialize`: the fragment offset in units
of eight octets with the two flags or-ed in. -/
def ipOff (ipv4Header : IPv4Header) : Nat :=
  (((ipv4Header.fragmentOffset / 8) % 65536).toNat
      ||| (if ipv4Header.moreFragments then IP_MF else 0))
    ||| (if ipv4Header.dontFragment then IP_DF else 0)

/-- The 20 octets of the local `struct ip iphdr` as `IPv4HeaderSerializer::serialize` fills it:
version and header length in words share the first octet. -/
def iphdr (ipv4Header : IPv4Header) : List Nat :=
  [((ipv4Header.version % 16) * 16 + (ipv4Header.headerLength % 4294967296 / 4) % 16).toNat,
    (ipv4Header.typeOfService % 256).toNat]
  ++ htons ipv4Header.totalLengthField
  ++ htons ipv4Header.identification
  ++ htons (ipOff ipv4Header)
  ++ [(ipv4Header.timeToLive % 256).toNat, (ipv4Header.transportProtocol % 256).toNat]
  ++ htons ipv4Header.crc
  ++ htonl ipv4Header.srcAddress
  ++ htonl ipv4Header.destAddress

/-- The closing loop of `IPv4HeaderSerializer::serialize`: one `writeByte` per octet. -/
def writeOctets (stream : ByteOutputStream) : List Nat → ByteOutputStream
  | [] => stream
  | octet :: octets => writeOctets (stream.writeByte octet) octets

/-- `IPv4HeaderSerializer::serialize` (`IPv4HeaderSerializer.cc`): the two `ASSERT`s on the header
length and the fragment offset, the test of the CRC mode and the throw for a header with options
all precede the first write. -/
def serialize (stream : ByteOutputStream) (ipv4Header : IPv4Header) : SerializeOutcome :=
  if ipv4Header.headerLength % 4294967296 % 4 ≠ 0 then .failed .programmingError stream
  else if ipv4Header.fragmentOffset % 8 ≠ 0 then .failed .programmingError stream
  else if ipv4Header.crcMode ≠ .CRC_COMPUTED then .failed .unsupportedOperation stream
  else if (IP_HEADER_BYTES : Int) < ipv4Header.headerLength % 4294967296 then
    .failed .unsupportedOperation stream
  else .ok (writeOctets stream ((iphdr ipv4Header).take IP_HEADER_BYTES))

end IPv4HeaderSerializer

/-! ## `Chunk::serialize` and the serializers of slices and sequences -/

/-- Modelled from the spec: the serializer registry of section 4.3 for fields chunks, the concrete
serializer registered for each type id. -/
abbrev SerializerRegistry := Nat → ConcreteSerializer

namespace Chunk

mutual
/-- Modelled from the spec: `Chunk::serialize(stream, chunk, offset, length)`, which calls the
serializer that the registry of section 4.3 holds for the type of the chunk (none is registered for
an empty chunk); the defaults are offset 0 and length `-1`.  The slice case is the body of
`SliceChunkSerializer::serialize` and the sequence case the body of
`SequenceChunkSerializer::serialize` (`Serializer.cc`).  The cache that serializing stores in a
fields chunk is not carried back into the chunk value. -/
def serialize (registry : SerializerRegistry) : Chunk → ByteOutputStream → SerializerCounters →
    Int → Int → Except ChunkError (ByteOutputStream × SerializerCounters)
  | .emptyChunk _, _, _, _, _ => .error .unsupportedOperation
  | .lengthChunk _ n, stream, counters, offset, length =>
      .ok (ByteCountChunkSerializer.serialize stream counters n offset length)
  | .bytesChunk f bs, stream, counters, offset, length =>
      BytesChunkSerializer.serialize stream counters ⟨f, bs⟩ offset length
  | .fieldsChunk f t fs n cache, stream, counters, offset, length =>
      match FieldsChunkSerializer.serialize (registry t) stream counters ⟨f, t, fs, n, cache⟩
          offset length with
      | .error e => .error e
      | .ok (result, counted, _) => .ok (result, counted)
  | .sliceChunk _ c o l, stream, counters, offset, length =>
      serialize registry c stream counters ((o : Int) + offset)
        (if length = -1 then (l : Int) - offset else length)
  | .sequenceChunk _ cs, stream, counters, offset, length =>
      serializeChunks registry cs stream counters 0 offset
        (if offset + length = -1 then (lengthSum cs : Int) else length)
/-- The loop of `SequenceChunkSerializer::serialize` (`Serializer.cc`) over the elements from
`currentOffset` on, with `serializeBegin` and `serializeEnd` as the function computes them. -/
def serializeChunks (registry : SerializerRegistry) : List Chunk → ByteOutputStream →
    SerializerCounters → Int → Int → Int →
    Except ChunkError (ByteOutputStream × SerializerCounters)
  | [], stream, counters, _, _, _ => .ok (stream, counters)
  | chunk :: chunks, stream, counters, currentOffset, serializeBegin, serializeEnd =>
    if serializeBegin ≤ currentOffset ∧
        currentOffset + (getChunkLength chunk : Int) ≤ serializeEnd then
      match serialize registry chunk stream counters 0 (-1) with
      | .error e => .error e
      | .ok (result, counted) =>
        serializeChunks registry chunks result counted
          (currentOffset + (getChunkLength chunk : Int)) serializeBegin serializeEnd
    else if currentOffset < serializeBegin ∧
        serializeBegin < currentOffset + (getChunkLength chunk : Int) then
      match serialize registry chunk stream counters (serializeBegin - currentOffset)
          (currentOffset + (getChunkLength chunk : Int) - serializeBegin) with
      | .error e => .error e
      | .ok (result, counted) =>
        serializeChunks registry chunks result counted
          (currentOffset + (getChunkLength chunk : Int)) serializeBegin serializeEnd
    else if currentOffset < serializeEnd ∧
        serializeEnd < currentOffset + (getChunkLength chunk : Int) then
      match serialize registry chunk stream counters 0
          (currentOffset + (getChunkLength chunk : Int) - serializeEnd) with
      | .error e => .error e
      | .ok (result, counted) =>
        serializeChunks registry chunks result counted
          (currentOffset + (getChunkLength chunk : Int)) serializeBegin serializeEnd
    else
      serializeChunks registry chunks stream counters
        (currentOffset + (getChunkLength chunk : Int)) serializeBegin serializeEnd
end

/-- The window contract of `Chunk::serialize` for a chunk whose serialization is `s`: a request
for the window `[offset, offset + length)` inside `s` appends exactly these octets of `s`. -/
def serializesWindowsOf (registry : SerializerRegistry) (c : Chunk) (s : List Nat) : Prop :=
  ∀ (stream : ByteOutputStream) (counters : SerializerCounters) (offset length : Int),
    0 ≤ offset → 0 ≤ length → offset + length ≤ (s.length : Int) →
    ∃ counted, c.serialize registry stream counters offset length
      = .ok (⟨stream.bytes ++ (s.drop offset.toNat).take length.toNat⟩, counted)

end Chunk

namespace SliceChunkSerializer

/-- `SliceChunkSerializer::serialize` (`Serializer.cc`) for the slice `(chunk, sliceOffset,
sliceLength)`. -/
def serialize (registry : SerializerRegistry) (stream : ByteOutputStream)
    (counters : SerializerCounters) (chunk : Chunk) (sliceOffset sliceLength : Nat)
    (offset length : Int) : Except ChunkError (ByteOutputStream × SerializerCounters) :=
  chunk.serialize registry stream counters ((sliceOffset : Int) + offset)
    (if length = -1 then (sliceLength : Int) - offset else length)

/-- `SliceChunkSerializer::deserialize` (`Serializer.cc`): throws. -/
def deserialize (_stream : ByteInputStream) (_counters : SerializerCounters) :
    Except ChunkError (Chunk × ByteInputStream × SerializerCounters) :=
  .error .unsupportedOperation

end SliceChunkSerializer

namespace SequenceChunkSerializer

/-- `SequenceChunkSerializer::serialize` (`Serializer.cc`) for the sequence of `chunks`. -/
def serialize (registry : SerializerRegistry) (stream : ByteOutputStream)
    (counters : SerializerCounters) (chunks : List Chunk) (offset length : Int) :
    Except ChunkError (ByteOutputStream × SerializerCounters) :=
  Chunk.serializeChunks registry chunks stream counters 0 offset
    (if offset + length = -1 then (Chunk.lengthSum chunks : Int) else length)

/-- `SequenceChunkSerializer::deserialize` (`Serializer.cc`): throws. -/
def deserialize (_stream : ByteInputStream) (_counters : SerializerCounters) :
    Except ChunkError (Chunk × ByteInputStream × SerializerCounters) :=
  .error .unsupportedOperation

end SequenceChunkSerializer

/-- A registry in which every type id has the serializer of `TlvHeaderBool`. -/
def tlvRegistry : SerializerRegistry := fun _ => tlvHeaderBoolSerializer

/-! ## `ChunkBuffer` -/

/-- Modelled from the spec: a region of a `ChunkBuffer` (section 4.6; `ChunkBuffer.h` is missing),
a chunk at an offset.  Offsets and lengths are not negative. -/
structure Region where
  offset : Nat
  data : Chunk
deriving Repr

namespace Region

/-- Modelled from the spec: the offset behind the last unit of the region. -/
def getEndOffset (r : Region) : Nat := r.offset + r.data.getChunkLength

/-- Modelled from the spec: what is left of a region in front of `offset` when the units from
`offset` on are overwritten or erased: the region itself when it ends there or before, its clipped
front part when it straddles `offset`, nothing otherwise. -/
def before (offset : Nat) (r : Region) : Option Region :=
  if r.getEndOffset ≤ offset then some r
  else if r.offset < offset then some ⟨r.offset, r.data.window 0 (offset - r.offset)⟩
  else none

/-- Modelled from the spec: what is left of a region behind `endOffset` when the units before
`endOffset` are overwritten or erased: the region itself when it starts there or later, its clipped
back part when it straddles `endOffset`, nothing otherwise. -/
def after (endOffset : Nat) (r : Region) : Option Region :=
  if endOffset ≤ r.offset then some r
  else if endOffset < r.getEndOffset then
    some ⟨endOffset, r.data.window (endOffset - r.offset) (r.getEndOffset - endOffset)⟩
  else none

/-- Modelled from the spec: two adjacent regions merged into one; their chunks are put into a
sequence, which is flattened, merged and collapsed by the rules of section 4.2. -/
def merge (r s : Region) : Region :=
  ⟨r.offset,
    Chunk.collapse (Chunk.mergeChunks (Chunk.inlineChunk r.data ++ Chunk.inlineChunk s.data))⟩

/-- The content unit of the region at offset `i`, none outside the region. -/
def unitAt (r : Region) (i : Nat) : Option ContentUnit :=
  if r.offset ≤ i ∧ i < r.getEndOffset then r.data.units[i - r.offset]? else none

end Region

/-- Modelled from the spec: `ChunkBuffer` (section 4.6), the regions in increasing offset
order. -/
structure ChunkBuffer where
  regions : List Region
deriving Repr

namespace ChunkBuffer

/-- Modelled from the spec: a new buffer has no region. -/
def new : ChunkBuffer := ⟨[]⟩

/-- Modelled from the spec: `getNumRegions`. -/
def getNumRegions (buffer : ChunkBuffer) : Nat := buffer.regions.length

/-- Modelled from the spec: `getRegionData(i)`. -/
def getRegionData (buffer : ChunkBuffer) (i : Nat) : Option Chunk :=
  (buffer.regions[i]?).map fun r => r.data

/-- Modelled from the spec: `getRegionStartOffset(i)`. -/
def getRegionStartOffset (buffer : ChunkBuffer) (i : Nat) : Option Nat :=
  (buffer.regions[i]?).map fun r => r.offset

/-- Modelled from the spec: the merge pass over regions in offset order: a region that starts where
the region `acc` before it ends is merged into `acc`. -/
def mergeInto (acc : Region) : List Region → List Region
  | [] => [acc]
  | r :: rs =>
    if acc.getEndOffset = r.offset then mergeInto (acc.merge r) rs else acc :: mergeInto r rs

/-- Modelled from the spec: regions that touch are merged. -/
def mergeRegions : List Region → List Region
  | [] => []
  | r :: rs => mergeInto r rs

/-- Modelled from the spec: `clear(offset, length)` erases the window and splits the regions that
straddle its boundaries; an empty window erases nothing. -/
def clear (buffer : ChunkBuffer) (offset length : Nat) : ChunkBuffer :=
  if length = 0 then buffer
  else
    ⟨buffer.regions.filterMap (Region.before offset)
      ++ buffer.regions.filterMap (Region.after (offset + length))⟩

/-- Modelled from the spec: `replace(offset, chunk)` writes the chunk at the offset: the regions it
overlaps are clipped or split, and the regions that become adjacent to the new one merge with it;
an empty chunk writes nothing. -/
def replace (buffer : ChunkBuffer) (offset : Nat) (chunk : Chunk) : ChunkBuffer :=
  if chunk.getChunkLength = 0 then buffer
  else
    ⟨mergeRegions (buffer.regions.filterMap (Region.before offset)
      ++ ⟨offset, chunk⟩ :: buffer.regions.filterMap
        (Region.after (offset + chunk.getChunkLength)))⟩

/-- The content unit a list of regions holds at offset `i`: that of the first region with a unit
there. -/
def unitAt : List Region → Nat → Option ContentUnit
  | [], _ => none
  | r :: rs, i =>
    match r.unitAt i with
    | some u => some u
    | none => unitAt rs i

/-- Regions in increasing offset order that do not overlap, each well formed and not empty. -/
def ordered (rs : List Region) : Prop :=
  rs.Pairwise (fun r s => r.getEndOffset ≤ s.offset) ∧
    ∀ r ∈ rs, r.data.wellFormed = true ∧ 0 < r.data.getChunkLength

/-- Regions in increasing offset order that neither overlap nor touch, each well formed and not
empty. -/
def separated (rs : List Region) : Prop :=
  rs.Pairwise (fun r s => r.getEndOffset < s.offset) ∧
    ∀ r ∈ rs, r.data.wellFormed = true ∧ 0 < r.data.getChunkLength

end ChunkBuffer

/-- The plain buffer `buffer10` of `testChunkBuffer` (`UnitTest.cc`): an `int` per offset, `-1`
where nothing is written. -/
abbrev PlainBuffer := Nat → Int

namespace PlainBuffer

/-- The buffer after `memset(buffer10, -1, ...)`. -/
def new : PlainBuffer := fun _ => -1

/-- The loop `*(buffer10 + chunkOffset + i) = bytes[i]` of `testChunkBuffer`. -/
def write (buffer : PlainBuffer) (chunkOffset : Nat) (bytes : List Nat) : PlainBuffer :=
  fun i =>
    if chunkOffset ≤ i ∧ i < chunkOffset + bytes.length then (bytes.getD (i - chunkOffset) 0 : Int)
    else buffer i

/-- The loop `*(buffer10 + chunkOffset + i) = -1` of `testChunkBuffer`. -/
def erase (buffer : PlainBuffer) (chunkOffset chunkLength : Nat) : PlainBuffer :=
  fun i => if chunkOffset ≤ i ∧ i < chunkOffset + chunkLength then -1 else buffer i

end PlainBuffer

/-- The two operations `testChunkBuffer` applies to both buffers: replacing data by a bytes chunk
and clearing data. -/
inductive BufferOperation where
  | replace (chunkOffset : Nat) (bytes : List Nat)
  | clear (chunkOffset chunkLength : Nat)
deriving DecidableEq, Repr

/-- One operation on the chunk buffer; the chunk is built and marked immutable as in
`testChunkBuffer`. -/
def ChunkBuffer.apply (buffer : ChunkBuffer) : BufferOperation → ChunkBuffer
  | .replace chunkOffset bytes => buffer.replace chunkOffset (makeImmutableBytesChunk bytes)
  | .clear chunkOffset chunkLength => buffer.clear chunkOffset chunkLength

/-- The chunk buffer after a sequence of operations. -/
def ChunkBuffer.run (buffer : ChunkBuffer) (operations : List BufferOperation) : ChunkBuffer :=
  operations.foldl ChunkBuffer.apply buffer

/-- One operation on the plain buffer. -/
def PlainBuffer.apply (buffer : PlainBuffer) : BufferOperation → PlainBuffer
  | .replace chunkOffset bytes => PlainBuffer.write buffer chunkOffset bytes
  | .clear chunkOffset chunkLength => PlainBuffer.erase buffer chunkOffset chunkLength

/-- The plain buffer after a sequence of operations. -/
def PlainBuffer.run (buffer : PlainBuffer) (operations : List BufferOperation) : PlainBuffer :=
  operations.foldl PlainBuffer.apply buffer

/-- The `int` the plain buffer holds for a content unit: the octet of a bytes chunk, `-1` where
there is no unit. -/
def plainValue : Option ContentUnit → Int
  | some (.octet value) => (value : Int)
  | some _ => -2
  | none => -1

/-! ## `MACRelayUnit` (`MACRelayUnit.cc`) -/

/-- The members of `InterfaceEntry` that `MACRelayUnit::broadcastFrame` reads (the class
declaration is missing). -/
structure InterfaceEntry where
  interfaceId : Int
  loopback : Bool
  broadcast : Bool
deriving DecidableEq, Repr

namespace InterfaceEntry

/-- `InterfaceEntry::getInterfaceId`. -/
def getInterfaceId (ie : InterfaceEntry) : Int := ie.interfaceId

/-- `InterfaceEntry::isLoopback`. -/
def isLoopback (ie : InterfaceEntry) : Bool := ie.loopback

/-- `InterfaceEntry::isBroadcast`: the interface can send broadcast frames. -/
def isBroadcast (ie : InterfaceEntry) : Bool := ie.broadcast

end InterfaceEntry

/-- A MAC address, as the 48 bit number it stands for (the class declaration is missing). -/
structure MACAddress where
  address : Nat
deriving DecidableEq, Repr

/-- `MACAddress::isBroadcast`: the address `ff:ff:ff:ff:ff:ff`. -/
def MACAddress.isBroadcast (a : MACAddress) : Bool := a.address == 0xFFFFFFFFFFFF

/-- The fields of `EtherFrame` that `MACRelayUnit` reads (the message definition is missing). -/
structure EtherFrame where
  src : MACAddress
  dest : MACAddress
deriving DecidableEq, Repr

/-- The two methods of the interface `IMACAddressTable` that `MACRelayUnit` calls, for a table
whose state has type `Table`: `updateTableWithAddress(portno, address)` and
`getPortForAddress(address)`.  The module that implements them is not part of the sources, so
they are left open. -/
structure IMACAddressTable (Table : Type) where
  updateTableWithAddress : Table → Int → MACAddress → Table
  getPortForAddress : Table → MACAddress → Int

/-- A packet as `MACRelayUnit` hands it to `send(..., "ifOut")`: the frame it carries, the
`InterfaceInd` tag with the interface it arrived on and the `InterfaceReq` tag with the interface
it is to leave on. -/
structure RelayedPacket where
  frame : EtherFrame
  interfaceInd : Int
  interfaceReq : Int
deriving DecidableEq, Repr

/-- The members of `MACRelayUnit`: the two counters, the address table, the interfaces of the
interface table in index order and the operational flag. -/
structure MACRelayUnit (Table : Type) where
  numProcessedFrames : Int
  numDiscardedFrames : Int
  addressTable : Table
  ift : List InterfaceEntry
  isOperational : Bool

namespace MACRelayUnit

/-- The loop of `MACRelayUnit::broadcastFrame` over the interfaces from index `i` on: the packets
sent. -/
def broadcastLoop (frame : EtherFrame) (inputInterfaceId : Int) :
    List InterfaceEntry → List RelayedPacket
  | [] => []
  | ie :: rest =>
    if ie.isLoopback || !ie.isBroadcast then broadcastLoop frame inputInterfaceId rest
    else if inputInterfaceId ≠ ie.getInterfaceId then
      ⟨frame, inputInterfaceId, ie.getInterfaceId⟩ :: broadcastLoop frame inputInterfaceId rest
    else broadcastLoop frame inputInterfaceId rest

/-- `MACRelayUnit::broadcastFrame` (`MACRelayUnit.cc`): the packets sent. -/
def broadcastFrame {Table : Type} (unit : MACRelayUnit Table) (frame : EtherFrame)
    (inputInterfaceId : Int) : List RelayedPacket :=
  broadcastLoop frame inputInterfaceId unit.ift

/-- `MACRelayUnit::handleAndDispatchFrame` (`MACRelayUnit.cc`) for a packet that carries `frame`
and the `InterfaceInd` tag `inputInterfaceId`: the module after the call and the packets sent. -/
def handleAndDispatchFrame {Table : Type} (table : IMACAddressTable Table)
    (unit : MACRelayUnit Table) (inputInterfaceId : Int) (frame : EtherFrame) :
    MACRelayUnit Table × List RelayedPacket :=
  let counted : MACRelayUnit Table :=
    { unit with
      numProcessedFrames := unit.numProcessedFrames + 1
      addressTable := table.updateTableWithAddress unit.addressTable inputInterfaceId frame.src }
  if frame.dest.isBroadcast then (counted, counted.broadcastFrame frame inputInterfaceId)
  else if inputInterfaceId = table.getPortForAddress counted.addressTable frame.dest then
    ({ counted with numDiscardedFrames := counted.numDiscardedFrames + 1 }, [])
  else if table.getPortForAddress counted.addressTable frame.dest ≥ 0 then
    (counted,
      [⟨frame, inputInterfaceId, table.getPortForAddress counted.addressTable frame.dest⟩])
  else (counted, counted.broadcastFrame frame inputInterfaceId)

/-- `MACRelayUnit::handleMessage` (`MACRelayUnit.cc`): a message that arrives while the module is
down is dropped. -/
def handleMessage {Table : Type} (table : IMACAddressTable Table) (unit : MACRelayUnit Table)
    (inputInterfaceId : Int) (frame : EtherFrame) : MACRelayUnit Table × List RelayedPacket :=
  if !unit.isOperational then (unit, [])
  else handleAndDispatchFrame table unit inputInterfaceId frame

/-- The module and all the packets it has sent after a sequence of messages, each given by the
interface it arrived on and the frame it carries. -/
def handleMessages {Table : Type} (table : IMACAddressTable Table) :
    MACRelayUnit Table → List (Int × EtherFrame) → MACRelayUnit Table × List RelayedPacket
  | unit, [] => (unit, [])
  | unit, (inputInterfaceId, frame) :: rest =>
    ((handleMessages table (handleMessage table unit inputInterfaceId frame).1 rest).1,
      (handleMessage table unit inputInterfaceId frame).2
        ++ (handleMessages table (handleMessage table unit inputInterfaceId frame).1 rest).2)

end MACRelayUnit

/-- An address table that learns the port of every source address in a list, with `-1` for an
address it has not learned. -/
def learningTable : IMACAddressTable (List (MACAddress × Int)) where
  updateTableWithAddress entries portno address := (address, portno) :: entries
  getPortForAddress entries address :=
    match entries.find? (fun entry => entry.1 == address) with
    | some entry => entry.2
    | none => -1

/-! ## `ReorderBuffer` -/

/-- Modelled from the spec: `ReorderBuffer` (section 4.8; `ReorderBuffer.h` is missing), a
`ChunkBuffer` with the expected offset. -/
structure ReorderBuffer where
  expectedOffset : Nat
  buffer : ChunkBuffer
deriving Repr

namespace ReorderBuffer

/-- Modelled from the spec: `ReorderBuffer(expectedOffset)` of `testReorderBuffer`, a buffer
without regions. -/
def new (expectedOffset : Nat) : ReorderBuffer := ⟨expectedOffset, ChunkBuffer.new⟩

/-- Modelled from the spec: `getExpectedOffset`. -/
def getExpectedOffset (b : ReorderBuffer) : Nat := b.expectedOffset

/-- Modelled from the spec: `replace(offset, chunk)` writes into the underlying `ChunkBuffer`. -/
def replace (b : ReorderBuffer) (offset : Nat) (chunk : Chunk) : ReorderBuffer :=
  { b with buffer := b.buffer.replace offset chunk }

/-- Modelled from the spec: `popData()` returns the data of the region that starts at the expected
offset, removes it from the buffer and advances the expected offset by its length; it returns null
and changes nothing when no region starts there. -/
def popData (b : ReorderBuffer) : Option Chunk × ReorderBuffer :=
  match b.buffer.regions.find? (fun r => r.offset == b.expectedOffset) with
  | some r =>
    (some r.data,
      ⟨b.expectedOffset + r.data.getChunkLength,
        b.buffer.clear b.expectedOffset r.data.getChunkLength⟩)
  | none => (none, b)

end ReorderBuffer

/-- The two calls made on a `ReorderBuffer`. -/
inductive ReorderOperation where
  | replace (offset : Nat) (chunk : Chunk)
  | popData
deriving Repr

/-- The chunk written by a `replace` is well formed. -/
def ReorderOperation.wellFormed : ReorderOperation → Bool
  | .replace _ chunk => chunk.wellFormed
  | .popData => true

/-- The buffer after one call. -/
def ReorderBuffer.apply (b : ReorderBuffer) : ReorderOperation → ReorderBuffer
  | .replace offset chunk => b.replace offset chunk
  | .popData => b.popData.2

/-- The buffer after a sequence of calls. -/
def ReorderBuffer.run (b : ReorderBuffer) (operations : List ReorderOperation) : ReorderBuffer :=
  operations.foldl ReorderBuffer.apply b

/-! ## `BytesChunk::createChunk` (`BytesChunk.cc`) -/

/-- Modelled from the spec: `ByteOutputStream::operator[]` (section 6.2 names no such accessor;
`ByteStream.h` is missing), the octet written at an index; an index outside the octets written is
an out-of-range offset (section 7). -/
def ByteOutputStream.get (stream : ByteOutputStream) (index : Int) : Except ChunkError Nat :=
  if 0 ≤ index then
    match stream.bytes.drop index.toNat with
    | value :: _ => .ok value
    | [] => .error .programmingError
  else .error .programmingError

/-- The value of a 64 bit quantity stored in an `int` of 32 bits, as for the local `byteCount` of
`BytesChunk::createChunk`. -/
def toInt32 (value : Int) : Int := (value + 2147483648) % 4294967296 - 2147483648

namespace BytesChunk

/-- The loop of `BytesChunk::createChunk`: for `i` from its current value on, `count` times,
`outputStream[byteOffset + i]` is pushed to the back of `chunkBytes`. -/
def createLoop (outputStream : ByteOutputStream) (byteOffset : Int) :
    Nat → Int → List Nat → Except ChunkError (List Nat)
  | 0, _, chunkBytes => .ok chunkBytes
  | count + 1, i, chunkBytes =>
    match outputStream.get (byteOffset + i) with
    | .error e => .error e
    | .ok value => createLoop outputStream byteOffset count (i + 1) (chunkBytes ++ [value])

/-- `BytesChunk::createChunk` (`BytesChunk.cc`): the chunk is serialized to a new stream,
`byteCount` is the size of the stream for the length `-1` and the length otherwise, and the octets
`outputStream[byteOffset + i]` for `i < byteCount` make the new bytes chunk.  The counters after the
call are returned with it. -/
def createChunk (registry : SerializerRegistry) (counters : SerializerCounters) (chunk : Chunk)
    (byteOffset byteLength : Int) : Except ChunkError (BytesChunk × SerializerCounters) :=
  match chunk.serialize registry ⟨[]⟩ counters 0 (-1) with
  | .error e => .error e
  | .ok (outputStream, counted) =>
    match createLoop outputStream byteOffset
        (toInt32 (if byteLength = -1 then outputStream.getSize else byteLength)).toNat 0 [] with
    | .error e => .error e
    | .ok chunkBytes => .ok (BytesChunk.ofBytes chunkBytes, counted)

end BytesChunk

/-! ## Further stream primitives -/

/-- The four 32 bit words of an `IPv6Address` (`words()`; the class declaration is missing). -/
structure IPv6Address where
  d0 : Nat
  d1 : Nat
  d2 : Nat
  d3 : Nat
deriving DecidableEq, Repr

/-- The words of the address are values of the source type `uint32`. -/
def IPv6Address.isUint32 (a : IPv6Address) : Prop :=
  a.d0 < 4294967296 ∧ a.d1 < 4294967296 ∧ a.d2 < 4294967296 ∧ a.d3 < 4294967296

instance IPv6Address.decidableIsUint32 (a : IPv6Address) : Decidable a.isUint32 :=
  inferInstanceAs
    (Decidable (a.d0 < 4294967296 ∧ a.d1 < 4294967296 ∧ a.d2 < 4294967296 ∧ a.d3 < 4294967296))

namespace ByteOutputStream

/-- Modelled from the spec: `writeUint32(value)` (section 6.2), which appends the four octets of
the 32 bit value in network byte order. -/
def writeUint32 (stream : ByteOutputStream) (value : Int) : ByteOutputStream :=
  ⟨stream.bytes ++ [((value % 4294967296) / 16777216).toNat, ((value % 16777216) / 65536).toNat,
    ((value % 65536) / 256).toNat, (value % 256).toNat]⟩

/-- Modelled from the spec: `writeIPv4Address(address)`, the four octets of the address in network
byte order. -/
def writeIPv4Address (stream : ByteOutputStream) (address : Int) : ByteOutputStream :=
  stream.writeUint32 address

/-- Modelled from the spec: `writeIPv6Address(address)`, the sixteen octets of the address in
network byte order. -/
def writeIPv6Address (stream : ByteOutputStream) (address : IPv6Address) : ByteOutputStream :=
  (((stream.writeUint32 address.d0).writeUint32 address.d1).writeUint32 address.d2).writeUint32
    address.d3

end ByteOutputStream

namespace ByteInputStream

/-- Modelled from the spec: `readUint32` (section 6.2), which reads four octets as a 32 bit value
in network byte order. -/
def readUint32 (stream : ByteInputStream) : Except ChunkError (Nat × ByteInputStream) :=
  match stream.readUint16 with
  | .error e => .error e
  | .ok (high, next) =>
    match next.readUint16 with
    | .error e => .error e
    | .ok (low, last) => .ok (high * 65536 + low, last)

/-- Modelled from the spec: `readIPv4Address`, which reads the four octets of an address. -/
def readIPv4Address (stream : ByteInputStream) : Except ChunkError (Nat × ByteInputStream) :=
  stream.readUint32

/-- Modelled from the spec: `seek(position)`, which sets the read position. -/
def seek (stream : ByteInputStream) (position : Int) : ByteInputStream :=
  { stream with position := position }

/-- The loop `buffer[i] = stream.readByte()` of the header deserializers: `count` octets read into
a buffer. -/
def readBuffer (stream : ByteInputStream) (count : Nat) :
    Except ChunkError (List Nat × ByteInputStream) :=
  BytesChunkSerializer.readLoop count stream []

end ByteInputStream

/-! ## Host byte order -/

/-- The byte order of the host the serializers run on.  `htons`, `ntohs`, `htonl` and `ntohl` swap
the octets of their argument on a little-endian host and return it as it is on a big-endian
host. -/
inductive ByteOrder where
  | littleEndian
  | bigEndian
deriving DecidableEq, Repr

namespace ByteOrder

/-- The 16 bit value with its two octets swapped. -/
def swap16 (value : Nat) : Nat := value % 256 * 256 + value / 256 % 256

/-- The 32 bit value with its four octets in reverse order. -/
def swap32 (value : Nat) : Nat :=
  value % 256 * 16777216 + value / 256 % 256 * 65536 + value / 65536 % 256 * 256
    + value / 16777216 % 256

/-- `htons`: the parameter is a `uint16_t`. -/
def htons (order : ByteOrder) (value : Int) : Nat :=
  match order with
  | .littleEndian => swap16 (value % 65536).toNat
  | .bigEndian => (value % 65536).toNat

/-- `ntohs`: the parameter is a `uint16_t`. -/
def ntohs (order : ByteOrder) (value : Int) : Nat :=
  match order with
  | .littleEndian => swap16 (value % 65536).toNat
  | .bigEndian => (value % 65536).toNat

/-- `htonl`: the parameter is a `uint32_t`. -/
def htonl (order : ByteOrder) (value : Int) : Nat :=
  match order with
  | .littleEndian => swap32 (value % 4294967296).toNat
  | .bigEndian => (value % 4294967296).toNat

/-- `ntohl`: the parameter is a `uint32_t`. -/
def ntohl (order : ByteOrder) (value : Int) : Nat :=
  match order with
  | .littleEndian => swap32 (value % 4294967296).toNat
  | .bigEndian => (value % 4294967296).toNat

/-- The two octets of a `uint16_t` member as they lie in memory. -/
def store16 (order : ByteOrder) (value : Nat) : List Nat :=
  match order with
  | .littleEndian => [value % 256, value / 256 % 256]
  | .bigEndian => [value / 256 % 256, value % 256]

/-- The four octets of a `uint32_t` member as they lie in memory. -/
def store32 (order : ByteOrder) (value : Nat) : List Nat :=
  match order with
  | .littleEndian =>
    [value % 256, value / 256 % 256, value / 65536 % 256, value / 16777216 % 256]
  | .bigEndian =>
    [value / 16777216 % 256, value / 65536 % 256, value / 256 % 256, value % 256]

/-- The value of a `uint16_t` member whose two octets in memory are `b0` and `b1`. -/
def load16 (order : ByteOrder) (b0 b1 : Nat) : Nat :=
  match order with
  | .littleEndian => b1 * 256 + b0
  | .bigEndian => b0 * 256 + b1

/-- The value of a `uint32_t` member whose four octets in memory are `b0` to `b3`. -/
def load32 (order : ByteOrder) (b0 b1 b2 b3 : Nat) : Nat :=
  match order with
  | .littleEndian => b3 * 16777216 + b2 * 65536 + b1 * 256 + b0
  | .bigEndian => b0 * 16777216 + b1 * 65536 + b2 * 256 + b3

/-- The value a host reads from a 16 bit member that holds `htons(value)` when it reads the
member without `ntohs`: on a little-endian host the value with its two octets swapped. -/
def withoutNtohs (order : ByteOrder) (value : Int) : Int :=
  match order with
  | .littleEndian => (swap16 value.toNat : Int)
  | .bigEndian => value

end ByteOrder

/-! ## IPv4 options and `IPv4HeaderSerializer::deserialize` -/

/-- The option classes that `IPv4HeaderSerializer::deserializeOption` creates, each with the
members it sets (the message definitions are missing). -/
inductive TLVOptionBase where
  | IPv4OptionEnd
  | IPv4OptionNop
  | IPv4OptionStreamId (type length streamId : Nat)
  | IPv4OptionTimestamp (type length : Nat) (flag : Int) (overflow nextIdx : Nat)
      (recordTimestamp recordAddress : List Nat)
  | IPv4OptionRecordRoute (type length nextAddressIdx : Nat) (recordAddress : List Nat)
  | TLVOptionRaw (type length : Nat) (bytes : List Nat)
deriving DecidableEq, Repr

/-- What `IPv4HeaderSerializer::deserialize` builds: the header fields it sets, the options it
adds and whether it marks the header incorrect. -/
structure DeserializedIPv4Header where
  header : IPv4Header
  options : List TLVOptionBase
  incorrect : Bool
deriving DecidableEq, Repr

namespace IPv4HeaderSerializer

/-- `IP_OFFMASK`, the mask of the fragment offset in the `ip_off` field. -/
def IP_OFFMASK : Nat := 0x1fff

/-- The option types of the enumeration `IPOption` (its message file is missing; the values are
those of the INET message file). -/
def IPOPTION_END_OF_OPTIONS : Nat := 0

/-- See `IPOPTION_END_OF_OPTIONS`. -/
def IPOPTION_NO_OPTION : Nat := 1

/-- See `IPOPTION_END_OF_OPTIONS`. -/
def IPOPTION_STREAM_ID : Nat := 8

/-- See `IPOPTION_END_OF_OPTIONS`. -/
def IPOPTION_TIMESTAMP : Nat := 68

/-- See `IPOPTION_END_OF_OPTIONS`. -/
def IPOPTION_LOOSE_SOURCE_ROUTING : Nat := 131

/-- See `IPOPTION_END_OF_OPTIONS`. -/
def IPOPTION_RECORD_ROUTE : Nat := 136

/-- See `IPOPTION_END_OF_OPTIONS`. -/
def IPOPTION_STRICT_SOURCE_ROUTING : Nat := 137

/-- The timestamp flags of the enumeration `TimestampFlag`; `deserializeOption` maps the flag
nibbles 0, 1 and 3 to them. -/
def IP_TIMESTAMP_TIMESTAMP_ONLY : Int := 0

/-- See `IP_TIMESTAMP_TIMESTAMP_ONLY`. -/
def IP_TIMESTAMP_WITH_ADDRESS : Int := 1

/-- See `IP_TIMESTAMP_TIMESTAMP_ONLY`. -/
def IP_TIMESTAMP_SENDER_INIT_ADDRESS : Int := 3

/-- The end of `IPv4HeaderSerializer::deserializeOption`, reached by every `break`: the stream goes
back to `position`, type and length are read again and the remaining `length - 2` octets become
the bytes of a `TLVOptionRaw`. -/
def deserializeRaw (stream : ByteInputStream) (position : Int) :
    Except ChunkError (TLVOptionBase × ByteInputStream) :=
  match (stream.seek position).readByte with
  | .error e => .error e
  | .ok (type, s1) =>
    match s1.readByte with
    | .error e => .error e
    | .ok (length, s2) =>
      match BytesChunkSerializer.readLoop (length - 2) s2 [] with
      | .error e => .error e
      | .ok (bytes, s3) => .ok (.TLVOptionRaw type length bytes, s3)

/-- The loop over the records of a timestamp option: it runs while `count` is below the size of
the record address array, reads an address when a record has eight octets, and reads a
timestamp. -/
def readRecords (bytes : Nat) : Nat → Nat → ByteInputStream → List Nat → List Nat →
    Except ChunkError (List Nat × List Nat × ByteInputStream)
  | 0, _, stream, recordTimestamp, recordAddress => .ok (recordTimestamp, recordAddress, stream)
  | remaining + 1, count, stream, recordTimestamp, recordAddress =>
    if bytes = 8 then
      match stream.readIPv4Address with
      | .error e => .error e
      | .ok (address, s1) =>
        match s1.readUint32 with
        | .error e => .error e
        | .ok (timestamp, s2) =>
          readRecords bytes remaining (count + 1) s2 (recordTimestamp.set count timestamp)
            (recordAddress.set count address)
    else
      match stream.readUint32 with
      | .error e => .error e
      | .ok (timestamp, s1) =>
        readRecords bytes remaining (count + 1) s1 (recordTimestamp.set count timestamp)
          recordAddress

/-- The loop over the addresses of a record route option. -/
def readAddresses : Nat → Nat → ByteInputStream → List Nat →
    Except ChunkError (List Nat × ByteInputStream)
  | 0, _, stream, recordAddress => .ok (recordAddress, stream)
  | remaining + 1, count, stream, recordAddress =>
    match stream.readIPv4Address with
    | .error e => .error e
    | .ok (address, s1) =>
      readAddresses remaining (count + 1) s1 (recordAddress.set count address)

/-- The case `IPOPTION_TIMESTAMP` of `IPv4HeaderSerializer::deserializeOption`, entered with the
stream behind the type octet.  The record timestamp array gets `(length - 4) / bytes` entries,
the record address array gets as many only when a record has eight octets, and the loop that reads
the records runs over the record address array. -/
def deserializeTimestamp (type : Nat) (position : Int) (s1 : ByteInputStream) :
    Except ChunkError (TLVOptionBase × ByteInputStream) :=
  match s1.readByte with
  | .error e => .error e
  | .ok (length, s2) =>
    match s2.readByte with
    | .error e => .error e
    | .ok (pointer, s3) =>
      match s3.readByte with
      | .error e => .error e
      | .ok (flagbyte, s4) =>
        let flag : Int :=
          if flagbyte &&& 0x0f = 0 then IP_TIMESTAMP_TIMESTAMP_ONLY
          else if flagbyte &&& 0x0f = 1 then IP_TIMESTAMP_WITH_ADDRESS
          else if flagbyte &&& 0x0f = 3 then IP_TIMESTAMP_SENDER_INIT_ADDRESS
          else -1
        let bytes : Nat :=
          if flagbyte &&& 0x0f = 0 then 4
          else if flagbyte &&& 0x0f = 1 then 8
          else if flagbyte &&& 0x0f = 3 then 8
          else 0
        if flag ≠ -1 ∧ length > 4 ∧ bytes ≠ 0 ∧ (length - 4) % bytes = 0 ∧ pointer ≥ 5 ∧
            (pointer - 5) % bytes = 0 then
          match readRecords bytes (if bytes = 8 then (length - 4) / bytes else 0) 0 s4
              (List.replicate ((length - 4) / bytes) 0)
              (List.replicate (if bytes = 8 then (length - 4) / bytes else 0) 0) with
          | .error e => .error e
          | .ok (recordTimestamp, recordAddress, s5) =>
            .ok (.IPv4OptionTimestamp type length flag (flagbyte >>> 4) ((pointer - 5) / bytes)
              recordTimestamp recordAddress, s5)
        else deserializeRaw s4 position

/-- `IPv4HeaderSerializer::deserializeOption` (`IPv4HeaderSerializer.cc`): the option and the
stream after the call. -/
def deserializeOption (stream : ByteInputStream) :
    Except ChunkError (TLVOptionBase × ByteInputStream) :=
  match stream.readByte with
  | .error e => .error e
  | .ok (type, s1) =>
    if type = IPOPTION_END_OF_OPTIONS then .ok (.IPv4OptionEnd, s1)
    else if type = IPOPTION_NO_OPTION then .ok (.IPv4OptionNop, s1)
    else if type = IPOPTION_STREAM_ID then
      match s1.readByte with
      | .error e => .error e
      | .ok (length, s2) =>
        if length = 4 then
          match s2.readUint16 with
          | .error e => .error e
          | .ok (streamId, s3) => .ok (.IPv4OptionStreamId type length streamId, s3)
        else deserializeRaw s2 stream.getPosition
    else if type = IPOPTION_TIMESTAMP then deserializeTimestamp type stream.getPosition s1
    else if type = IPOPTION_RECORD_ROUTE ∨ type = IPOPTION_LOOSE_SOURCE_ROUTING ∨
        type = IPOPTION_STRICT_SOURCE_ROUTING then
      match s1.readByte with
      | .error e => .error e
      | .ok (length, s2) =>
        match s2.readByte with
        | .error e => .error e
        | .ok (pointer, s3) =>
          if length > 3 ∧ length % 4 = 3 ∧ pointer ≥ 4 ∧ pointer % 4 = 0 then
            match readAddresses ((length - 3) / 4) 0 s3 (List.replicate ((length - 3) / 4) 0) with
            | .error e => .error e
            | .ok (recordAddress, s4) =>
              .ok (.IPv4OptionRecordRoute type length ((pointer - 4) / 4) recordAddress, s4)
          else deserializeRaw s3 stream.getPosition
    else
      match s1.readByte with
      | .error e => .error e
      | .ok (_, s2) => deserializeRaw s2 stream.getPosition

/-- The loop `while (stream.getPosition() - position < headerLength)` of
`IPv4HeaderSerializer::deserialize`, which adds one option per round.  Every round moves the stream
forward by at least one octet, so `fuel` rounds suffice for a header length of `fuel` octets. -/
def deserializeOptions (position headerLength : Int) :
    Nat → ByteInputStream → List TLVOptionBase →
    Except ChunkError (List TLVOptionBase × ByteInputStream)
  | 0, stream, options =>
    if stream.getPosition - position < headerLength then .error .programmingError
    else .ok (options, stream)
  | fuel + 1, stream, options =>
    if stream.getPosition - position < headerLength then
      match deserializeOption stream with
      | .error e => .error e
      | .ok (option, next) => deserializeOptions position headerLength fuel next (options ++ [option])
    else .ok (options, stream)

/-- The header length `IPv4HeaderSerializer::deserialize` takes from the buffer: `ip_hl << 2`,
raised to `IP_HEADER_BYTES` when it is less. -/
def headerLengthOf (buffer : List Nat) : Nat :=
  if (buffer.getD 0 0 % 16) <<< 2 < IP_HEADER_BYTES then IP_HEADER_BYTES
  else (buffer.getD 0 0 % 16) <<< 2

/-- The fields `IPv4HeaderSerializer::deserialize` sets from the 20 octets of the buffer read as a
`struct ip`.  The 16 and 32 bit members go through `ntohs` and `ntohl`, except `ip_sum`, which is
handed to `setCrc` as the host loads it. -/
def fromBuffer (order : ByteOrder) (buffer : List Nat) : IPv4Header :=
  { headerLength := (headerLengthOf buffer : Int)
    version := ((buffer.getD 0 0 / 16 % 16 : Nat) : Int)
    typeOfService := ((buffer.getD 1 0 : Nat) : Int)
    identification :=
      ((order.ntohs (order.load16 (buffer.getD 4 0) (buffer.getD 5 0)) : Nat) : Int)
    fragmentOffset :=
      (((order.ntohs (order.load16 (buffer.getD 6 0) (buffer.getD 7 0)) &&& IP_OFFMASK) * 8 :
        Nat) : Int)
    moreFragments :=
      (order.ntohs (order.load16 (buffer.getD 6 0) (buffer.getD 7 0)) &&& IP_MF) != 0
    dontFragment :=
      (order.ntohs (order.load16 (buffer.getD 6 0) (buffer.getD 7 0)) &&& IP_DF) != 0
    timeToLive := ((buffer.getD 8 0 : Nat) : Int)
    transportProtocol := ((buffer.getD 9 0 : Nat) : Int)
    srcAddress :=
      ((order.ntohl (order.load32 (buffer.getD 12 0) (buffer.getD 13 0) (buffer.getD 14 0)
        (buffer.getD 15 0)) : Nat) : Int)
    destAddress :=
      ((order.ntohl (order.load32 (buffer.getD 16 0) (buffer.getD 17 0) (buffer.getD 18 0)
        (buffer.getD 19 0)) : Nat) : Int)
    totalLengthField :=
      ((order.ntohs (order.load16 (buffer.getD 2 0) (buffer.getD 3 0)) : Nat) : Int)
    crcMode := .CRC_COMPUTED
    crc := ((order.load16 (buffer.getD 10 0) (buffer.getD 11 0) : Nat) : Int) }

/-- `IPv4HeaderSerializer::deserialize` (`IPv4HeaderSerializer.cc`) on a host with the given byte
order: 20 octets are read into a buffer, the header fields are set from it, the header is marked
incorrect when `ip_hl << 2` is below 20, and the options are read when the header length is above
20. -/
def deserialize (order : ByteOrder) (stream : ByteInputStream) :
    Except ChunkError (DeserializedIPv4Header × ByteInputStream) :=
  match stream.readBuffer IP_HEADER_BYTES with
  | .error e => .error e
  | .ok (buffer, s1) =>
    if headerLengthOf buffer > IP_HEADER_BYTES then
      match deserializeOptions stream.getPosition (headerLengthOf buffer : Int)
          (headerLengthOf buffer) s1 [] with
      | .error e => .error e
      | .ok (options, s2) =>
        .ok (⟨fromBuffer order buffer, options,
          decide ((buffer.getD 0 0 % 16) <<< 2 < IP_HEADER_BYTES)⟩, s2)
    else
      .ok (⟨fromBuffer order buffer, [],
        decide ((buffer.getD 0 0 % 16) <<< 2 < IP_HEADER_BYTES)⟩, s1)

end IPv4HeaderSerializer

/-! ## `IPv6HeaderSerializer` (`IPv6HeaderSerializer.cc`) -/

/-- The classes of IPv6 extension headers that `IPv6HeaderSerializer::serialize` casts to, each
with the members it reads (the message definitions are missing). -/
inductive IPv6ExtensionHeaderClass where
  | IPv6HopByHopOptionsHeader
  | IPv6DestinationOptionsHeader
  | IPv6RoutingHeader (routingType segmentsLeft : Int) (address : List IPv6Address)
  | IPv6FragmentHeader (fragmentOffset : Int) (moreFragments : Bool) (identification : Int)
  | IPv6AuthenticationHeader
  | IPv6EncapsulatingSecurityPayloadHeader
  | other
deriving DecidableEq, Repr

/-- An `IPv6ExtensionHeader`: its extension type, its byte length and its class. -/
structure IPv6ExtensionHeader where
  extensionType : Int
  byteLength : Int
  headerClass : IPv6ExtensionHeaderClass
deriving DecidableEq, Repr

/-- The fields of `IPv6Header` that `IPv6HeaderSerializer` reads and writes (the message
definition is missing). -/
structure IPv6Header where
  trafficClass : Int
  flowLabel : Int
  hopLimit : Int
  transportProtocol : Int
  payloadLength : Int
  srcAddress : IPv6Address
  destAddress : IPv6Address
  extensionHeader : List IPv6ExtensionHeader
deriving DecidableEq, Repr

namespace IPv6HeaderSerializer

/-- `IPv6_HEADER_BYTES`, the size of `struct ip6_hdr` (its header `ip6.h` is missing). -/
def IPv6_HEADER_BYTES : Nat := 40

/-- The protocol numbers of the extension headers in the enumeration `IPProtocolId` (its message
file is missing; the values are the assigned protocol numbers). -/
def IP_PROT_IPv6EXT_HOP : Int := 0

/-- See `IP_PROT_IPv6EXT_HOP`. -/
def IP_PROT_IPv6EXT_DEST : Int := 60

/-- See `IP_PROT_IPv6EXT_HOP`. -/
def IP_PROT_IPv6EXT_ROUTING : Int := 43

/-- See `IP_PROT_IPv6EXT_HOP`. -/
def IP_PROT_IPv6EXT_FRAGMENT : Int := 44

/-- See `IP_PROT_IPv6EXT_HOP`. -/
def IP_PROT_IPv6EXT_AUTH : Int := 51

/-- See `IP_PROT_IPv6EXT_HOP`. -/
def IP_PROT_IPv6EXT_ESP : Int := 50

/-- The local `uint32_t flowinfo` of `IPv6HeaderSerializer::serialize` when it is handed to
`htonl`: 6, shifted, with the traffic class and the flow label or-ed in. -/
def flowinfo (dgram : IPv6Header) : Nat :=
  ((((0x06 <<< 8) % 4294967296 ||| (dgram.trafficClass % 4294967296).toNat) <<< 20)
      % 4294967296)
    ||| (dgram.flowLabel % 4294967296).toNat

/-- The type written in front of an extension header: that of the next extension header, or the
transport protocol behind the last one. -/
def nextHeaderType (transportProtocol : Int) : List IPv6ExtensionHeader → Int
  | next :: _ => next.extensionType
  | [] => transportProtocol

/-- The four words of an address after `htonl`, as they lie in memory. -/
def addressOctets (order : ByteOrder) (address : IPv6Address) : List Nat :=
  order.store32 (order.htonl address.d0) ++ order.store32 (order.htonl address.d1)
    ++ order.store32 (order.htonl address.d2) ++ order.store32 (order.htonl address.d3)

/-- The 40 octets of the local `struct ip6_hdr ip6h` as `IPv6HeaderSerializer::serialize` fills
it: `ip6_flow` (4 octets), `ip6_plen` (2), `ip6_nxt` (1), `ip6_hlim` (1), `ip6_src` (16) and
`ip6_dst` (16).  `ip6_nxt` is the type of the first extension header, or the transport protocol
when there is none, and the 8 bit member `ip6_hlim` receives the low octet of
`htons(dgram->getHopLimit())`. -/
def ip6h (order : ByteOrder) (dgram : IPv6Header) : List Nat :=
  order.store32 (order.htonl (flowinfo dgram))
  ++ order.store16 (order.htons dgram.payloadLength)
  ++ [(nextHeaderType dgram.transportProtocol dgram.extensionHeader % 256).toNat,
      order.htons dgram.hopLimit % 256]
  ++ addressOctets order dgram.srcAddress
  ++ addressOctets order dgram.destAddress

/-- The loop `stream.writeIPv6Address(hdr->getAddress(j))` over the addresses of a routing
header. -/
def writeAddresses (stream : ByteOutputStream) : List IPv6Address → ByteOutputStream
  | [] => stream
  | address :: rest => writeAddresses (stream.writeIPv6Address address) rest

/-- The `switch` over the extension type in the loop of `IPv6HeaderSerializer::serialize`: the
octets written for the body of one extension header; an extension header whose class is not the
one its type stands for fails the `check_and_cast`, and an unknown type throws. -/
def serializeExtensionBody (stream : ByteOutputStream) (extHdr : IPv6ExtensionHeader) :
    SerializeOutcome :=
  if extHdr.extensionType = IP_PROT_IPv6EXT_HOP then
    match extHdr.headerClass with
    | .IPv6HopByHopOptionsHeader => .ok (stream.writeByteRepeatedly 0 (extHdr.byteLength - 2))
    | _ => .failed .unsupportedOperation stream
  else if extHdr.extensionType = IP_PROT_IPv6EXT_DEST then
    match extHdr.headerClass with
    | .IPv6DestinationOptionsHeader => .ok (stream.writeByteRepeatedly 0 (extHdr.byteLength - 2))
    | _ => .failed .unsupportedOperation stream
  else if extHdr.extensionType = IP_PROT_IPv6EXT_ROUTING then
    match extHdr.headerClass with
    | .IPv6RoutingHeader routingType segmentsLeft address =>
      .ok ((writeAddresses ((stream.writeByte routingType).writeByte segmentsLeft)
        address).writeByteRepeatedly 0 4)
    | _ => .failed .unsupportedOperation stream
  else if extHdr.extensionType = IP_PROT_IPv6EXT_FRAGMENT then
    match extHdr.headerClass with
    | .IPv6FragmentHeader fragmentOffset moreFragments identification =>
      if fragmentOffset % 8 ≠ 0 then .failed .programmingError stream
      else
        .ok ((stream.writeUint16
          (((fragmentOffset % 4294967296).toNat ||| (if moreFragments then 1 else 0) : Nat) :
            Int)).writeUint32 identification)
    | _ => .failed .unsupportedOperation stream
  else if extHdr.extensionType = IP_PROT_IPv6EXT_AUTH then
    match extHdr.headerClass with
    | .IPv6AuthenticationHeader => .ok (stream.writeByteRepeatedly 0 (extHdr.byteLength - 2))
    | _ => .failed .unsupportedOperation stream
  else if extHdr.extensionType = IP_PROT_IPv6EXT_ESP then
    match extHdr.headerClass with
    | .IPv6EncapsulatingSecurityPayloadHeader =>
      .ok (stream.writeByteRepeatedly 0 (extHdr.byteLength - 2))
    | _ => .failed .unsupportedOperation stream
  else .failed .unsupportedOperation stream

/-- One round of the loop over the extension headers in `IPv6HeaderSerializer::serialize`: the
type of the next header, the `ASSERT` on the byte length, the length in units of eight octets (the
division is exact behind the `ASSERT`), the body, and the
`ASSERT(nextHdrCodePos + extHdr->getByteLength() == stream.getPosition())`, in which
`nextHdrCodePos` is the `unsigned int` set before the loop. -/
def serializeExtensionHeader (nextHdrCodePos : Nat) (nextType : Int)
    (extHdr : IPv6ExtensionHeader) (stream : ByteOutputStream) : SerializeOutcome :=
  if extHdr.byteLength % 8 ≠ 0 then .failed .programmingError (stream.writeByte nextType)
  else
    match serializeExtensionBody
        ((stream.writeByte nextType).writeByte ((extHdr.byteLength - 8) / 8)) extHdr with
    | .failed e after => .failed e after
    | .ok after =>
      if ((nextHdrCodePos : Int) + extHdr.byteLength) % 4294967296 = after.getPosition then
        .ok after
      else .failed .programmingError after

/-- The loop over the extension headers in `IPv6HeaderSerializer::serialize`. -/
def serializeExtensionHeaders (nextHdrCodePos : Nat) (transportProtocol : Int) :
    List IPv6ExtensionHeader → ByteOutputStream → SerializeOutcome
  | [], stream => .ok stream
  | extHdr :: rest, stream =>
    match serializeExtensionHeader nextHdrCodePos (nextHeaderType transportProtocol rest) extHdr
        stream with
    | .failed e after => .failed e after
    | .ok after => serializeExtensionHeaders nextHdrCodePos transportProtocol rest after

/-- `IPv6HeaderSerializer::serialize` (`IPv6HeaderSerializer.cc`) on a host with the given byte
order: `nextHdrCodePos` is the stream position plus 6 when the function is entered, the 40 octets
of `ip6h` are written and then the extension headers. -/
def serialize (order : ByteOrder) (stream : ByteOutputStream) (dgram : IPv6Header) :
    SerializeOutcome :=
  serializeExtensionHeaders ((stream.getPosition + 6) % 4294967296).toNat dgram.transportProtocol
    dgram.extensionHeader
    (IPv4HeaderSerializer.writeOctets stream ((ip6h order dgram).take IPv6_HEADER_BYTES))

/-- The 32 bit word at index `i` of the buffer after `ntohl`. -/
def wordOf (order : ByteOrder) (buffer : List Nat) (i : Nat) : Nat :=
  order.ntohl (order.load32 (buffer.getD i 0) (buffer.getD (i + 1) 0) (buffer.getD (i + 2) 0)
    (buffer.getD (i + 3) 0))

/-- The fields `IPv6HeaderSerializer::deserialize` sets from the 40 octets of the buffer read as a
`struct ip6_hdr`.  The hop limit is `ntohs` of the 8 bit member `ip6_hlim`, the payload length is
`ip6_plen` as the host loads it, and no extension header is read. -/
def fromBuffer (order : ByteOrder) (buffer : List Nat) : IPv6Header :=
  { trafficClass := ((((wordOf order buffer 0) >>> 20) &&& 0xFF : Nat) : Int)
    flowLabel := (((wordOf order buffer 0) &&& 0xFFFFF : Nat) : Int)
    hopLimit := ((order.ntohs (buffer.getD 7 0) : Nat) : Int)
    transportProtocol := ((buffer.getD 6 0 : Nat) : Int)
    payloadLength := ((order.load16 (buffer.getD 4 0) (buffer.getD 5 0) : Nat) : Int)
    srcAddress :=
      ⟨wordOf order buffer 8, wordOf order buffer 12, wordOf order buffer 16,
        wordOf order buffer 20⟩
    destAddress :=
      ⟨wordOf order buffer 24, wordOf order buffer 28, wordOf order buffer 32,
        wordOf order buffer 36⟩
    extensionHeader := [] }

/-- `IPv6HeaderSerializer::deserialize` (`IPv6HeaderSerializer.cc`) on a host with the given byte
order: 40 octets are read into a buffer and the header fields are set from it. -/
def deserialize (order : ByteOrder) (stream : ByteInputStream) :
    Except ChunkError (IPv6Header × ByteInputStream) :=
  match stream.readBuffer IPv6_HEADER_BYTES with
  | .error e => .error e
  | .ok (buffer, s1) => .ok (fromBuffer order buffer, s1)

end IPv6HeaderSerializer

/-! ## Content of the windows cut by the peek engine -/

namespace Chunk

theorem unitsList_append (xs ys : List Chunk) :
    unitsList (xs ++ ys) = unitsList xs ++ unitsList ys := by
  induction xs with
  | nil => simp [unitsList]
  | cons x xs ih => simp [unitsList, ih]

theorem wellFormedList_append (xs ys : List Chunk) :
    wellFormedList (xs ++ ys) = (wellFormedList xs && wellFormedList ys) := by
  induction xs with
  | nil => simp [wellFormedList]
  | cons x xs ih => simp [wellFormedList, ih, Bool.and_assoc]

theorem lengthSum_append (xs ys : List Chunk) :
    lengthSum (xs ++ ys) = lengthSum xs + lengthSum ys := by
  induction xs with
  | nil => simp [lengthSum]
  | cons x xs ih => simp [lengthSum, ih, Nat.add_assoc]

mutual
theorem getChunkLength_eq_length_units :
    ∀ c : Chunk, c.wellFormed = true → c.getChunkLength = c.units.length
  | .emptyChunk _, _ => by simp [getChunkLength, units]
  | .lengthChunk _ _, _ => by simp [getChunkLength, units]
  | .bytesChunk _ _, _ => by simp [getChunkLength, units]
  | .fieldsChunk _ _ _ _ _, _ => by simp [getChunkLength, units]
  | .sliceChunk _ c o l, h => by
      simp only [wellFormed, Bool.and_eq_true, decide_eq_true_eq] at h
      have ih := getChunkLength_eq_length_units c h.1
      simp only [getChunkLength, units, List.length_take, List.length_drop]
      omega
  | .sequenceChunk _ cs, h => by
      simp only [wellFormed] at h
      simpa [getChunkLength, units] using lengthSum_eq_length_unitsList cs h
theorem lengthSum_eq_length_unitsList :
    ∀ cs : List Chunk, wellFormedList cs = true → lengthSum cs = (unitsList cs).length
  | [], _ => by simp [lengthSum, unitsList]
  | c :: cs, h => by
      simp only [wellFormedList, Bool.and_eq_true] at h
      simp [lengthSum, unitsList, getChunkLength_eq_length_units c h.1,
        lengthSum_eq_length_unitsList cs h.2]
end

mutual
theorem eq_of_same : ∀ c d : Chunk, same c d = true → c = d
  | .emptyChunk _, .emptyChunk _, h => by simp_all [same]
  | .lengthChunk _ _, .lengthChunk _ _, h => by simp_all [same]
  | .bytesChunk _ _, .bytesChunk _ _, h => by simp_all [same]
  | .fieldsChunk _ _ _ _ _, .fieldsChunk _ _ _ _ _, h => by simp_all [same]
  | .sliceChunk _ c _ _, .sliceChunk _ d _ _, h => by
      simp only [same, Bool.and_eq_true, decide_eq_true_eq] at h
      have := eq_of_same c d h.1.1.2
      simp_all
  | .sequenceChunk _ cs, .sequenceChunk _ ds, h => by
      simp only [same, Bool.and_eq_true, decide_eq_true_eq] at h
      have := eq_of_sameList cs ds h.2
      simp_all
  | .emptyChunk _, .lengthChunk _ _, h => by simp [same] at h
  | .emptyChunk _, .bytesChunk _ _, h => by simp [same] at h
  | .emptyChunk _, .fieldsChunk _ _ _ _ _, h => by simp [same] at h
  | .emptyChunk _, .sliceChunk _ _ _ _, h => by simp [same] at h
  | .emptyChunk _, .sequenceChunk _ _, h => by simp [same] at h
  | .lengthChunk _ _, .emptyChunk _, h => by simp [same] at h
  | .lengthChunk _ _, .bytesChunk _ _, h => by simp [same] at h
  | .lengthChunk _ _, .fieldsChunk _ _ _ _ _, h => by simp [same] at h
  | .lengthChunk _ _, .sliceChunk _ _ _ _, h => by simp [same] at h
  | .lengthChunk _ _, .sequenceChunk _ _, h => by simp [same] at h
  | .bytesChunk _ _, .emptyChunk _, h => by simp [same] at h
  | .bytesChunk _ _, .lengthChunk _ _, h => by simp [same] at h
  | .bytesChunk _ _, .fieldsChunk _ _ _ _ _, h => by simp [same] at h
  | .bytesChunk _ _, .sliceChunk _ _ _ _, h => by simp [same] at h
  | .bytesChunk _ _, .sequenceChunk _ _, h => by simp [same] at h
  | .fieldsChunk _ _ _ _ _, .emptyChunk _, h => by simp [same] at h
  | .fieldsChunk _ _ _ _ _, .lengthChunk _ _, h => by simp [same] at h
  | .fieldsChunk _ _ _ _ _, .bytesChunk _ _, h => by simp [same] at h
  | .fieldsChunk _ _ _ _ _, .sliceChunk _ _ _ _, h => by simp [same] at h
  | .fieldsChunk _ _ _ _ _, .sequenceChunk _ _, h => by simp [same] at h
  | .sliceChunk _ _ _ _, .emptyChunk _, h => by simp [same] at h
  | .sliceChunk _ _ _ _, .lengthChunk _ _, h => by simp [same] at h
  | .sliceChunk _ _ _ _, .bytesChunk _ _, h => by simp [same] at h
  | .sliceChunk _ _ _ _, .fieldsChunk _ _ _ _ _, h => by simp [same] at h
  | .sliceChunk _ _ _ _, .sequenceChunk _ _, h => by simp [same] at h
  | .sequenceChunk _ _, .emptyChunk _, h => by simp [same] at h
  | .sequenceChunk _ _, .lengthChunk _ _, h => by simp [same] at h
  | .sequenceChunk _ _, .bytesChunk _ _, h => by simp [same] at h
  | .sequenceChunk _ _, .fieldsChunk _ _ _ _ _, h => by simp [same] at h
  | .sequenceChunk _ _, .sliceChunk _ _ _ _, h => by simp [same] at h
theorem eq_of_sameList : ∀ cs ds : List Chunk, sameList cs ds = true → cs = ds
  | [], [], _ => rfl
  | c :: cs, d :: ds, h => by
      simp only [sameList, Bool.and_eq_true] at h
      rw [eq_of_same c d h.1, eq_of_sameList cs ds h.2]
  | [], _ :: _, h => by simp [sameList] at h
  | _ :: _, [], h => by simp [sameList] at h
end


theorem take_drop_take_drop (xs : List ContentUnit) (so sl o l : Nat) (h : o + l ≤ sl) :
    ((((xs.drop so).take sl).drop o).take l) = ((xs.drop (so + o)).take l) := by
  rw [List.drop_take, List.take_take, List.drop_drop]
  congr 1
  omega

theorem units_simplifySlice (f : ChunkFlags) (c : Chunk) (o l : Nat)
    (hc : c.wellFormed = true) (h : o + l ≤ c.getChunkLength) :
    (simplifySlice f c o l).units = ((c.units).drop o).take l ∧
      (simplifySlice f c o l).wellFormed = true := by
  unfold simplifySlice
  split
  · rename_i hw
    obtain ⟨rfl, rfl⟩ := hw
    refine ⟨?_, hc⟩
    rw [getChunkLength_eq_length_units c hc]
    simp
  · exact ⟨by simp [units], by simp [wellFormed, hc, h]⟩

theorem units_mergePair (a b m : Chunk) (ha : a.wellFormed = true) (hb : b.wellFormed = true)
    (h : mergePair a b = some m) :
    m.units = a.units ++ b.units ∧ m.wellFormed = true := by
  cases a <;> cases b <;> simp only [mergePair] at h <;> try contradiction
  · cases h
    simp [units, wellFormed]
  · cases h
    simp [units, wellFormed, List.replicate_add]
  · rename_i f c o l g d p k
    split at h
    · rename_i hs
      cases h
      have hcd : c = d := eq_of_same c d hs.1
      subst hcd
      simp only [wellFormed, Bool.and_eq_true, decide_eq_true_eq] at ha hb
      have hp : p = o + l := hs.2.symm
      subst hp
      have := units_simplifySlice (mergedFlags f g) c o (l + k) ha.1 (by omega)
      refine ⟨?_, this.2⟩
      rw [this.1]
      simp only [units]
      rw [List.take_add, List.drop_drop]
    · contradiction

theorem units_mergeInto : ∀ (cs : List Chunk) (acc : Chunk), acc.wellFormed = true →
    wellFormedList cs = true →
    unitsList (mergeInto acc cs) = acc.units ++ unitsList cs ∧
      wellFormedList (mergeInto acc cs) = true
  | [], acc, ha, _ => by simp [mergeInto, unitsList, wellFormedList, ha]
  | c :: cs, acc, ha, hcs => by
      simp only [wellFormedList, Bool.and_eq_true] at hcs
      simp only [mergeInto]
      cases hm : mergePair acc c with
      | none =>
        have ih := units_mergeInto cs c hcs.1 hcs.2
        simp [unitsList, wellFormedList, ih, ha]
      | some m =>
        have hmm := units_mergePair acc c m ha hcs.1 hm
        have ih := units_mergeInto cs m hmm.2 hcs.2
        simp [unitsList, ih, hmm.1]

theorem units_mergeChunks (cs : List Chunk) (h : wellFormedList cs = true) :
    unitsList (mergeChunks cs) = unitsList cs ∧ wellFormedList (mergeChunks cs) = true := by
  cases cs with
  | nil => simp [mergeChunks, unitsList, wellFormedList]
  | cons c cs =>
    simp only [wellFormedList, Bool.and_eq_true] at h
    simpa [mergeChunks, unitsList] using units_mergeInto cs c h.1 h.2

theorem units_collapse (cs : List Chunk) (h : wellFormedList cs = true) :
    (collapse cs).units = unitsList cs ∧ (collapse cs).wellFormed = true := by
  match cs, h with
  | [], _ => simp [collapse, units, unitsList, wellFormed]
  | [c], h => simpa [collapse, unitsList, wellFormedList] using h
  | c :: d :: cs, h => simpa [collapse, units, wellFormed] using h

theorem units_inlineChunk (c : Chunk) (h : c.wellFormed = true) :
    unitsList (inlineChunk c) = c.units ∧ wellFormedList (inlineChunk c) = true := by
  cases c <;> simp_all [inlineChunk, unitsList, units, wellFormed, wellFormedList]


mutual
theorem units_window : ∀ (c : Chunk) (o l : Nat), c.wellFormed = true →
    o + l ≤ c.getChunkLength →
    (c.window o l).units = ((c.units).drop o).take l ∧ (c.window o l).wellFormed = true
  | .emptyChunk _, o, l, _, h => by
      simp [window, units, wellFormed]
  | .lengthChunk f n, o, l, _, h => by
      simp only [getChunkLength] at h
      simp only [window]
      split
      · rename_i hw
        obtain ⟨rfl, rfl⟩ := hw
        simp [units, wellFormed]
      · simp only [units, wellFormed, List.drop_replicate, List.take_replicate, and_true]
        congr 1
        omega
  | .bytesChunk f bs, o, l, _, h => by
      simp only [window]
      split
      · rename_i hw
        obtain ⟨rfl, rfl⟩ := hw
        simp [units, wellFormed]
      · simp [units, wellFormed, List.map_drop, List.map_take]
  | .fieldsChunk f t fs n s, o, l, _, h => by
      simp only [getChunkLength] at h
      simp only [window]
      split
      · rename_i hw
        obtain ⟨rfl, rfl⟩ := hw
        simp [units, wellFormed]
      · simp [units, wellFormed, getChunkLength, h]
  | .sliceChunk _ c so sl, o, l, hc, h => by
      simp only [wellFormed, Bool.and_eq_true, decide_eq_true_eq] at hc
      simp only [getChunkLength] at h
      have ih := units_window c (so + o) l hc.1 (by omega)
      simp only [window, units]
      rw [take_drop_take_drop _ _ _ _ _ h]
      exact ih
  | .sequenceChunk _ cs, o, l, hc, h => by
      simp only [wellFormed] at hc
      simp only [getChunkLength] at h
      have ih := units_windowList cs o l hc h
      have hm := units_mergeChunks _ ih.2
      have hk := units_collapse _ hm.2
      simp only [window, units]
      exact ⟨by rw [hk.1, hm.1, ih.1], hk.2⟩
theorem units_windowList : ∀ (cs : List Chunk) (o l : Nat), wellFormedList cs = true →
    o + l ≤ lengthSum cs →
    unitsList (windowList cs o l) = ((unitsList cs).drop o).take l ∧
      wellFormedList (windowList cs o l) = true
  | [], o, l, _, h => by
      simp [windowList, unitsList, wellFormedList]
  | c :: cs, o, l, hc, h => by
      simp only [wellFormedList, Bool.and_eq_true] at hc
      simp only [lengthSum] at h
      have hlen := getChunkLength_eq_length_units c hc.1
      simp only [windowList]
      split
      · rename_i hl
        subst hl
        simp [unitsList, wellFormedList]
      · split
        · rename_i hl hle
          have ih := units_windowList cs (o - getChunkLength c) l hc.2 (by omega)
          refine ⟨?_, ih.2⟩
          have hd : (units c).drop o = [] :=
            List.drop_eq_nil_of_le (show (units c).length ≤ o by omega)
          rw [ih.1]
          simp only [unitsList]
          rw [List.drop_append_eq_append_drop, hd, List.nil_append, hlen]
        · rename_i hl hlt
          have ihc := units_window c o (min l (getChunkLength c - o)) hc.1 (by omega)
          have ihs := units_windowList cs 0 (l - min l (getChunkLength c - o)) hc.2 (by omega)
          have hin := units_inlineChunk _ ihc.2
          rw [unitsList_append, wellFormedList_append, hin.1, hin.2, ihc.1, ihs.1, ihs.2]
          refine ⟨?_, rfl⟩
          simp only [unitsList, List.drop_zero]
          rw [List.drop_append_eq_append_drop, List.take_append_eq_append_take]
          have h0 : o - (units c).length = 0 := by omega
          rw [h0, List.drop_zero, List.length_drop, ← hlen]
          congr 1
          · apply List.take_eq_take.mpr
            simp only [List.length_drop]
            omega
          · congr 1
            omega
end

end Chunk


namespace Chunk

theorem units_setFlags (g : ChunkFlags) (c : Chunk) : (c.setFlags g).units = c.units := by
  cases c <;> simp [setFlags, units]

theorem getChunkLength_setFlags (g : ChunkFlags) (c : Chunk) :
    (c.setFlags g).getChunkLength = c.getChunkLength := by
  cases c <;> simp [setFlags, getChunkLength]

theorem wellFormed_setFlags (g : ChunkFlags) (c : Chunk) :
    (c.setFlags g).wellFormed = c.wellFormed := by
  cases c <;> simp [setFlags, wellFormed]

theorem getChunkType_ne_any (c : Chunk) : ChunkType.any ≠ c.getChunkType := by
  cases c <;> simp [getChunkType]

/-- An untyped peek of a window `[o, o + l)` that lies inside a well-formed chunk returns a
well-formed chunk of length `l` holding exactly the content of that window. -/
theorem peekAt_inside (c : Chunk) (o l : Nat) (hc : c.wellFormed = true)
    (h : o + l ≤ c.getChunkLength) :
    ∃ r, c.peekAt (o : Int) (l : Int) = .ok (some r) ∧ r.units = ((c.units).drop o).take l ∧
      r.wellFormed = true ∧ r.getChunkLength = l := by
  have hlen := getChunkLength_eq_length_units c hc
  by_cases hl : l = 0 ∧ 0 < c.getChunkLength
  · obtain ⟨hl, hpos⟩ := hl
    subst hl
    refine ⟨.emptyChunk {}, ?_, by simp [units], by simp [wellFormed], by simp [getChunkLength]⟩
    have h1 : ¬ ((c.getChunkLength : Int) < (o : Int)) := by omega
    have h3 : ¬ ((o : Int) < 0) := by omega
    simp [peekAt, peek, peekWindow, h1, h3, hpos, Except.map]
  · have hw := units_window c o l hc h
    refine ⟨c.window o l, ?_, hw.1, hw.2, ?_⟩
    · have h1 : ¬ ((c.getChunkLength : Int) < (o : Int)) := by omega
      have h2 : ¬ ((l : Int) < -1) := by omega
      have h3 : ¬ ((o : Int) < 0) := by omega
      have h4 : ¬ ((l : Int) = 0 ∧ 0 < c.getChunkLength) := by omega
      have h5 : ¬ ((l : Int) = -1) := by omega
      have h6 : ((c.getChunkLength : Int) - (o : Int)).toNat = c.getChunkLength - o := by omega
      have h7 : min l (c.getChunkLength - o) = l := by omega
      have h8 : ¬ (((c.getChunkLength - o : Nat) : Int) < (l : Int)) := by omega
      simp only [peekAt, peek, peekWindow, h1, h2, h3, h4, h5, h6, h7, h8, or_self, if_false,
        Int.toNat_ofNat, getChunkType_ne_any, and_false, if_true, ne_eq, not_false_eq_true,
        Except.map]
    · rw [getChunkLength_eq_length_units _ hw.2, hw.1]
      simp only [List.length_take, List.length_drop]
      omega

end Chunk

namespace Chunk

/-- In-place removal from the front of contents that support it keeps the content from offset `n`
on. -/
theorem removeFromBeginning_in_place (c : Chunk) (n : Nat)
    (hcan : c.canRemoveFromBeginning (n : Int) = true) :
    ((c.makeMutable.removeFromBeginning (n : Int)).markImmutable).units = (c.units).drop n ∧
      ((c.makeMutable.removeFromBeginning (n : Int)).markImmutable).wellFormed = true ∧
      ((c.makeMutable.removeFromBeginning (n : Int)).markImmutable).getChunkLength
        = c.getChunkLength - n := by
  cases c with
  | lengthChunk f k =>
    simp [makeMutable, markImmutable, setFlags, removeFromBeginning, units, wellFormed,
      getChunkLength]
  | bytesChunk f bs =>
    simp [makeMutable, markImmutable, setFlags, removeFromBeginning, units, wellFormed,
      getChunkLength, List.map_drop]
  | emptyChunk f => simp [canRemoveFromBeginning] at hcan
  | fieldsChunk f t fs k s => simp [canRemoveFromBeginning] at hcan
  | sliceChunk f c o l => simp [canRemoveFromBeginning] at hcan
  | sequenceChunk f cs => simp [canRemoveFromBeginning] at hcan

/-- An untyped peek of the whole chunk from offset 0 always returns a chunk. -/
theorem peekAt_whole (c : Chunk) :
    ∃ r, c.peekAt 0 (c.getChunkLength : Int) = .ok (some r) := by
  have h1 : ¬ ((c.getChunkLength : Int) < -1) := by omega
  have h2 : ¬ ((c.getChunkLength : Int) < 0) := by omega
  simp only [peekAt, peek, peekWindow, h1, h2, lt_self_iff_false, or_self, if_false]
  split <;> exact ⟨_, rfl⟩

/-- Moving and seeking keep the direction of an iterator. -/
theorem iterator_direction_kept (c : Chunk) (it : Iterator) (n : Int) :
    (c.moveIterator it n).isForward = it.isForward ∧
      (c.seekIterator it n).isForward = it.isForward :=
  ⟨rfl, rfl⟩

end Chunk

namespace Packet

/-- `Packet::removeFromBeginning` with the front iterator at 0 and `n` within the packet length
succeeds and leaves well-formed contents of length `length - n` holding the old content from
offset `n` on; the iterators are untouched. -/
theorem removeFromBeginning_inside (p : Packet) (c : Chunk) (n : Nat) (hp : p.contents = some c)
    (hc : c.wellFormed = true) (hn : n ≤ c.getChunkLength)
    (hh : p.headerIterator.position = 0) :
    ∃ r, p.removeFromBeginning (n : Int) = .ok () { p with contents := some r } ∧
      r.units = (c.units).drop n ∧ r.wellFormed = true ∧
      r.getChunkLength = c.getChunkLength - n := by
  have hlen := Chunk.getChunkLength_eq_length_units c hc
  have ha : (0 : Int) ≤ (n : Int) ∧ (n : Int) ≤ p.getPacketLength := by
    simp only [getPacketLength, hp]
    omega
  by_cases hcan : c.canRemoveFromBeginning (n : Int) = true
  · have hr := Chunk.removeFromBeginning_in_place c n hcan
    exact ⟨((makeContentsMutable c).removeFromBeginning (n : Int)).markImmutable,
      by simp only [removeFromBeginning, ha, and_self, if_true, hh, hp, hcan],
      hr.1, hr.2.1, hr.2.2⟩
  · obtain ⟨r, hr, hu, hw, hl⟩ :=
      Chunk.peekAt_inside c n (c.getChunkLength - n) hc (by omega)
    refine ⟨r.markImmutable, ?_, ?_, ?_, ?_⟩
    · have hcast : ((c.getChunkLength : Int) - (n : Int)) = ((c.getChunkLength - n : Nat) : Int) := by
        omega
      simp only [removeFromBeginning, ha, and_self, if_true, hh, hp, hcan, hcast, hr, keepPeeked]
      simp
    · rw [Chunk.markImmutable, Chunk.units_setFlags, hu]
      apply List.take_of_length_le
      simp only [List.length_drop]
      omega
    · rw [Chunk.markImmutable, Chunk.wellFormed_setFlags, hw]
    · rw [Chunk.markImmutable, Chunk.getChunkLength_setFlags, hl]

end Packet

/-! ## Claims about `Packet` -/

namespace Packet

/-- The operations that move an iterator keep its direction: in every packet reached from a
constructor the front iterator is a forward iterator and the back iterator a backward one. -/
theorem iterator_directions_kept (p q : Packet) (n : Int) :
    (∀ v, p.popHeader n = .ok v q ∨ p.popTrailer n = .ok v q →
      q.headerIterator.isForward = p.headerIterator.isForward ∧
        q.trailerIterator.isForward = p.trailerIterator.isForward) ∧
    (p.setHeaderPopOffset n = .ok () q ∨ p.setTrailerPopOffset n = .ok () q →
      q.headerIterator.isForward = p.headerIterator.isForward ∧
        q.trailerIterator.isForward = p.trailerIterator.isForward) := by
  constructor
  · rintro v (h | h)
    · unfold popHeader at h
      split at h
      · split at h
        · cases h
        · cases h
          exact ⟨rfl, rfl⟩
        · split at h
          · cases h
          · cases h
            exact ⟨rfl, rfl⟩
      · cases h
    · unfold popTrailer at h
      split at h
      · split at h
        · cases h
        · cases h
          exact ⟨rfl, rfl⟩
        · split at h
          · cases h
          · cases h
            exact ⟨rfl, rfl⟩
      · cases h
  · rintro (h | h)
    · unfold setHeaderPopOffset at h
      split at h
      · cases h
      · dsimp only at h
        split_ifs at h
        cases h
        exact ⟨rfl, rfl⟩
    · unfold setTrailerPopOffset at h
      split at h
      · cases h
      · dsimp only at h
        split_ifs at h
        cases h
        exact ⟨rfl, rfl⟩

/-- With length `-1` the window peeked by `Packet::peekDataAt` starts at `front + offset` and ends
at `length - back`, the end of the data region. -/
theorem peekDataAtWindow_to_end (p : Packet) (offset : Int) :
    (p.peekDataAtWindow offset (-1)).1.position = p.getHeaderPopOffset + offset ∧
      (p.peekDataAtWindow offset (-1)).1.position + (p.peekDataAtWindow offset (-1)).2
        = p.getPacketLength - p.getTrailerPoppedLength := by
  simp only [peekDataAtWindow, getHeaderPopOffset, getDataLength, getTrailerPoppedLength, if_true]
  constructor
  · trivial
  · omega

/-- C1: for every immutable chunk `c` and every packet without contents whose front iterator is
at 0, `pushHeader(c)` succeeds and stores `c`; the following `popHeader<T>()` with `T` the type of
`c` (default length `-1`) returns `c` itself, and the header pop offset afterwards is the length of
`c`. -/
theorem pushHeader_popHeader_inverse (conv : TypeConversion) (p : Packet) (c : Chunk)
    (hp : p.contents = none) (hh : p.headerIterator.position = 0) (hc : c.isImmutable = true) :
    p.pushHeader c = .ok () { p with contents := some c } ∧
      ∃ q, ({ p with contents := some c } : Packet).popHeaderAs conv c.getChunkType (-1)
          = .ok (some c) q ∧
        q.getHeaderPopOffset = c.getChunkLength ∧ q.contents = some c := by
  refine ⟨by simp [pushHeader, prepend, hh, hc, hp], ?_⟩
  have h3 : ¬ ((c.getChunkLength : Int) < 0) := by omega
  have hpeek : c.peekAs conv c.getChunkType p.headerIterator (-1) = .ok (some c) := by
    simp [Chunk.peekAs, Chunk.peekWindow, hh, h3, Except.map]
  refine ⟨{ p with contents := some c,
                   headerIterator := c.moveIterator p.headerIterator c.getChunkLength }, ?_, ?_, rfl⟩
  · simp [popHeaderAs, peekHeaderAs, hpeek, liftChunk]
  · simp [getHeaderPopOffset, Chunk.moveIterator, hh]

/-- Witness for C1: the immutable ten octet `ByteCountChunk` of `testHeader`, pushed onto a new
packet and popped again. -/
theorem pushHeader_popHeader_inverse_witness :
    Packet.new.pushHeader (makeImmutableByteCountChunk 10)
        = .ok () { Packet.new with contents := some (makeImmutableByteCountChunk 10) } ∧
      ∃ q, ({ Packet.new with contents := some (makeImmutableByteCountChunk 10) } : Packet).popHeaderAs
            noConversion (makeImmutableByteCountChunk 10).getChunkType (-1)
          = .ok (some (makeImmutableByteCountChunk 10)) q ∧
        q.getHeaderPopOffset = (makeImmutableByteCountChunk 10).getChunkLength ∧
        q.contents = some (makeImmutableByteCountChunk 10) :=
  pushHeader_popHeader_inverse noConversion Packet.new (makeImmutableByteCountChunk 10) rfl rfl rfl

/-- C2 (the code departs from the claim): two runs of operations whose argument checks all pass
and after which the iterators have crossed.  In the first `setTrailerPopOffset(5)` counts the last
five octets of a ten octet packet as popped and `popHeader(-1)` then pops the whole chunk; in the
second the ten octet header is popped and `removeFromEnd(5)` then trims the packet to five
octets. -/
theorem iterators_cross :
    (∃ p1 p2 p3, Packet.new.pushHeader (makeImmutableByteCountChunk 10) = .ok () p1 ∧
      p1.setTrailerPopOffset 5 = .ok () p2 ∧ p2.getTrailerPoppedLength = 5 ∧
      p2.getDataLength = 5 ∧
      p2.popHeader (-1) = .ok (some (makeImmutableByteCountChunk 10)) p3 ∧
      p3.getPacketLength = 10 ∧ p3.getHeaderPoppedLength = 10 ∧ p3.getTrailerPoppedLength = 5 ∧
      p3.getDataLength = -5) ∧
    (∃ p1 p2 p3, Packet.new.pushHeader (makeImmutableByteCountChunk 10) = .ok () p1 ∧
      p1.popHeader 10 = .ok (some (makeImmutableByteCountChunk 10)) p2 ∧
      p2.removeFromEnd 5 = .ok () p3 ∧
      p3.getPacketLength = 5 ∧ p3.getHeaderPoppedLength = 10 ∧ p3.getTrailerPoppedLength = 0 ∧
      p3.getDataLength = -5) :=
  ⟨⟨_, _, _, rfl, rfl, rfl, rfl, rfl, rfl, rfl, rfl, rfl⟩,
    ⟨_, _, _, rfl, rfl, rfl, rfl, rfl, rfl, rfl⟩⟩

/-- C3: for every packet and every length accepted by `popHeader`, `popHeader` returns what
`peekHeader` returns: an error of the peek aborts the pop with the packet unchanged, a null result
leaves the packet unchanged, and a chunk advances the header pop offset by exactly its length
while the trailer iterator and the contents stay as they are; with the front iterator inside the
packet the peek does return.  The typed `popHeader<T>` relates to `peekHeader<T>` in the same way.
`peekHeader` is a function of the packet and has no packet to change. -/
theorem popHeader_eq_peekHeader (p : Packet) (length : Int)
    (h : -1 ≤ length ∧ length ≤ p.getDataLength) :
    (∀ e, p.peekHeader length = .error e → p.popHeader length = .failed e p) ∧
    (p.peekHeader length = .ok none → p.popHeader length = .ok none p) ∧
    (∀ chunk, p.peekHeader length = .ok (some chunk) →
      ∃ q, p.popHeader length = .ok (some chunk) q ∧
        q.getHeaderPopOffset = p.getHeaderPopOffset + chunk.getChunkLength ∧
        q.trailerIterator = p.trailerIterator ∧ q.contents = p.contents) ∧
    (0 ≤ p.headerIterator.position ∧ p.headerIterator.position ≤ p.getPacketLength →
      ∃ r, p.peekHeader length = .ok r) ∧
    (∀ (conv : TypeConversion) (T : ChunkType),
      (∀ e, p.peekHeaderAs conv T length = .error e →
        p.popHeaderAs conv T length = .failed e p) ∧
      (p.peekHeaderAs conv T length = .ok none → p.popHeaderAs conv T length = .ok none p) ∧
      (∀ chunk, p.peekHeaderAs conv T length = .ok (some chunk) →
        ∃ q, p.popHeaderAs conv T length = .ok (some chunk) q ∧
          q.getHeaderPopOffset = p.getHeaderPopOffset + chunk.getChunkLength ∧
          q.trailerIterator = p.trailerIterator ∧ q.contents = p.contents)) := by
  refine ⟨?_, ?_, ?_, ?_, ?_⟩
  · intro e he
    simp only [popHeader, h, and_self, if_true, he]
  · intro he
    simp only [popHeader, h, and_self, if_true, he]
  · intro chunk he
    cases hc : p.contents with
    | none => simp [peekHeader, h, hc] at he
    | some c =>
      refine ⟨{ p with headerIterator := c.moveIterator p.headerIterator chunk.getChunkLength },
        ?_, ?_, rfl, hc⟩
      · simp only [popHeader, h, and_self, if_true, he, hc]
      · simp [getHeaderPopOffset, Chunk.moveIterator]
  · intro hpos
    cases hc : p.contents with
    | none => exact ⟨none, by simp [peekHeader, h, hc]⟩
    | some c =>
      have h1 : ¬ (length < -1) := by omega
      have h2 : ¬ (p.headerIterator.position < 0) := by omega
      have h3 : ¬ ((c.getChunkLength : Int) < p.headerIterator.position) := by
        have := hpos.2
        simp [getPacketLength, hc] at this
        omega
      simp only [peekHeader, h, and_self, if_true, hc, Chunk.peek, Chunk.peekWindow, h1, h2, h3,
        or_self, if_false]
      split <;> exact ⟨_, rfl⟩
  · intro conv T
    refine ⟨?_, ?_, ?_⟩
    · intro e he
      simp only [popHeaderAs, he]
    · intro he
      simp only [popHeaderAs, he]
    · intro chunk he
      cases hc : p.contents with
      | none => simp [peekHeaderAs, hc] at he
      | some c =>
        refine ⟨{ p with headerIterator := c.moveIterator p.headerIterator chunk.getChunkLength },
          ?_, ?_, rfl, hc⟩
        · simp only [popHeaderAs, he, hc]
        · simp [getHeaderPopOffset, Chunk.moveIterator]

/-- Witness for C3: `popHeader(-1)` on the packet of `testHeader` returns the ten octet chunk that
`peekHeader(-1)` returns and moves the header pop offset from 0 to 10. -/
theorem popHeader_eq_peekHeader_witness :
    ∃ q, (⟨some (makeImmutableByteCountChunk 10), ForwardIterator 0 0, BackwardIterator 0 0⟩ :
          Packet).popHeader (-1) = .ok (some (makeImmutableByteCountChunk 10)) q ∧
      q.getHeaderPopOffset = 0 + 10 := by
  obtain ⟨q, hq, ho, _, _⟩ :=
    (popHeader_eq_peekHeader
      ⟨some (makeImmutableByteCountChunk 10), ForwardIterator 0 0, BackwardIterator 0 0⟩ (-1)
      (by decide)).2.2.1 (makeImmutableByteCountChunk 10) (by rfl)
  exact ⟨q, hq, ho⟩

/-- C4 (the code departs from the claim): for every packet and every length accepted by
`popTrailer`, `popTrailer` returns what `peekTrailer` returns (an error of the peek aborts the pop
with the packet unchanged, a null result leaves the packet unchanged) and leaves the front iterator
and the contents as they are; but a chunk moves the back iterator by minus its length, so that the
popped trailer length, the offset of the back iterator from the end, decreases by the length of the
chunk where the claim has it increase, and the trailer pop offset measured from the start and the
data length grow by it. -/
theorem popTrailer_decreases_popped_length (p : Packet) (length : Int)
    (h : -1 ≤ length ∧ length ≤ p.getDataLength) :
    (∀ e, p.peekTrailer length = .error e → p.popTrailer length = .failed e p) ∧
    (p.peekTrailer length = .ok none → p.popTrailer length = .ok none p) ∧
    (∀ chunk, p.peekTrailer length = .ok (some chunk) →
      ∃ q, p.popTrailer length = .ok (some chunk) q ∧
        q.getTrailerPoppedLength = p.getTrailerPoppedLength - chunk.getChunkLength ∧
        q.getTrailerPopOffset = p.getTrailerPopOffset + chunk.getChunkLength ∧
        q.getDataLength = p.getDataLength + chunk.getChunkLength ∧
        q.headerIterator = p.headerIterator ∧ q.contents = p.contents) := by
  refine ⟨?_, ?_, ?_⟩
  · intro e he
    simp only [popTrailer, h, and_self, if_true, he]
  · intro he
    simp only [popTrailer, h, and_self, if_true, he]
  · intro chunk he
    cases hc : p.contents with
    | none => simp [peekTrailer, h, hc] at he
    | some c =>
      refine ⟨{ p with trailerIterator :=
          c.moveIterator p.trailerIterator (-(chunk.getChunkLength : Int)) }, ?_, ?_, ?_, ?_, rfl,
        hc⟩
      · simp only [popTrailer, h, and_self, if_true, he, hc]
      · simp only [getTrailerPoppedLength, Chunk.moveIterator]
        omega
      · simp only [getTrailerPopOffset, getPacketLength, hc, Chunk.moveIterator]
        omega
      · simp only [getDataLength, getPacketLength, hc, Chunk.moveIterator]
        omega

/-- Witness for C4: `popTrailer(-1)` on the packet of `testTrailer` returns the only ten octet
chunk; afterwards the popped trailer length is -10 and the trailer pop offset 20, where
`testTrailer` expects 0, and the data length of the ten octet packet is 20. -/
theorem popTrailer_decreases_popped_length_witness :
    ∃ q, (⟨some (makeImmutableByteCountChunk 10), ForwardIterator 0 0, BackwardIterator 0 0⟩ :
          Packet).popTrailer (-1) = .ok (some (makeImmutableByteCountChunk 10)) q ∧
      q.getTrailerPoppedLength = -10 ∧ q.getTrailerPopOffset = 20 ∧ q.getDataLength = 20 := by
  obtain ⟨q, hq, hl, ho, hd, _, _⟩ :=
    (popTrailer_decreases_popped_length
      ⟨some (makeImmutableByteCountChunk 10), ForwardIterator 0 0, BackwardIterator 0 0⟩ (-1)
      (by decide)).2.2 (makeImmutableByteCountChunk 10) (by rfl)
  exact ⟨q, hq, hl, ho, hd⟩

/-- `Packet::removePoppedTrailers` is rejected on every packet whose front iterator position is
not negative: `setTrailerPopOffset(0)` either fails its argument check or leaves no data. -/
theorem removePoppedTrailers_rejected (p : Packet) (h : 0 ≤ p.headerIterator.position) :
    ∃ q, p.removePoppedTrailers = .failed .assertionFailed q := by
  cases hc : p.contents with
  | none => exact ⟨p, by simp [removePoppedTrailers, setTrailerPopOffset, hc]⟩
  | some c =>
    simp only [removePoppedTrailers, setTrailerPopOffset, hc]
    split_ifs with h0 hd
    · exfalso
      simp only [getDataLength, getPacketLength, hc, Chunk.seekIterator] at hd
      omega
    · exact ⟨_, rfl⟩
    · exact ⟨_, rfl⟩

/-- C5 (the code departs from the claim): on a twenty octet packet whose popped trailer length
is 10, with ten octets of data left (the state `setTrailerPopOffset(10)` leaves),
`removePoppedTrailers` is rejected by the assertion that closes `setTrailerPopOffset(0)`: the
packet keeps its twenty octets and its back iterator stands at 20 instead of 0. -/
theorem removePoppedTrailers_fails_on_popped_trailer :
    ∃ p1 p2 q, Packet.new.pushHeader (makeImmutableBytesChunk (makeVector 20)) = .ok () p1 ∧
      p1.setTrailerPopOffset 10 = .ok () p2 ∧ p2.getTrailerPoppedLength = 10 ∧
      p2.getHeaderPopOffset = 0 ∧ p2.getDataLength = 10 ∧
      p2.removePoppedTrailers = .failed .assertionFailed q ∧
      q.getPacketLength = 20 ∧ q.getTrailerPoppedLength = 20 :=
  ⟨_, _, _, rfl, rfl, rfl, rfl, rfl, rfl, rfl, rfl⟩

/-- C6, counterexample: a newly constructed packet has header pop offset 0 and its back iterator
at 0, yet `removePoppedHeaders` does not complete on it: `setHeaderPopOffset(0)` rejects a packet
without contents. -/
theorem removePoppedHeaders_rejects_new_packet :
    Packet.new.getHeaderPopOffset = 0 ∧ Packet.new.trailerIterator.position = 0 ∧
      Packet.new.removePoppedHeaders = .failed .assertionFailed Packet.new ∧
      ¬ ∃ q, Packet.new.removePoppedHeaders = .ok () q := by
  refine ⟨rfl, rfl, rfl, ?_⟩
  rintro ⟨q, hq⟩
  have hf : Packet.new.removePoppedHeaders = .failed .assertionFailed Packet.new := rfl
  rw [hf] at hq
  cases hq

/-- C6, amended: for every packet with well-formed contents of positive length, header pop offset
`h` with `0 ≤ h ≤` packet length and back iterator at 0, `removePoppedHeaders` completes; afterwards
the header pop offset is 0, the packet length has decreased by exactly `h`, the data length is
unchanged, the back iterator is untouched and the contents are the old contents from offset `h`
on. -/
theorem removePoppedHeaders_trims (p : Packet) (c : Chunk) (hp : p.contents = some c)
    (hc : c.wellFormed = true) (hlen : 0 < c.getChunkLength)
    (hh : 0 ≤ p.getHeaderPopOffset ∧ p.getHeaderPopOffset ≤ p.getPacketLength)
    (ht : p.trailerIterator.position = 0) :
    ∃ q, p.removePoppedHeaders = .ok () q ∧ q.getHeaderPopOffset = 0 ∧
      q.getPacketLength = p.getPacketLength - p.getHeaderPopOffset ∧
      q.getDataLength = p.getDataLength ∧ q.trailerIterator = p.trailerIterator ∧
      q.contentUnits = (p.contentUnits).drop p.getHeaderPopOffset.toNat := by
  simp only [getHeaderPopOffset, getPacketLength, hp] at hh
  obtain ⟨n, hn⟩ : ∃ n : Nat, p.headerIterator.position = (n : Int) :=
    ⟨p.headerIterator.position.toNat, by omega⟩
  have hset : p.setHeaderPopOffset 0
      = .ok () { p with headerIterator := c.seekIterator p.headerIterator 0 } := by
    have hd : (0 : Int) < (c.getChunkLength : Int) := by omega
    simp [setHeaderPopOffset, hp, getPacketLength, getDataLength, ht, Chunk.seekIterator, hd]
  obtain ⟨r, hr, hu, hw, hl⟩ :=
    removeFromBeginning_inside { p with headerIterator := c.seekIterator p.headerIterator 0 } c n
      hp hc (by omega) rfl
  refine ⟨⟨some r, c.seekIterator p.headerIterator 0, p.trailerIterator⟩, ?_, ?_, ?_, ?_, ?_, ?_⟩
  · simp only [removePoppedHeaders, hset, getHeaderPoppedLength, hn]
    exact hr
  · rfl
  · simp only [getPacketLength, getHeaderPopOffset, hp, hl, hn]
    omega
  · simp only [getDataLength, getPacketLength, hp, hl, hn, ht, Chunk.seekIterator]
    omega
  · rfl
  · simp only [contentUnits, hp, hu, getHeaderPopOffset, hn, Int.toNat_ofNat]

/-- Witness for C6, amended: the packet of `testHeader` after its ten octet header was popped. -/
theorem removePoppedHeaders_trims_witness :
    ∃ q, (⟨some (makeImmutableByteCountChunk 10), ForwardIterator 10 0, BackwardIterator 0 0⟩ :
          Packet).removePoppedHeaders = .ok () q ∧ q.getHeaderPopOffset = 0 ∧
      q.getPacketLength = 10 - 10 ∧ q.contentUnits = [] := by
  obtain ⟨q, hq, ho, hl, _, _, hu⟩ :=
    removePoppedHeaders_trims
      ⟨some (makeImmutableByteCountChunk 10), ForwardIterator 10 0, BackwardIterator 0 0⟩
      (makeImmutableByteCountChunk 10) rfl rfl (by decide) (by decide) rfl
  exact ⟨q, hq, ho, hl, hu⟩

/-- `Packet::setHeaderPopOffset` on a packet with contents is accepted exactly for the offsets
`0 ≤ offset < packet length - popped trailer length`, and then sets the header pop offset. -/
theorem setHeaderPopOffset_accepted_iff (p : Packet) (c : Chunk) (offset : Int)
    (hp : p.contents = some c) :
    ((∃ q, p.setHeaderPopOffset offset = .ok () q) ↔
      (0 ≤ offset ∧ offset < p.getPacketLength - p.getTrailerPoppedLength)) ∧
    (∀ q, p.setHeaderPopOffset offset = .ok () q → q.getHeaderPopOffset = offset) := by
  simp only [setHeaderPopOffset, hp, getTrailerPoppedLength]
  constructor
  · constructor
    · rintro ⟨q, hq⟩
      split_ifs at hq with h1 h2
      simp only [getDataLength, getPacketLength, hp, Chunk.seekIterator] at h2
      simp only [getPacketLength, hp] at h1 ⊢
      omega
    · intro h
      simp only [getPacketLength, hp] at h
      split_ifs with h1 h2
      · exact ⟨_, rfl⟩
      · exfalso
        simp only [getDataLength, getPacketLength, hp, Chunk.seekIterator] at h2
        omega
      · exfalso
        simp only [getPacketLength, hp] at h1
        omega
  · intro q hq
    split_ifs at hq with h1 h2
    cases hq
    rfl

/-- C7 (the code departs from the claim): on the ten octet packet of `testHeader` the offset 10
satisfies `0 ≤ offset ≤ packet length - popped trailer length`, yet `setHeaderPopOffset(10)` is
rejected: the front iterator is moved to 10 and the closing assertion `getDataLength() > 0`
fails. -/
theorem setHeaderPopOffset_rejects_upper_bound :
    ∃ p1 q, Packet.new.pushHeader (makeImmutableByteCountChunk 10) = .ok () p1 ∧
      (0 : Int) ≤ 10 ∧ 10 ≤ p1.getPacketLength - p1.getTrailerPoppedLength ∧
      p1.setHeaderPopOffset 10 = .failed .assertionFailed q ∧
      q.getHeaderPopOffset = 10 ∧ q.getDataLength = 0 :=
  ⟨_, _, rfl, by decide, by decide, rfl, rfl, rfl⟩

/-- C8 (the code departs from the claim): on a twenty octet packet whose back iterator stands ten
octets before the end, `peekDataAt(5, 10)` passes both argument checks, peeks the window
`[5, 15)` and returns octets 5 to 14, although the data region ends at offset 10. -/
theorem peekDataAt_window_exceeds_data_region :
    ∃ p1 p2, Packet.new.pushHeader (makeImmutableBytesChunk (makeVector 20)) = .ok () p1 ∧
      p1.setTrailerPopOffset 10 = .ok () p2 ∧
      p2.getHeaderPopOffset = 0 ∧ p2.getDataLength = 10 ∧ p2.getTrailerPopOffset = 10 ∧
      p2.peekDataAtWindow 5 10 = (⟨true, 5, -1⟩, 10) ∧
      p2.peekDataAt 5 10 = .ok (some (.bytesChunk {} [5, 6, 7, 8, 9, 10, 11, 12, 13, 14])) :=
  ⟨_, _, rfl, rfl, rfl, rfl, rfl, rfl, rfl⟩

/-- C9 (the code departs from the claim): after the first ten octets of a twenty octet packet were
popped, the typed `peekDataAt<BytesChunk>(0, 10)` returns octets 0 to 9, the popped header, while
`peekData<BytesChunk>(10)` and the untyped `peekDataAt(0, 10)` return octets 10 to 19. -/
theorem typed_peekDataAt_starts_at_packet_start :
    ∃ p1 p2 r, Packet.new.pushHeader (makeImmutableBytesChunk (makeVector 20)) = .ok () p1 ∧
      p1.popHeader 10 = .ok r p2 ∧ p2.getHeaderPopOffset = 10 ∧
      p2.peekDataAtAsIterator 0 = ⟨true, 0, -1⟩ ∧
      p2.peekDataAtAs noConversion .bytesChunk 0 10
        = .ok (some (.bytesChunk {} [0, 1, 2, 3, 4, 5, 6, 7, 8, 9])) ∧
      p2.peekDataAs noConversion .bytesChunk 10
        = .ok (some (.bytesChunk {} [10, 11, 12, 13, 14, 15, 16, 17, 18, 19])) ∧
      p2.peekDataAt 0 10
        = .ok (some (.bytesChunk {} [10, 11, 12, 13, 14, 15, 16, 17, 18, 19])) :=
  ⟨_, _, _, rfl, rfl, rfl, rfl, rfl, rfl, rfl⟩

/-- C10: `prepend(c)` is rejected with a failed assertion whenever `c` is mutable or the front
iterator is not at 0, and `append(c)` whenever `c` is mutable or the back iterator is not at 0; the
packet after a rejected call is the packet before it.  These are the only rejected calls: whenever
`prepend` or `append` fails, it fails by such an assertion and leaves the packet as it was. -/
theorem prepend_append_rejected (p : Packet) (c : Chunk) :
    ((c.isImmutable = false ∨ p.headerIterator.position ≠ 0) →
      p.prepend c = .failed .assertionFailed p) ∧
    ((c.isImmutable = false ∨ p.trailerIterator.position ≠ 0) →
      p.append c = .failed .assertionFailed p) ∧
    (∀ e q, p.prepend c = .failed e q →
      e = .assertionFailed ∧ q = p ∧ (c.isImmutable = false ∨ p.headerIterator.position ≠ 0)) ∧
    (∀ e q, p.append c = .failed e q →
      e = .assertionFailed ∧ q = p ∧ (c.isImmutable = false ∨ p.trailerIterator.position ≠ 0)) := by
  refine ⟨?_, ?_, ?_, ?_⟩
  · rintro (h | h)
    · simp [prepend, h]
    · simp [prepend, h]
  · rintro (h | h)
    · simp [append, h]
    · simp [append, h]
  · intro e q hq
    unfold prepend at hq
    split_ifs at hq with h1 h2
    · cases hc : p.contents with
      | none => simp [hc] at hq
      | some d =>
        simp only [hc] at hq
        split_ifs at hq with h3
        obtain ⟨r, hr⟩ := Chunk.peekAt_whole ((makeContentsMutable d).insertAtBeginning c)
        simp [hr, markPeeked] at hq
    · cases hq
      exact ⟨rfl, rfl, Or.inr h2⟩
    · cases hq
      exact ⟨rfl, rfl, Or.inl (by simpa using h1)⟩
  · intro e q hq
    unfold append at hq
    split_ifs at hq with h1 h2
    · cases hc : p.contents with
      | none => simp [hc] at hq
      | some d =>
        simp only [hc] at hq
        split_ifs at hq with h3
        obtain ⟨r, hr⟩ := Chunk.peekAt_whole ((makeContentsMutable d).insertAtEnd c)
        simp [hr, markPeeked] at hq
    · cases hq
      exact ⟨rfl, rfl, Or.inr h2⟩
    · cases hq
      exact ⟨rfl, rfl, Or.inl (by simpa using h1)⟩

/-- Witness for C10: a mutable chunk is rejected by `prepend`, and `append` is rejected on a packet
whose back iterator is at 5. -/
theorem prepend_append_rejected_witness :
    Packet.new.prepend (.lengthChunk {} 10) = .failed .assertionFailed Packet.new ∧
      (⟨some (makeImmutableByteCountChunk 10), ForwardIterator 0 0, BackwardIterator 5 0⟩ :
          Packet).append (makeImmutableByteCountChunk 10)
        = .failed .assertionFailed
          ⟨some (makeImmutableByteCountChunk 10), ForwardIterator 0 0, BackwardIterator 5 0⟩ :=
  ⟨(prepend_append_rejected Packet.new (.lengthChunk {} 10)).1 (Or.inl rfl),
    (prepend_append_rejected
      ⟨some (makeImmutableByteCountChunk 10), ForwardIterator 0 0, BackwardIterator 5 0⟩
      (makeImmutableByteCountChunk 10)).2.1 (Or.inr (by decide))⟩

end Packet
/-! ## Content of a packet after insertion and removal -/

namespace Chunk

theorem take_add_drop (xs : List ContentUnit) (p k l : Nat) :
    (xs.drop p).take (k + l) = (xs.drop p).take k ++ (xs.drop (p + k)).take l := by
  rw [List.take_add, List.drop_drop]

theorem isImmutable_markImmutable (c : Chunk) : c.markImmutable.isImmutable = true := by
  cases c <;> rfl

theorem units_markImmutable (c : Chunk) : c.markImmutable.units = c.units := by
  rw [markImmutable, units_setFlags]

theorem wellFormed_markImmutable (c : Chunk) : c.markImmutable.wellFormed = c.wellFormed := by
  rw [markImmutable, wellFormed_setFlags]

/-- Insertion in place at the front puts the content of the inserted chunk before the content of
the chunk. -/
theorem units_insertAtBeginning (c chunk : Chunk) (hc : c.wellFormed = true)
    (hk : chunk.wellFormed = true) (hcan : c.canInsertAtBeginning chunk = true) :
    (c.makeMutable.insertAtBeginning chunk).units = chunk.units ++ c.units ∧
      (c.makeMutable.insertAtBeginning chunk).wellFormed = true := by
  cases c with
  | sequenceChunk f cs =>
    simp only [wellFormed] at hc
    have hi := units_inlineChunk chunk hk
    have hm := units_mergeChunks (inlineChunk chunk ++ cs)
      (by rw [wellFormedList_append, hi.2, hc]; rfl)
    simp only [makeMutable, setFlags, insertAtBeginning, units, wellFormed]
    exact ⟨by rw [hm.1, unitsList_append, hi.1], hm.2⟩
  | bytesChunk f bs =>
    cases chunk with
    | bytesChunk g b =>
      simp [makeMutable, setFlags, insertAtBeginning, units, wellFormed]
    | emptyChunk g => simp [canInsertAtBeginning] at hcan
    | lengthChunk g m => simp [canInsertAtBeginning] at hcan
    | fieldsChunk g t fs m r => simp [canInsertAtBeginning] at hcan
    | sliceChunk g d p k => simp [canInsertAtBeginning] at hcan
    | sequenceChunk g ds => simp [canInsertAtBeginning] at hcan
  | lengthChunk f n =>
    cases chunk with
    | lengthChunk g m =>
      simp only [makeMutable, setFlags, insertAtBeginning, units, wellFormed, and_true]
      exact List.replicate_add _ _ _
    | emptyChunk g => simp [canInsertAtBeginning] at hcan
    | bytesChunk g b => simp [canInsertAtBeginning] at hcan
    | fieldsChunk g t fs m r => simp [canInsertAtBeginning] at hcan
    | sliceChunk g d p k => simp [canInsertAtBeginning] at hcan
    | sequenceChunk g ds => simp [canInsertAtBeginning] at hcan
  | sliceChunk f c o l =>
    cases chunk with
    | sliceChunk g d p k =>
      simp only [canInsertAtBeginning, Bool.and_eq_true, decide_eq_true_eq] at hcan
      simp only [wellFormed, Bool.and_eq_true, decide_eq_true_eq] at hc hk
      have hd := eq_of_same d c hcan.1
      subst hd
      have ho := hcan.2
      subst ho
      simp only [makeMutable, setFlags, insertAtBeginning, units, wellFormed, hc.1, Bool.true_and,
        decide_eq_true_eq]
      exact ⟨take_add_drop _ p k l, by omega⟩
    | emptyChunk g => simp [canInsertAtBeginning] at hcan
    | lengthChunk g m => simp [canInsertAtBeginning] at hcan
    | bytesChunk g b => simp [canInsertAtBeginning] at hcan
    | fieldsChunk g t fs m r => simp [canInsertAtBeginning] at hcan
    | sequenceChunk g ds => simp [canInsertAtBeginning] at hcan
  | emptyChunk f => simp [canInsertAtBeginning] at hcan
  | fieldsChunk f t fs n r => simp [canInsertAtBeginning] at hcan

/-- Insertion in place at the back puts the content of the inserted chunk after the content of the
chunk. -/
theorem units_insertAtEnd (c chunk : Chunk) (hc : c.wellFormed = true)
    (hk : chunk.wellFormed = true) (hcan : c.canInsertAtEnd chunk = true) :
    (c.makeMutable.insertAtEnd chunk).units = c.units ++ chunk.units ∧
      (c.makeMutable.insertAtEnd chunk).wellFormed = true := by
  cases c with
  | sequenceChunk f cs =>
    simp only [wellFormed] at hc
    have hi := units_inlineChunk chunk hk
    have hm := units_mergeChunks (cs ++ inlineChunk chunk)
      (by rw [wellFormedList_append, hi.2, hc]; rfl)
    simp only [makeMutable, setFlags, insertAtEnd, units, wellFormed]
    exact ⟨by rw [hm.1, unitsList_append, hi.1], hm.2⟩
  | bytesChunk f bs =>
    cases chunk with
    | bytesChunk g b =>
      simp [makeMutable, setFlags, insertAtEnd, units, wellFormed]
    | emptyChunk g => simp [canInsertAtEnd] at hcan
    | lengthChunk g m => simp [canInsertAtEnd] at hcan
    | fieldsChunk g t fs m r => simp [canInsertAtEnd] at hcan
    | sliceChunk g d p k => simp [canInsertAtEnd] at hcan
    | sequenceChunk g ds => simp [canInsertAtEnd] at hcan
  | lengthChunk f n =>
    cases chunk with
    | lengthChunk g m =>
      simp only [makeMutable, setFlags, insertAtEnd, units, wellFormed, and_true]
      exact List.replicate_add _ _ _
    | emptyChunk g => simp [canInsertAtEnd] at hcan
    | bytesChunk g b => simp [canInsertAtEnd] at hcan
    | fieldsChunk g t fs m r => simp [canInsertAtEnd] at hcan
    | sliceChunk g d p k => simp [canInsertAtEnd] at hcan
    | sequenceChunk g ds => simp [canInsertAtEnd] at hcan
  | sliceChunk f c o l =>
    cases chunk with
    | sliceChunk g d p k =>
      simp only [canInsertAtEnd, Bool.and_eq_true, decide_eq_true_eq] at hcan
      simp only [wellFormed, Bool.and_eq_true, decide_eq_true_eq] at hc hk
      have hd := eq_of_same c d hcan.1
      subst hd
      have ho := hcan.2
      subst ho
      simp only [makeMutable, setFlags, insertAtEnd, units, wellFormed, hc.1, Bool.true_and,
        decide_eq_true_eq]
      exact ⟨take_add_drop _ o l k, by omega⟩
    | emptyChunk g => simp [canInsertAtEnd] at hcan
    | lengthChunk g m => simp [canInsertAtEnd] at hcan
    | bytesChunk g b => simp [canInsertAtEnd] at hcan
    | fieldsChunk g t fs m r => simp [canInsertAtEnd] at hcan
    | sequenceChunk g ds => simp [canInsertAtEnd] at hcan
  | emptyChunk f => simp [canInsertAtEnd] at hcan
  | fieldsChunk f t fs n r => simp [canInsertAtEnd] at hcan

/-- A new sequence into which first `c` and then `chunk` are inserted at the front holds the
content of `chunk` followed by the content of `c`. -/
theorem units_wrapAtBeginning (c chunk : Chunk) (hc : c.wellFormed = true)
    (hk : chunk.wellFormed = true) :
    (((Chunk.sequenceChunk {} []).insertAtBeginning c).insertAtBeginning chunk).units
        = chunk.units ++ c.units ∧
      (((Chunk.sequenceChunk {} []).insertAtBeginning c).insertAtBeginning chunk).wellFormed
        = true := by
  have hi := units_inlineChunk c hc
  have hj := units_inlineChunk chunk hk
  have hm := units_mergeChunks (inlineChunk c ++ [])
    (by rw [wellFormedList_append, hi.2]; rfl)
  have hn := units_mergeChunks (inlineChunk chunk ++ mergeChunks (inlineChunk c ++ []))
    (by rw [wellFormedList_append, hj.2, hm.2]; rfl)
  simp only [insertAtBeginning, units, wellFormed]
  refine ⟨?_, hn.2⟩
  rw [hn.1, unitsList_append, hj.1, hm.1, unitsList_append, hi.1]
  simp [unitsList]

/-- A new sequence into which first `c` and then `chunk` are inserted at the back holds the
content of `c` followed by the content of `chunk`. -/
theorem units_wrapAtEnd (c chunk : Chunk) (hc : c.wellFormed = true)
    (hk : chunk.wellFormed = true) :
    (((Chunk.sequenceChunk {} []).insertAtEnd c).insertAtEnd chunk).units
        = c.units ++ chunk.units ∧
      (((Chunk.sequenceChunk {} []).insertAtEnd c).insertAtEnd chunk).wellFormed = true := by
  have hi := units_inlineChunk c hc
  have hj := units_inlineChunk chunk hk
  have hm := units_mergeChunks ([] ++ inlineChunk c)
    (by rw [wellFormedList_append, hi.2]; rfl)
  have hn := units_mergeChunks (mergeChunks ([] ++ inlineChunk c) ++ inlineChunk chunk)
    (by rw [wellFormedList_append, hj.2, hm.2]; rfl)
  simp only [insertAtEnd, units, wellFormed]
  refine ⟨?_, hn.2⟩
  rw [hn.1, unitsList_append, hj.1, hm.1, unitsList_append, hi.1]
  simp [unitsList]

/-- A peek of the whole chunk from offset 0 returns a chunk with the same content. -/
theorem peekAt_whole_units (c : Chunk) (hc : c.wellFormed = true) :
    ∃ r, c.peekAt 0 (c.getChunkLength : Int) = .ok (some r) ∧ r.units = c.units ∧
      r.wellFormed = true := by
  obtain ⟨r, hr, hu, hw, _⟩ := peekAt_inside c 0 c.getChunkLength hc (by omega)
  refine ⟨r, by simpa using hr, ?_, hw⟩
  rw [hu, getChunkLength_eq_length_units c hc]
  simp

end Chunk

namespace Packet

/-- `Packet::prepend` of an immutable chunk with the front iterator at 0 succeeds: the new contents
are immutable, well formed and hold the content of the chunk followed by the old content. -/
theorem prepend_content (p : Packet) (chunk : Chunk) (hi : chunk.isImmutable = true)
    (hk : chunk.wellFormed = true) (hp : ∀ c, p.contents = some c → c.wellFormed = true)
    (hh : p.headerIterator.position = 0) :
    ∃ r, p.prepend chunk = .ok () { p with contents := some r } ∧ r.isImmutable = true ∧
      r.wellFormed = true ∧ r.units = chunk.units ++ p.contentUnits := by
  cases hcont : p.contents with
  | none =>
    exact ⟨chunk, by simp [prepend, hi, hh, hcont], hi, hk, by simp [contentUnits, hcont]⟩
  | some c =>
    have hc := hp c hcont
    by_cases hcan : c.canInsertAtBeginning chunk = true
    · have hm := Chunk.units_insertAtBeginning c chunk hc hk hcan
      obtain ⟨r, hr, hu, hw⟩ := Chunk.peekAt_whole_units _ hm.2
      refine ⟨r.markImmutable, ?_, Chunk.isImmutable_markImmutable r, ?_, ?_⟩
      · simp only [prepend, hi, hh, hcont, hcan, if_true, makeContentsMutable, hr, markPeeked]
      · rw [Chunk.wellFormed_markImmutable, hw]
      · rw [Chunk.units_markImmutable, hu, hm.1]
        simp [contentUnits, hcont]
    · have hm := Chunk.units_wrapAtBeginning c chunk hc hk
      refine ⟨(((Chunk.sequenceChunk {} []).insertAtBeginning c).insertAtBeginning chunk).markImmutable,
        ?_, Chunk.isImmutable_markImmutable _, ?_, ?_⟩
      · simp only [prepend, hi, hh, hcont, hcan, if_true]
        rfl
      · rw [Chunk.wellFormed_markImmutable, hm.2]
      · rw [Chunk.units_markImmutable, hm.1]
        simp [contentUnits, hcont]

/-- `Packet::append` of an immutable chunk with the back iterator at 0 succeeds: the new contents
are immutable, well formed and hold the old content followed by the content of the chunk. -/
theorem append_content (p : Packet) (chunk : Chunk) (hi : chunk.isImmutable = true)
    (hk : chunk.wellFormed = true) (hp : ∀ c, p.contents = some c → c.wellFormed = true)
    (hh : p.trailerIterator.position = 0) :
    ∃ r, p.append chunk = .ok () { p with contents := some r } ∧ r.isImmutable = true ∧
      r.wellFormed = true ∧ r.units = p.contentUnits ++ chunk.units := by
  cases hcont : p.contents with
  | none =>
    exact ⟨chunk, by simp [append, hi, hh, hcont], hi, hk, by simp [contentUnits, hcont]⟩
  | some c =>
    have hc := hp c hcont
    by_cases hcan : c.canInsertAtEnd chunk = true
    · have hm := Chunk.units_insertAtEnd c chunk hc hk hcan
      obtain ⟨r, hr, hu, hw⟩ := Chunk.peekAt_whole_units _ hm.2
      refine ⟨r.markImmutable, ?_, Chunk.isImmutable_markImmutable r, ?_, ?_⟩
      · simp only [append, hi, hh, hcont, hcan, if_true, makeContentsMutable, hr, markPeeked]
      · rw [Chunk.wellFormed_markImmutable, hw]
      · rw [Chunk.units_markImmutable, hu, hm.1]
        simp [contentUnits, hcont]
    · have hm := Chunk.units_wrapAtEnd c chunk hc hk
      refine ⟨(((Chunk.sequenceChunk {} []).insertAtEnd c).insertAtEnd chunk).markImmutable,
        ?_, Chunk.isImmutable_markImmutable _, ?_, ?_⟩
      · simp only [append, hi, hh, hcont, hcan, if_true]
        rfl
      · rw [Chunk.wellFormed_markImmutable, hm.2]
      · rw [Chunk.units_markImmutable, hm.1]
        simp [contentUnits, hcont]

/-- The length of a packet with well-formed contents is the number of its content units. -/
theorem getPacketLength_eq_length_contentUnits (p : Packet)
    (hp : ∀ c, p.contents = some c → c.wellFormed = true) :
    p.getPacketLength = (p.contentUnits.length : Int) := by
  cases hcont : p.contents with
  | none => simp [getPacketLength, contentUnits, hcont]
  | some c =>
    simp [getPacketLength, contentUnits, hcont, Chunk.getChunkLength_eq_length_units c (hp c hcont)]

end Packet

namespace Chunk

/-- In-place removal from the back of contents that support it keeps the content before the last
`n` units. -/
theorem removeFromEnd_in_place (c : Chunk) (n : Nat)
    (hcan : c.canRemoveFromEnd (n : Int) = true) :
    ((c.makeMutable.removeFromEnd (n : Int)).markImmutable).units
        = (c.units).take (c.getChunkLength - n) ∧
      ((c.makeMutable.removeFromEnd (n : Int)).markImmutable).wellFormed = true ∧
      ((c.makeMutable.removeFromEnd (n : Int)).markImmutable).getChunkLength
        = c.getChunkLength - n := by
  cases c with
  | lengthChunk f k =>
    simp only [makeMutable, markImmutable, setFlags, removeFromEnd, units, wellFormed,
      getChunkLength, Int.toNat_ofNat, List.take_replicate, and_self, and_true]
    congr 1
    omega
  | bytesChunk f bs =>
    simp only [makeMutable, markImmutable, setFlags, removeFromEnd, units, wellFormed,
      getChunkLength, Int.toNat_ofNat, List.map_take, List.length_take, and_true, true_and]
    omega
  | emptyChunk f => simp [canRemoveFromEnd] at hcan
  | fieldsChunk f t fs k s => simp [canRemoveFromEnd] at hcan
  | sliceChunk f c o l => simp [canRemoveFromEnd] at hcan
  | sequenceChunk f cs => simp [canRemoveFromEnd] at hcan

end Chunk

namespace Packet

/-- `Packet::removeFromEnd` with the back iterator at 0 and `n` within the packet length succeeds
and leaves well-formed contents of length `length - n` holding the old content before the last `n`
units; the iterators are untouched. -/
theorem removeFromEnd_inside (p : Packet) (c : Chunk) (n : Nat) (hp : p.contents = some c)
    (hc : c.wellFormed = true) (hn : n ≤ c.getChunkLength)
    (hh : p.trailerIterator.position = 0) :
    ∃ r, p.removeFromEnd (n : Int) = .ok () { p with contents := some r } ∧
      r.units = (c.units).take (c.getChunkLength - n) ∧ r.wellFormed = true ∧
      r.getChunkLength = c.getChunkLength - n := by
  have ha : (0 : Int) ≤ (n : Int) ∧ (n : Int) ≤ p.getPacketLength := by
    simp only [getPacketLength, hp]
    omega
  by_cases hcan : c.canRemoveFromEnd (n : Int) = true
  · have hr := Chunk.removeFromEnd_in_place c n hcan
    exact ⟨((makeContentsMutable c).removeFromEnd (n : Int)).markImmutable,
      by simp only [removeFromEnd, ha, and_self, if_true, hh, hp, hcan],
      hr.1, hr.2.1, hr.2.2⟩
  · obtain ⟨r, hr, hu, hw, hl⟩ :=
      Chunk.peekAt_inside c 0 (c.getChunkLength - n) hc (by omega)
    refine ⟨r.markImmutable, ?_, ?_, ?_, ?_⟩
    · have hcast : ((c.getChunkLength : Int) - (n : Int)) = ((c.getChunkLength - n : Nat) : Int) := by
        omega
      simp only [Nat.cast_zero] at hr
      simp only [removeFromEnd, ha, and_self, if_true, hh, hp, hcan, hcast, hr, keepPeeked]
      simp
    · rw [Chunk.units_markImmutable, hu, List.drop_zero]
    · rw [Chunk.wellFormed_markImmutable, hw]
    · rw [Chunk.markImmutable, Chunk.getChunkLength_setFlags, hl]

end Packet

/-! ## Claims about insertion into and removal from a `Packet` -/

namespace Packet

/-- C11: for every packet (with well-formed contents, if any) and every immutable well-formed
chunk `c`: with the front iterator at 0, `prepend(c)` succeeds, the contents of the packet are
immutable, the packet length is the old length plus the length of `c`, and the bytes of the packet
are the bytes of `c` followed by the old bytes; with the back iterator at 0, `append(c)` succeeds
likewise and the bytes are the old bytes followed by the bytes of `c`.  The iterators are kept. -/
theorem prepend_append_bytes (p : Packet) (chunk : Chunk)
    (fieldOctet : Nat → List Int → Nat → Nat)
    (hi : chunk.isImmutable = true) (hk : chunk.wellFormed = true)
    (hp : ∀ c, p.contents = some c → c.wellFormed = true) :
    (p.headerIterator.position = 0 →
      ∃ q c, p.prepend chunk = .ok () q ∧ q.contents = some c ∧ c.isImmutable = true ∧
        q.getPacketLength = p.getPacketLength + chunk.getChunkLength ∧
        q.contentUnits = chunk.units ++ p.contentUnits ∧
        q.bytesOf fieldOctet = chunk.bytesOf fieldOctet ++ p.bytesOf fieldOctet ∧
        q.headerIterator = p.headerIterator ∧ q.trailerIterator = p.trailerIterator) ∧
    (p.trailerIterator.position = 0 →
      ∃ q c, p.append chunk = .ok () q ∧ q.contents = some c ∧ c.isImmutable = true ∧
        q.getPacketLength = p.getPacketLength + chunk.getChunkLength ∧
        q.contentUnits = p.contentUnits ++ chunk.units ∧
        q.bytesOf fieldOctet = p.bytesOf fieldOctet ++ chunk.bytesOf fieldOctet ∧
        q.headerIterator = p.headerIterator ∧ q.trailerIterator = p.trailerIterator) := by
  have hlen := getPacketLength_eq_length_contentUnits p hp
  have hck := Chunk.getChunkLength_eq_length_units chunk hk
  constructor
  · intro hh
    obtain ⟨r, hr, him, hw, hu⟩ := prepend_content p chunk hi hk hp hh
    refine ⟨{ p with contents := some r }, r, hr, rfl, him, ?_, hu, ?_, rfl, rfl⟩
    · rw [hlen, hck]
      simp [getPacketLength, Chunk.getChunkLength_eq_length_units r hw, hu]
      omega
    · simp [bytesOf, Chunk.bytesOf, contentUnits, hu]
  · intro hh
    obtain ⟨r, hr, him, hw, hu⟩ := append_content p chunk hi hk hp hh
    refine ⟨{ p with contents := some r }, r, hr, rfl, him, ?_, hu, ?_, rfl, rfl⟩
    · rw [hlen, hck]
      simp [getPacketLength, Chunk.getChunkLength_eq_length_units r hw, hu]
    · simp [bytesOf, Chunk.bytesOf, contentUnits, hu]

theorem prepend_append_bytes_witness :
    (∃ q c, (⟨some (makeImmutableBytesChunk (makeVector 5)), ForwardIterator 0 0,
          BackwardIterator 0 0⟩ : Packet).prepend (makeImmutableByteCountChunk 3) = .ok () q ∧
        q.contents = some c ∧ c.isImmutable = true ∧ q.getPacketLength = 5 + 3 ∧
        q.bytesOf (fun _ _ _ => 0) = [63, 63, 63] ++ [0, 1, 2, 3, 4]) ∧
    (∃ q c, (⟨some (makeImmutableBytesChunk (makeVector 5)), ForwardIterator 0 0,
          BackwardIterator 0 0⟩ : Packet).append (makeImmutableByteCountChunk 3) = .ok () q ∧
        q.contents = some c ∧ c.isImmutable = true ∧ q.getPacketLength = 5 + 3 ∧
        q.bytesOf (fun _ _ _ => 0) = [0, 1, 2, 3, 4] ++ [63, 63, 63]) := by
  have h := prepend_append_bytes
    ⟨some (makeImmutableBytesChunk (makeVector 5)), ForwardIterator 0 0, BackwardIterator 0 0⟩
    (makeImmutableByteCountChunk 3) (fun _ _ _ => 0) (by rfl) (by rfl)
    (fun c hc => by cases hc; rfl)
  obtain ⟨q, c, hq, hc, hi, hl, _, hb, _, _⟩ := h.1 rfl
  obtain ⟨q2, c2, hq2, hc2, hi2, hl2, _, hb2, _, _⟩ := h.2 rfl
  exact ⟨⟨q, c, hq, hc, hi, hl, hb⟩, ⟨q2, c2, hq2, hc2, hi2, hl2, hb2⟩⟩

/-- C12: for every packet with well-formed contents and every `0 ≤ len ≤ packet length`: with the
front iterator at 0, `removeFromBeginning(len)` leaves a packet of the old length minus `len`
whose bytes are the old bytes from `len` on; with the back iterator at 0, `removeFromEnd(len)`
leaves a packet of the old length minus `len` whose bytes are the first old length minus `len` old
bytes; each is rejected by an assertion, the packet unchanged, when its iterator is not at 0. -/
theorem removeFrom_trims (p : Packet) (c : Chunk) (len : Int)
    (fieldOctet : Nat → List Int → Nat → Nat) (hp : p.contents = some c)
    (hc : c.wellFormed = true) (h0 : 0 ≤ len) (hl : len ≤ p.getPacketLength) :
    (p.headerIterator.position = 0 →
      ∃ q, p.removeFromBeginning len = .ok () q ∧
        q.getPacketLength = p.getPacketLength - len ∧
        q.contentUnits = p.contentUnits.drop len.toNat ∧
        q.bytesOf fieldOctet = (p.bytesOf fieldOctet).drop len.toNat ∧
        q.headerIterator = p.headerIterator ∧ q.trailerIterator = p.trailerIterator) ∧
    (p.trailerIterator.position = 0 →
      ∃ q, p.removeFromEnd len = .ok () q ∧
        q.getPacketLength = p.getPacketLength - len ∧
        q.contentUnits = p.contentUnits.take (p.getPacketLength - len).toNat ∧
        q.bytesOf fieldOctet = (p.bytesOf fieldOctet).take (p.getPacketLength - len).toNat ∧
        q.headerIterator = p.headerIterator ∧ q.trailerIterator = p.trailerIterator) ∧
    (p.headerIterator.position ≠ 0 → p.removeFromBeginning len = .failed .assertionFailed p) ∧
    (p.trailerIterator.position ≠ 0 → p.removeFromEnd len = .failed .assertionFailed p) := by
  obtain ⟨n, rfl⟩ := Int.eq_ofNat_of_zero_le h0
  have hlen : p.getPacketLength = (c.getChunkLength : Int) := by simp [getPacketLength, hp]
  have hn : n ≤ c.getChunkLength := by
    rw [hlen] at hl
    omega
  have hsub : ((c.getChunkLength : Int) - (n : Int)).toNat = c.getChunkLength - n := by omega
  refine ⟨?_, ?_, ?_, ?_⟩
  · intro hh
    obtain ⟨r, hr, hu, _, hrl⟩ := removeFromBeginning_inside p c n hp hc hn hh
    refine ⟨{ p with contents := some r }, hr, ?_, ?_, ?_, rfl, rfl⟩
    · rw [hlen]
      simp only [getPacketLength, hrl]
      omega
    · simp [contentUnits, hp, hu]
    · simp [bytesOf, contentUnits, hp, hu, List.map_drop]
  · intro hh
    obtain ⟨r, hr, hu, _, hrl⟩ := removeFromEnd_inside p c n hp hc hn hh
    refine ⟨{ p with contents := some r }, hr, ?_, ?_, ?_, rfl, rfl⟩
    · rw [hlen]
      simp only [getPacketLength, hrl]
      omega
    · rw [hlen, hsub]
      simp [contentUnits, hp, hu]
    · rw [hlen, hsub]
      simp [bytesOf, contentUnits, hp, hu, List.map_take]
  · intro hh
    simp [removeFromBeginning, h0, hl, hh]
  · intro hh
    simp [removeFromEnd, h0, hl, hh]

theorem removeFrom_trims_witness :
    (∃ q, (⟨some (makeImmutableBytesChunk (makeVector 5)), ForwardIterator 0 0,
          BackwardIterator 0 0⟩ : Packet).removeFromBeginning 2 = .ok () q ∧
        q.getPacketLength = 5 - 2 ∧
        q.bytesOf (fun _ _ _ => 0) = [0, 1, 2, 3, 4].drop (2 : Int).toNat) ∧
    (∃ q, (⟨some (makeImmutableBytesChunk (makeVector 5)), ForwardIterator 0 0,
          BackwardIterator 0 0⟩ : Packet).removeFromEnd 2 = .ok () q ∧
        q.getPacketLength = 5 - 2 ∧
        q.bytesOf (fun _ _ _ => 0) = [0, 1, 2, 3, 4].take ((5 : Int) - 2).toNat) := by
  have h := removeFrom_trims
    ⟨some (makeImmutableBytesChunk (makeVector 5)), ForwardIterator 0 0, BackwardIterator 0 0⟩
    (makeImmutableBytesChunk (makeVector 5)) 2 (fun _ _ _ => 0) rfl (by rfl) (by decide)
    (by decide)
  obtain ⟨q, hq, hl, _, hb, _, _⟩ := h.1 rfl
  obtain ⟨q2, hq2, hl2, _, hb2, _, _⟩ := h.2.1 rfl
  exact ⟨⟨q, hq, hl, hb⟩, ⟨q2, hq2, hl2, hb2⟩⟩

end Packet

/-! ## Claims about `BytesChunk` -/

namespace BytesChunk

theorem peek_bytes (c : BytesChunk) (it : Iterator) (l : Int) (hp : 0 ≤ it.position)
    (hl : 0 ≤ l) (h : it.position + l ≤ (c.bytes.length : Int)) :
    ∃ r, c.peek it l = .ok r ∧
      (c.peeked r).bytes = (c.bytes.drop it.position.toNat).take l.toNat := by
  unfold peek
  by_cases hw : it.position = 0 ∧ l = c.getChunkLength
  · refine ⟨.sharedFromThis, by simp [hw], ?_⟩
    obtain ⟨h0, hlen⟩ := hw
    simp [peeked, h0, hlen, getChunkLength]
  · have hr : 0 ≤ it.position ∧ it.position ≤ c.getChunkLength ∧
        (l = -1 ∨ (0 ≤ l ∧ it.position + l ≤ c.getChunkLength)) := by
      simp only [getChunkLength]
      omega
    have hne : l ≠ -1 := by omega
    exact ⟨_, by rw [if_neg hw, if_pos hr], by simp [peeked, ofBytes, hne]⟩

theorem peek_bytes_to_end (c : BytesChunk) (it : Iterator) (hp : 0 ≤ it.position)
    (h : it.position ≤ (c.bytes.length : Int)) :
    ∃ r, c.peek it (-1) = .ok r ∧ (c.peeked r).bytes = c.bytes.drop it.position.toNat := by
  unfold peek
  have hw : ¬ (it.position = 0 ∧ (-1 : Int) = c.getChunkLength) := by
    simp only [getChunkLength]
    omega
  have hr : 0 ≤ it.position ∧ it.position ≤ c.getChunkLength ∧
      ((-1 : Int) = -1 ∨ (0 ≤ (-1 : Int) ∧ it.position + (-1) ≤ c.getChunkLength)) :=
    ⟨hp, h, Or.inl rfl⟩
  exact ⟨_, by rw [if_neg hw, if_pos hr], by simp [peeked, ofBytes]⟩

/-- C13 (the code departs from the claim): at position 0 `BytesChunk::peek` returns the chunk
itself when the length of the chunk is requested, but for the sentinel `-1`, which denotes the same
whole window, it returns a newly made chunk holding a copy of the octets; for the immutable chunk
of `testSlicing` the copy is a mutable chunk, distinct from the chunk peeked. -/
theorem peek_sentinel_at_start_copies (c : BytesChunk) (isForward : Bool) (index : Int) :
    c.peek ⟨isForward, 0, index⟩ c.getChunkLength = .ok .sharedFromThis ∧
    c.peek ⟨isForward, 0, index⟩ (-1) = .ok (.makeShared (ofBytes c.bytes)) ∧
    ((ofBytes (makeVector 10)).markImmutable).peek ⟨true, 0, -1⟩ (-1)
      = .ok (.makeShared ⟨{}, [0, 1, 2, 3, 4, 5, 6, 7, 8, 9]⟩) ∧
    ((ofBytes (makeVector 10)).markImmutable).peeked (.makeShared ⟨{}, [0, 1, 2, 3, 4, 5, 6, 7, 8, 9]⟩)
      ≠ (ofBytes (makeVector 10)).markImmutable := by
  have hw : ¬ ((-1 : Int) = c.getChunkLength) := by
    simp only [getChunkLength]
    omega
  have hlen : (0 : Int) ≤ c.getChunkLength := by
    simp only [getChunkLength]
    omega
  exact ⟨by simp [peek], by simp [peek, hw, hlen], by rfl, by decide⟩

/-- C14: for a bytes chunk with octets `b`, a position `p` and a length `l` with `0 ≤ p`, `0 ≤ l`
and `p + l ≤ |b|`, `BytesChunk::peek` returns a bytes chunk whose octets are `b[p .. p + l)`, and
with the length `-1` a bytes chunk whose octets are `b[p .. |b|)`. -/
theorem peek_returns_window (c : BytesChunk) (it : Iterator) (l : Int) (hp : 0 ≤ it.position)
    (hl : 0 ≤ l) (h : it.position + l ≤ (c.bytes.length : Int)) :
    (∃ r, c.peek it l = .ok r ∧
      (c.peeked r).bytes = (c.bytes.drop it.position.toNat).take l.toNat) ∧
    (∃ r, c.peek it (-1) = .ok r ∧ (c.peeked r).bytes = c.bytes.drop it.position.toNat) :=
  ⟨peek_bytes c it l hp hl h, peek_bytes_to_end c it hp (by omega)⟩

theorem peek_returns_window_witness :
    (∃ r, (ofBytes (makeVector 10)).markImmutable.peek ⟨true, 2, -1⟩ 5 = .ok r ∧
      ((ofBytes (makeVector 10)).markImmutable.peeked r).bytes
        = (((ofBytes (makeVector 10)).markImmutable).bytes.drop (2 : Int).toNat).take (5 : Int).toNat) ∧
    (∃ r, (ofBytes (makeVector 10)).markImmutable.peek ⟨true, 2, -1⟩ (-1) = .ok r ∧
      ((ofBytes (makeVector 10)).markImmutable.peeked r).bytes
        = ((ofBytes (makeVector 10)).markImmutable).bytes.drop (2 : Int).toNat) :=
  peek_returns_window ((ofBytes (makeVector 10)).markImmutable) ⟨true, 2, -1⟩ 5
    (by decide) (by decide) (by decide)

/-- C15: for a bytes chunk `c` and windows with `0 ≤ o1`, `0 ≤ l1`, `o1 + l1 ≤ length(c)`,
`0 ≤ o2` and `0 ≤ l2 ≤ l1 - o2`, peeking the window `(o2, l2)` of the chunk returned by peeking the
window `(o1, l1)` of `c` yields the same octets as peeking the window `(o1 + o2, l2)` of `c`. -/
theorem peek_composes (c : BytesChunk) (o1 l1 o2 l2 : Int) (d1 d2 d3 : Bool) (i1 i2 i3 : Int)
    (ho1 : 0 ≤ o1) (hl1 : 0 ≤ l1) (h1 : o1 + l1 ≤ c.getChunkLength)
    (ho2 : 0 ≤ o2) (hl2 : 0 ≤ l2) (h2 : l2 ≤ l1 - o2) :
    ∃ r1 r2 r3, c.peek ⟨d1, o1, i1⟩ l1 = .ok r1 ∧
      (c.peeked r1).peek ⟨d2, o2, i2⟩ l2 = .ok r2 ∧
      c.peek ⟨d3, o1 + o2, i3⟩ l2 = .ok r3 ∧
      ((c.peeked r1).peeked r2).bytes = (c.peeked r3).bytes := by
  simp only [getChunkLength] at h1
  obtain ⟨r1, e1, b1⟩ := peek_bytes c ⟨d1, o1, i1⟩ l1 ho1 hl1 h1
  have hlen : ((c.peeked r1).bytes.length : Int) = l1 := by
    rw [b1]
    simp only [List.length_take, List.length_drop]
    omega
  obtain ⟨r2, e2, b2⟩ := peek_bytes (c.peeked r1) ⟨d2, o2, i2⟩ l2 ho2 hl2
    (by rw [hlen]; show o2 + l2 ≤ l1; omega)
  obtain ⟨r3, e3, b3⟩ := peek_bytes c ⟨d3, o1 + o2, i3⟩ l2 (show 0 ≤ o1 + o2 by omega) hl2
    (show o1 + o2 + l2 ≤ (c.bytes.length : Int) by omega)
  refine ⟨r1, r2, r3, e1, e2, e3, ?_⟩
  rw [b2, b3, b1]
  simp only []
  rw [List.drop_take, List.take_take, List.drop_drop]
  congr 1
  · omega
  · congr 1
    omega

theorem peek_composes_witness :
    ∃ r1 r2 r3, (ofBytes (makeVector 10)).peek ⟨true, 2, -1⟩ 6 = .ok r1 ∧
      ((ofBytes (makeVector 10)).peeked r1).peek ⟨true, 1, -1⟩ 3 = .ok r2 ∧
      (ofBytes (makeVector 10)).peek ⟨true, 2 + 1, -1⟩ 3 = .ok r3 ∧
      (((ofBytes (makeVector 10)).peeked r1).peeked r2).bytes
        = ((ofBytes (makeVector 10)).peeked r3).bytes :=
  peek_composes (ofBytes (makeVector 10)) 2 6 1 3 true true true (-1) (-1) (-1)
    (by decide) (by decide) (by decide) (by decide) (by decide) (by decide)

theorem removeFromBeginning_rejected (c : BytesChunk) (h : c.isMutable = false) (n : Int) :
    c.removeFromBeginning n = .failed c := by
  unfold removeFromBeginning
  rw [h]
  split <;> simp

theorem removeFromEnd_rejected (c : BytesChunk) (h : c.isMutable = false) (n : Int) :
    c.removeFromEnd n = .failed c := by
  unfold removeFromEnd
  rw [h]
  split <;> simp

theorem attempt_rejected (c : BytesChunk) (h : c.isMutable = false) (op : Operation) :
    c.attempt op = (true, c) := by
  cases op with
  | setBytes bytes => simp [attempt, setBytes, h]
  | insertToBeginning chunk => simp [attempt, insertToBeginning, h]
  | insertToEnd chunk => simp [attempt, insertToEnd, h]
  | removeFromBeginning n => simp only [attempt, removeFromBeginning_rejected c h n]
  | removeFromEnd n => simp only [attempt, removeFromEnd_rejected c h n]

theorem attemptAll_rejected (c : BytesChunk) (h : c.isMutable = false) (ops : List Operation) :
    c.attemptAll ops = c := by
  induction ops with
  | nil => rfl
  | cons op ops ih => simp [attemptAll, attempt_rejected c h op, ih]

/-- C16: on an immutable bytes chunk each of `setBytes`, `insertToBeginning`, `insertToEnd`,
`removeFromBeginning` and `removeFromEnd` fails on an assertion and leaves the chunk as it is, so
after any sequence of attempted operations the chunk has the same octets and
`BytesChunkSerializer::serialize` writes the same octets as before. -/
theorem immutable_rejects_mutation (c : BytesChunk) (h : c.isMutable = false) (bytes : List Nat)
    (chunk : Chunk) (byteLength : Int) (ops : List Operation) (stream : ByteOutputStream)
    (counters : SerializerCounters) (offset length : Int) :
    c.setBytes bytes = .failed c ∧ c.insertToBeginning chunk = .failed c ∧
    c.insertToEnd chunk = .failed c ∧ c.removeFromBeginning byteLength = .failed c ∧
    c.removeFromEnd byteLength = .failed c ∧
    (∀ op ∈ ops, c.attempt op = (true, c)) ∧
    (c.attemptAll ops).bytes = c.bytes ∧
    BytesChunkSerializer.serialize stream counters (c.attemptAll ops) offset length
      = BytesChunkSerializer.serialize stream counters c offset length := by
  exact ⟨by simp [setBytes, h], by simp [insertToBeginning, h], by simp [insertToEnd, h],
    removeFromBeginning_rejected c h byteLength, removeFromEnd_rejected c h byteLength,
    fun op _ => attempt_rejected c h op, by rw [attemptAll_rejected c h ops],
    by rw [attemptAll_rejected c h ops]⟩

theorem immutable_rejects_mutation_witness :
    ((ofBytes (makeVector 10)).markImmutable).setBytes [7] = .failed ((ofBytes (makeVector 10)).markImmutable) ∧
    ((ofBytes (makeVector 10)).markImmutable).insertToBeginning (makeImmutableBytesChunk [7])
      = .failed ((ofBytes (makeVector 10)).markImmutable) ∧
    ((ofBytes (makeVector 10)).markImmutable).insertToEnd (makeImmutableBytesChunk [7])
      = .failed ((ofBytes (makeVector 10)).markImmutable) ∧
    ((ofBytes (makeVector 10)).markImmutable).removeFromBeginning 3
      = .failed ((ofBytes (makeVector 10)).markImmutable) ∧
    ((ofBytes (makeVector 10)).markImmutable).removeFromEnd 3
      = .failed ((ofBytes (makeVector 10)).markImmutable) ∧
    (∀ op ∈ [Operation.setBytes [7], Operation.removeFromEnd 3],
      ((ofBytes (makeVector 10)).markImmutable).attempt op
        = (true, (ofBytes (makeVector 10)).markImmutable)) ∧
    (((ofBytes (makeVector 10)).markImmutable).attemptAll
      [Operation.setBytes [7], Operation.removeFromEnd 3]).bytes
        = ((ofBytes (makeVector 10)).markImmutable).bytes ∧
    BytesChunkSerializer.serialize ⟨[]⟩ ⟨0, 0⟩
        (((ofBytes (makeVector 10)).markImmutable).attemptAll
          [Operation.setBytes [7], Operation.removeFromEnd 3]) 0 (-1)
      = BytesChunkSerializer.serialize ⟨[]⟩ ⟨0, 0⟩ ((ofBytes (makeVector 10)).markImmutable) 0 (-1) :=
  immutable_rejects_mutation ((ofBytes (makeVector 10)).markImmutable) (by decide) [7]
    (makeImmutableBytesChunk [7]) 3 [Operation.setBytes [7], Operation.removeFromEnd 3]
    ⟨[]⟩ ⟨0, 0⟩ 0 (-1)

theorem peekAt_whole_bytes (f : ChunkFlags) (bs : List Nat) :
    (Chunk.bytesChunk f bs).peekAt 0 ((Chunk.bytesChunk f bs).getChunkLength : Int)
      = .ok (some (.bytesChunk f bs)) := by
  have h1 : ¬ ((bs.length : Int) < -1 ∨ (0 : Int) < 0 ∨ (bs.length : Int) < 0) := by omega
  have h2 : ¬ ((bs.length : Int) = 0 ∧ 0 < bs.length) := by omega
  simp only [Chunk.peekAt, Chunk.peek, Chunk.peekWindow, Chunk.getChunkLength]
  rw [if_neg h1, if_neg h2]
  simp [Chunk.window, Chunk.getChunkType, Except.map]

/-- C17: for a mutable bytes chunk `a` and a bytes chunk `b`, `a.insertToEnd(b)` returns true and
the octets of `a` become `a.bytes ++ b.bytes`, `a.insertToBeginning(b)` returns true and they
become `b.bytes ++ a.bytes`; with an argument that is not a bytes chunk both return false and leave
`a` as it is; and a packet to which the immutable `a` and then the immutable `b` were appended
holds one bytes chunk with the octets `a.bytes ++ b.bytes`, which a peek of its whole length
returns. -/
theorem insert_merges_bytes (a b : BytesChunk) (chunk : Chunk) (ha : a.isMutable = true)
    (hc : chunk.getChunkType ≠ .bytesChunk) :
    a.insertToEnd b.toChunk = .ok true { a with bytes := a.bytes ++ b.bytes } ∧
    a.insertToBeginning b.toChunk = .ok true { a with bytes := b.bytes ++ a.bytes } ∧
    a.insertToEnd chunk = .ok false a ∧ a.insertToBeginning chunk = .ok false a ∧
    ∃ p1 p2 f, Packet.new.append a.markImmutable.toChunk = .ok () p1 ∧
      p1.append b.markImmutable.toChunk = .ok () p2 ∧
      p2.contents = some (.bytesChunk f (a.bytes ++ b.bytes)) ∧
      p2.peekAt 0 p2.getPacketLength = .ok (some (.bytesChunk f (a.bytes ++ b.bytes))) := by
  refine ⟨by simp [insertToEnd, ha, toChunk], by simp [insertToBeginning, ha, toChunk], ?_, ?_, ?_⟩
  · cases chunk <;> simp_all [insertToEnd, Chunk.getChunkType]
  · cases chunk <;> simp_all [insertToBeginning, Chunk.getChunkType]
  · refine ⟨{ Packet.new with contents := some a.markImmutable.toChunk },
      { Packet.new with
        contents := some (.bytesChunk { a.flags with immutable := true } (a.bytes ++ b.bytes)) },
      { a.flags with immutable := true }, ?_, ?_, rfl, ?_⟩
    · simp [Packet.append, Packet.new, markImmutable, toChunk, Chunk.isImmutable, Chunk.flags,
        BackwardIterator]
    · have hw := peekAt_whole_bytes { a.flags with immutable := false } (a.bytes ++ b.bytes)
      simp only [Chunk.getChunkLength, List.length_append, Nat.cast_add] at hw
      simp [Packet.append, Packet.new, markImmutable, toChunk, Chunk.isImmutable, Chunk.flags,
        BackwardIterator, Chunk.canInsertAtEnd, Packet.makeContentsMutable, Chunk.makeMutable,
        Chunk.setFlags, Chunk.insertAtEnd, Chunk.getChunkLength, hw, Packet.markPeeked,
        Chunk.markImmutable]
    · have hw := peekAt_whole_bytes { a.flags with immutable := true } (a.bytes ++ b.bytes)
      simp only [Chunk.getChunkLength, Chunk.peekAt, List.length_append, Nat.cast_add] at hw
      have h0 : (0 : Int) ≤ (a.bytes.length : Int) + (b.bytes.length : Int) := by omega
      have h1 : (-1 : Int) ≤ (a.bytes.length : Int) + (b.bytes.length : Int) := by omega
      simp [Packet.peekAt, Packet.getPacketLength, Chunk.getChunkLength, hw, Packet.liftChunk,
        h0, h1]

theorem insert_merges_bytes_witness :
    (ofBytes (makeVector 5)).insertToEnd (makeImmutableBytesChunk (makeVector 5))
      = .ok true (ofBytes [0, 1, 2, 3, 4, 0, 1, 2, 3, 4]) ∧
    (ofBytes (makeVector 5)).insertToEnd (makeImmutableByteCountChunk 5)
      = .ok false (ofBytes (makeVector 5)) ∧
    ∃ p1 p2 f, Packet.new.append (makeImmutableBytesChunk (makeVector 5)) = .ok () p1 ∧
      p1.append (makeImmutableBytesChunk (makeVector 5)) = .ok () p2 ∧
      p2.peekAt 0 p2.getPacketLength
        = .ok (some (.bytesChunk f [0, 1, 2, 3, 4, 0, 1, 2, 3, 4])) := by
  obtain ⟨h1, _, h3, _, p1, p2, f, e1, e2, _, e3⟩ :=
    insert_merges_bytes (ofBytes (makeVector 5)) ((ofBytes (makeVector 5)).markImmutable)
      (makeImmutableByteCountChunk 5) (by decide) (by decide)
  exact ⟨h1, h3, p1, p2, f, e1, e2, e3⟩

end BytesChunk

/-! ## Claims about `FieldsChunkSerializer` -/

namespace FieldsChunkSerializer

theorem byteWindow_whole (s : List Nat) (l : Int) (hl : l = -1 ∨ l = (s.length : Int)) :
    byteWindow s 0 l = .ok s := by
  have h : (0 : Int) ≤ 0 ∧ (0 : Int) ≤ (s.length : Int) ∧
      (l = -1 ∨ (0 ≤ l ∧ 0 + l ≤ (s.length : Int))) := by omega
  simp only [byteWindow]
  rw [if_pos h]
  rcases hl with rfl | rfl
  · simp
  · by_cases hs : (s.length : Int) = -1
    · omega
    · simp [hs]

theorem byteWindow_inside (s : List Nat) (offset length : Int)
    (ho : 0 ≤ offset) (hl : 0 ≤ length) (h : offset + length ≤ (s.length : Int)) :
    byteWindow s offset length = .ok ((s.drop offset.toNat).take length.toNat) := by
  have hc : 0 ≤ offset ∧ offset ≤ (s.length : Int) ∧
      (length = -1 ∨ (0 ≤ length ∧ offset + length ≤ (s.length : Int))) := by omega
  have hne : length ≠ -1 := by omega
  simp only [byteWindow]
  rw [if_pos hc, if_neg hne]

theorem copyBytes_written (stream : ByteOutputStream) (s : List Nat) :
    (ByteOutputStream.mk (stream.bytes ++ s)).copyBytes stream.getPosition
      ((ByteOutputStream.mk (stream.bytes ++ s)).getPosition - stream.getPosition) = .ok s := by
  have e : (((stream.bytes ++ s).length : Int) - (stream.bytes.length : Int)).toNat = s.length := by
    simp only [List.length_append, Nat.cast_add]
    omega
  simp only [ByteOutputStream.copyBytes, ByteOutputStream.getPosition]
  rw [byteWindow_inside _ _ _ (by omega)
    (by simp only [List.length_append, Nat.cast_add]; omega) (by omega), e, Int.toNat_ofNat]
  simp

/-- C18, counterexample: `TlvHeaderBoolSerializer` writes three octets; for a `TlvHeaderBool`
without cached bytes whose chunk length is 2, two consecutive whole-chunk serializations, both
requested with offset 0 and the chunk length, do not append the same octets: the first appends the
three octets written and counts them, the second appends only the first two of the cached
octets. -/
theorem serialize_twice_differs :
    serialize tlvHeaderBoolSerializer ⟨[]⟩ ⟨0, 0⟩ { tlvHeaderBool 1 with chunkLength := 2 } 0
        (FieldsChunk.getChunkLength { tlvHeaderBool 1 with chunkLength := 2 })
      = .ok (⟨[] ++ [1, 2, 1]⟩, ⟨3, 0⟩,
          FieldsChunk.setSerializedBytes { tlvHeaderBool 1 with chunkLength := 2 } [1, 2, 1]) ∧
    serialize tlvHeaderBoolSerializer ⟨[1, 2, 1]⟩ ⟨3, 0⟩
        (FieldsChunk.setSerializedBytes { tlvHeaderBool 1 with chunkLength := 2 } [1, 2, 1]) 0
        (FieldsChunk.getChunkLength { tlvHeaderBool 1 with chunkLength := 2 })
      = .ok (⟨[1, 2, 1] ++ [1, 2]⟩, ⟨3, 0⟩,
          FieldsChunk.setSerializedBytes { tlvHeaderBool 1 with chunkLength := 2 } [1, 2, 1]) ∧
    ([1, 2, 1] : List Nat) ≠ [1, 2] :=
  ⟨rfl, rfl, by decide⟩

/-- C18, amended: for a fields chunk without cached bytes that is not modified between the calls,
two consecutive whole-chunk serializations (offset 0 and the length `-1` or the chunk length)
append the same octets `s`, those the concrete serializer writes in the first call, both times,
provided a second call that passes the chunk length finds it equal to `|s|`; the first increases
the serialized counter by `|s|` and stores `s` in the chunk, the second leaves the counter and the
chunk unchanged. -/
theorem serialize_twice_uses_cache (concrete : ConcreteSerializer) (stream : ByteOutputStream)
    (counters : SerializerCounters) (chunk : FieldsChunk) (s : List Nat) (l1 l2 : Int)
    (hcache : chunk.getSerializedBytes = none) (hs : concrete.serialize stream chunk = some s)
    (h1 : l1 = -1 ∨ l1 = chunk.getChunkLength)
    (h2 : l2 = -1 ∨ (l2 = chunk.getChunkLength ∧ chunk.getChunkLength = (s.length : Int))) :
    serialize concrete stream counters chunk 0 l1
      = .ok (⟨stream.bytes ++ s⟩,
          { counters with totalSerializedBytes := counters.totalSerializedBytes + (s.length : Int) },
          chunk.setSerializedBytes s) ∧
    serialize concrete ⟨stream.bytes ++ s⟩
        { counters with totalSerializedBytes := counters.totalSerializedBytes + (s.length : Int) }
        (chunk.setSerializedBytes s) 0 l2
      = .ok (⟨stream.bytes ++ s ++ s⟩,
          { counters with totalSerializedBytes := counters.totalSerializedBytes + (s.length : Int) },
          chunk.setSerializedBytes s) := by
  constructor
  · have hw : True ∧ (l1 = -1 ∨ l1 = chunk.getChunkLength) := ⟨trivial, h1⟩
    have hd : ((stream.bytes ++ s).length : Int) - (stream.bytes.length : Int) = (s.length : Int) := by
      simp only [List.length_append, Nat.cast_add]
      omega
    simp only [serialize, hcache]
    rw [if_pos hw]
    simp only [serializeWhole, hs, copyBytes_written]
    simp only [ByteOutputStream.getPosition, hd]
  · have hl : l2 = -1 ∨ l2 = (s.length : Int) := by omega
    simp only [serialize, FieldsChunk.getSerializedBytes, FieldsChunk.setSerializedBytes,
      ByteOutputStream.writeBytes]
    rw [byteWindow_whole s l2 hl]

/-- Witness for C18: `TlvHeaderBoolSerializer` on the `TlvHeaderBool` of length 3, serialized
twice with the length `-1`. -/
theorem serialize_twice_uses_cache_witness :
    serialize tlvHeaderBoolSerializer ⟨[]⟩ ⟨0, 0⟩ (tlvHeaderBool 1) 0 (-1)
      = .ok (⟨[1, 3, 1]⟩, ⟨3, 0⟩, (tlvHeaderBool 1).setSerializedBytes [1, 3, 1]) ∧
    serialize tlvHeaderBoolSerializer ⟨[1, 3, 1]⟩ ⟨3, 0⟩
        ((tlvHeaderBool 1).setSerializedBytes [1, 3, 1]) 0 (-1)
      = .ok (⟨[1, 3, 1, 1, 3, 1]⟩, ⟨3, 0⟩, (tlvHeaderBool 1).setSerializedBytes [1, 3, 1]) :=
  serialize_twice_uses_cache tlvHeaderBoolSerializer ⟨[]⟩ ⟨0, 0⟩ (tlvHeaderBool 1) [1, 3, 1]
    (-1) (-1) rfl rfl (Or.inl rfl) (Or.inl rfl)

/-- C19, counterexample: for a concrete deserializer that consumes three octets and returns a
chunk of length 2, `FieldsChunkSerializer::deserialize` succeeds on the input `[7, 8, 9]` and counts
three octets, but the whole-chunk serialization of the chunk it returns, requested with offset 0
and the chunk length, appends only the first two of the three octets consumed. -/
theorem deserialize_reserializes_fewer :
    ∃ chunk,
      deserialize
          ⟨fun _ _ => none, fun stream => some (⟨{}, 7, [], 2, none⟩, stream.position + 3)⟩
          ⟨[7, 8, 9], 0⟩ ⟨0, 0⟩
        = .ok (chunk, ⟨[7, 8, 9], 3⟩, ⟨0, 0 + (3 - 0)⟩) ∧
      chunk.getChunkLength = 2 ∧
      serialize
          ⟨fun _ _ => none, fun stream => some (⟨{}, 7, [], 2, none⟩, stream.position + 3)⟩
          ⟨[]⟩ ⟨0, 3⟩ chunk 0 chunk.getChunkLength
        = .ok (⟨[] ++ [7, 8]⟩, ⟨0, 3⟩, chunk) ∧
      ([7, 8] : List Nat) ≠ [7, 8, 9] :=
  ⟨⟨{}, 7, [], 2, some [7, 8, 9]⟩, rfl, rfl, rfl, by decide⟩

/-- C19, amended: when the concrete deserializer succeeds on an input stream, reading forward
inside the stream, `FieldsChunkSerializer::deserialize` returns a chunk, the chunk of the concrete
deserializer with the octets consumed as its cached bytes, whose serialization with offset 0 and
the length `-1`, or the number of octets consumed (the chunk length, when the two agree), appends
exactly the octets consumed from the stream and leaves the serialized counter unchanged; the
deserialized counter grows by the number of octets consumed. -/
theorem deserialize_caches_consumed (concrete : ConcreteSerializer) (input : ByteInputStream)
    (counters : SerializerCounters) (fieldsChunk : FieldsChunk) (position : Int)
    (hd : concrete.deserialize input = some (fieldsChunk, position))
    (h0 : 0 ≤ input.position) (h1 : input.position ≤ position)
    (h2 : position ≤ (input.bytes.length : Int)) :
    ∃ chunk, deserialize concrete input counters
        = .ok (chunk, ⟨input.bytes, position⟩,
            { counters with
              totalDeserializedBytes :=
                counters.totalDeserializedBytes + (position - input.position) }) ∧
      chunk.getChunkLength = fieldsChunk.getChunkLength ∧
      chunk.getSerializedBytes
        = some ((input.bytes.drop input.position.toNat).take (position - input.position).toNat) ∧
      ∀ (stream : ByteOutputStream) (counters2 : SerializerCounters) (l : Int),
        l = -1 ∨ l = position - input.position →
        serialize concrete stream counters2 chunk 0 l
          = .ok (⟨stream.bytes ++
                (input.bytes.drop input.position.toNat).take (position - input.position).toNat⟩,
              counters2, chunk) := by
  refine ⟨fieldsChunk.setSerializedBytes
    ((input.bytes.drop input.position.toNat).take (position - input.position).toNat), ?_, rfl, rfl,
    ?_⟩
  · simp only [deserialize, hd, ByteInputStream.copyBytes, ByteInputStream.getPosition]
    rw [byteWindow_inside _ _ _ h0 (by omega) (by omega)]
  · intro stream counters2 l hl
    have hlen : (((input.bytes.drop input.position.toNat).take
        (position - input.position).toNat).length : Int) = position - input.position := by
      simp only [List.length_take, List.length_drop]
      omega
    simp only [serialize, FieldsChunk.getSerializedBytes, FieldsChunk.setSerializedBytes,
      ByteOutputStream.writeBytes]
    rw [byteWindow_whole _ l (by rw [hlen]; exact hl)]

/-- Witness for C19: `TlvHeaderBoolSerializer` reads the first three of six octets; the chunk it
returns serializes to these three octets. -/
theorem deserialize_caches_consumed_witness :
    ∃ chunk, deserialize tlvHeaderBoolSerializer ⟨[1, 3, 1, 1, 3, 0], 0⟩ ⟨6, 0⟩
        = .ok (chunk, ⟨[1, 3, 1, 1, 3, 0], 3⟩, ⟨6, 0 + (3 - 0)⟩) ∧
      serialize tlvHeaderBoolSerializer ⟨[1, 3, 1, 1, 3, 0]⟩ ⟨6, 3⟩ chunk 0 (-1)
        = .ok (⟨[1, 3, 1, 1, 3, 0] ++ [1, 3, 1]⟩, ⟨6, 3⟩, chunk) := by
  obtain ⟨chunk, hd, _, _, hs⟩ :=
    deserialize_caches_consumed tlvHeaderBoolSerializer ⟨[1, 3, 1, 1, 3, 0], 0⟩ ⟨6, 0⟩
      (tlvHeaderBool 1) 3 (by rfl) (by decide) (by decide) (by decide)
  exact ⟨chunk, hd, hs ⟨[1, 3, 1, 1, 3, 0]⟩ ⟨6, 3⟩ (-1) (Or.inl rfl)⟩

/-- C20: for a fields chunk without cached bytes whose full serialization is `s`, and a window
`(offset, length)` that is not the whole chunk with `0 ≤ offset`, `0 ≤ length` and
`offset + length ≤ |s|`, `serialize` appends exactly `s[offset .. offset + length)` to the stream
and stores all of `s` as the cached bytes of the chunk; the same octets are appended for the same
window once the cache is present. -/
theorem serialize_window_fills_cache (concrete : ConcreteSerializer) (stream : ByteOutputStream)
    (counters : SerializerCounters) (chunk : FieldsChunk) (s : List Nat) (offset length : Int)
    (hcache : chunk.getSerializedBytes = none) (hs : concrete.serialize ⟨[]⟩ chunk = some s)
    (hw : ¬ (offset = 0 ∧ (length = -1 ∨ length = chunk.getChunkLength)))
    (ho : 0 ≤ offset) (hl : 0 ≤ length) (h : offset + length ≤ (s.length : Int)) :
    serialize concrete stream counters chunk offset length
      = .ok (⟨stream.bytes ++ (s.drop offset.toNat).take length.toNat⟩,
          { counters with totalSerializedBytes := counters.totalSerializedBytes + (s.length : Int) },
          chunk.setSerializedBytes s) ∧
    ∀ (stream2 : ByteOutputStream) (counters2 : SerializerCounters),
      serialize concrete stream2 counters2 (chunk.setSerializedBytes s) offset length
        = .ok (⟨stream2.bytes ++ (s.drop offset.toNat).take length.toNat⟩, counters2,
            chunk.setSerializedBytes s) := by
  constructor
  · simp only [serialize, hcache]
    rw [if_neg hw]
    simp only [serializeWindow, hs, ByteOutputStream.getBytes, ByteOutputStream.writeBytes,
      ByteOutputStream.copyBytes, byteWindow_inside s offset length ho hl h,
      byteWindow_whole s (-1) (Or.inl rfl)]
    simp only [ByteOutputStream.getSize]
  · intro stream2 counters2
    simp only [serialize, FieldsChunk.getSerializedBytes, FieldsChunk.setSerializedBytes,
      ByteOutputStream.writeBytes]
    rw [byteWindow_inside s offset length ho hl h]

theorem serialize_window_fills_cache_witness :
    serialize tlvHeaderBoolSerializer ⟨[9]⟩ ⟨0, 0⟩ (tlvHeaderBool 1) 1 2
      = .ok (⟨[9, 3, 1]⟩, ⟨3, 0⟩, (tlvHeaderBool 1).setSerializedBytes [1, 3, 1]) ∧
    serialize tlvHeaderBoolSerializer ⟨[9]⟩ ⟨3, 0⟩
        ((tlvHeaderBool 1).setSerializedBytes [1, 3, 1]) 1 2
      = .ok (⟨[9, 3, 1]⟩, ⟨3, 0⟩, (tlvHeaderBool 1).setSerializedBytes [1, 3, 1]) :=
  ⟨(serialize_window_fills_cache tlvHeaderBoolSerializer ⟨[9]⟩ ⟨0, 0⟩ (tlvHeaderBool 1) [1, 3, 1]
      1 2 rfl rfl (by decide) (by decide) (by decide) (by decide)).1,
    (serialize_window_fills_cache tlvHeaderBoolSerializer ⟨[9]⟩ ⟨0, 0⟩ (tlvHeaderBool 1) [1, 3, 1]
      1 2 rfl rfl (by decide) (by decide) (by decide) (by decide)).2 ⟨[9]⟩ ⟨3, 0⟩⟩

end FieldsChunkSerializer

/-! ## Claims about the serializers of the built-in chunks -/

namespace ByteInputStream

theorem readByte_at (bs : List Nat) (q : Nat) (h : q < bs.length) :
    (ByteInputStream.mk bs (q : Int)).readByte = .ok (bs[q], ⟨bs, (q : Int) + 1⟩) := by
  have h0 : (0 : Int) ≤ (q : Int) := by omega
  simp only [readByte, h0, if_true, Int.toNat_ofNat, List.drop_eq_getElem_cons h]

theorem readByteRepeatedlyLoop_all (value : Nat) (bs : List Nat) :
    ∀ (count q : Nat), q + count ≤ bs.length → (∀ b ∈ bs.drop q, b = value) →
      readByteRepeatedlyLoop value count (ByteInputStream.mk bs (q : Int))
        = .ok ⟨bs, ((q + count : Nat) : Int)⟩
  | 0, q, _, _ => by simp [readByteRepeatedlyLoop]
  | count + 1, q, h, hall => by
    have hq : q < bs.length := by omega
    have hv : bs[q] = value :=
      hall _ (by rw [List.drop_eq_getElem_cons hq]; exact List.mem_cons_self _ _)
    have hrest : ∀ b ∈ bs.drop (q + 1), b = value := fun b hb =>
      hall b (by rw [List.drop_eq_getElem_cons hq]; exact List.mem_cons_of_mem _ hb)
    have ih := readByteRepeatedlyLoop_all value bs count (q + 1) (by omega) hrest
    simp only [readByteRepeatedlyLoop, readByte_at bs q hq, hv, if_true]
    have e : ((q : Int) + 1) = ((q + 1 : Nat) : Int) := by omega
    rw [e, ih]
    congr 2
    omega

end ByteInputStream

namespace ByteCountChunkSerializer

/-- C23 (counterexample): on an input whose one remaining octet is `'A'`,
`ByteCountChunkSerializer::deserialize` returns no chunk: the assertive
`readByteRepeatedly('?', 1)` fails. -/
theorem deserialize_rejects_other_octets :
    deserialize ⟨[65], 0⟩ ⟨0, 0⟩ = .error .programmingError := by
  rfl

/-- C23 (amended): for every input stream whose `n` remaining octets are all the fill octet `'?'`,
`ByteCountChunkSerializer::deserialize` returns a length-only chunk of length `n`, consumes all `n`
octets and adds `n` to the deserialized counter, leaving the serialized counter as it is. -/
theorem deserialize_reads_fill (stream : ByteInputStream) (counters : SerializerCounters)
    (h0 : 0 ≤ stream.position) (h1 : stream.position ≤ (stream.bytes.length : Int))
    (hfill : ∀ b ∈ stream.bytes.drop stream.position.toNat, b = 63) :
    deserialize stream counters
      = .ok (.lengthChunk {} stream.getRemainingSize.toNat,
          ⟨stream.bytes, (stream.bytes.length : Int)⟩,
          { counters with
            totalDeserializedBytes :=
              counters.totalDeserializedBytes + stream.getRemainingSize }) ∧
    (Chunk.lengthChunk {} stream.getRemainingSize.toNat).getChunkLength
      = stream.getRemainingSize ∧
    (ByteInputStream.mk stream.bytes (stream.bytes.length : Int)).getRemainingSize = 0 := by
  obtain ⟨bs, position⟩ := stream
  obtain ⟨q, rfl⟩ := Int.eq_ofNat_of_zero_le h0
  simp only [Int.toNat_ofNat] at hfill
  simp only at h1
  have hloop := ByteInputStream.readByteRepeatedlyLoop_all 63 bs (bs.length - q) q (by omega) hfill
  have hr : ((bs.length : Int) - (q : Int)).toNat = bs.length - q := by omega
  have he : ((q + (bs.length - q) : Nat) : Int) = (bs.length : Int) := by omega
  refine ⟨?_, ?_, ?_⟩
  · simp only [deserialize, ByteInputStream.readByteRepeatedly, ByteInputStream.getRemainingSize,
      hr, hloop, he]
  · simp only [Chunk.getChunkLength, ByteInputStream.getRemainingSize]
    omega
  · simp [ByteInputStream.getRemainingSize]

theorem deserialize_reads_fill_witness :
    deserialize ⟨[1, 63, 63, 63], 1⟩ ⟨0, 5⟩
      = .ok (.lengthChunk {} 3, ⟨[1, 63, 63, 63], 4⟩, ⟨0, 5 + 3⟩) :=
  (deserialize_reads_fill ⟨[1, 63, 63, 63], 1⟩ ⟨0, 5⟩ (by decide) (by decide)
    (by decide)).1

/-- C24: for a length-only chunk of length `n` and a window with `offset ≤ n` and either
`length = -1` or `0 ≤ length ≤ n - offset`, `ByteCountChunkSerializer::serialize` appends only the
fill octet `'?'` (0x3F), `length` times (`n - offset` times for `length = -1`), and adds that
number to the serialized counter, leaving the deserialized counter as it is. -/
theorem serialize_writes_fill (stream : ByteOutputStream) (counters : SerializerCounters)
    (n : Nat) (offset length : Int) (hn : offset ≤ (n : Int))
    (hl : length = -1 ∨ (0 ≤ length ∧ length ≤ (n : Int) - offset)) :
    ∃ k : Nat, (k : Int) = (if length = -1 then (n : Int) - offset else length) ∧
      serialize stream counters n offset length
        = (⟨stream.bytes ++ List.replicate k 63⟩,
            ⟨counters.totalSerializedBytes + (k : Int), counters.totalDeserializedBytes⟩) := by
  refine ⟨(if length = -1 then (n : Int) - offset else length).toNat, ?_, ?_⟩
  · rcases hl with rfl | ⟨h1, h2⟩
    · simp only [if_true]
      omega
    · have hne : length ≠ -1 := by omega
      simp only [hne, if_false]
      omega
  · have hk : (((if length = -1 then (n : Int) - offset else length).toNat : Nat) : Int)
        = (if length = -1 then (n : Int) - offset else length) := by
      rcases hl with rfl | ⟨h1, h2⟩
      · simp only [if_true]
        omega
      · have hne : length ≠ -1 := by omega
        simp only [hne, if_false]
        omega
    simp only [serialize, ByteOutputStream.writeByteRepeatedly, hk]
    rfl

theorem serialize_writes_fill_witness :
    ∃ k : Nat, (k : Int) = (if (-1 : Int) = -1 then ((10 : Nat) : Int) - 4 else -1) ∧
      serialize ⟨[7]⟩ ⟨2, 0⟩ 10 4 (-1)
        = (⟨[7] ++ List.replicate k 63⟩, ⟨2 + (k : Int), 0⟩) :=
  serialize_writes_fill ⟨[7]⟩ ⟨2, 0⟩ 10 4 (-1) (by decide) (Or.inl rfl)

end ByteCountChunkSerializer

namespace BytesChunkSerializer

theorem readLoop_reads (bs : List Nat) :
    ∀ (count q : Nat) (chunkBytes : List Nat), q + count ≤ bs.length →
      readLoop count (ByteInputStream.mk bs (q : Int)) chunkBytes
        = .ok (chunkBytes ++ (bs.drop q).take count, ⟨bs, ((q + count : Nat) : Int)⟩)
  | 0, q, chunkBytes, _ => by simp [readLoop]
  | count + 1, q, chunkBytes, h => by
    have hq : q < bs.length := by omega
    have ih := readLoop_reads bs count (q + 1) (chunkBytes ++ [bs[q]]) (by omega)
    have e : ((q : Int) + 1) = ((q + 1 : Nat) : Int) := by omega
    simp only [readLoop, ByteInputStream.readByte_at bs q hq]
    rw [e, ih, List.drop_eq_getElem_cons hq]
    simp only [List.take_succ_cons, List.append_assoc, List.singleton_append]
    congr 3
    omega

/-- C25: for every bytes chunk with octets `b`, the whole-chunk `BytesChunkSerializer::serialize`
appends `b` to the stream, and `BytesChunkSerializer::deserialize` applied to the octets written
returns a bytes chunk whose octets are `b` and consumes the entire stream; both counters grow by
`|b|`. -/
theorem serialize_deserialize_bytes (chunk : BytesChunk) (stream : ByteOutputStream)
    (counters : SerializerCounters) :
    serialize stream counters chunk 0 (-1)
      = .ok (⟨stream.bytes ++ chunk.bytes⟩,
          { counters with
            totalSerializedBytes := counters.totalSerializedBytes + (chunk.bytes.length : Int) }) ∧
    ∃ byteArrayChunk, deserialize ⟨chunk.bytes, 0⟩ counters
        = .ok (byteArrayChunk, ⟨chunk.bytes, (chunk.bytes.length : Int)⟩,
            { counters with
              totalDeserializedBytes :=
                counters.totalDeserializedBytes + (chunk.bytes.length : Int) }) ∧
      byteArrayChunk.bytes = chunk.bytes ∧
      (ByteInputStream.mk chunk.bytes (chunk.bytes.length : Int)).getRemainingSize = 0 := by
  constructor
  · simp only [serialize, BytesChunk.getChunkLength, BytesChunk.getBytes, if_true, sub_zero,
      ByteOutputStream.writeBytes,
      FieldsChunkSerializer.byteWindow_whole chunk.bytes (chunk.bytes.length : Int) (Or.inr rfl)]
  · have hloop := readLoop_reads chunk.bytes chunk.bytes.length 0 [] (by omega)
    refine ⟨⟨{}, chunk.bytes⟩, ?_, rfl, by simp [ByteInputStream.getRemainingSize]⟩
    simp only [Nat.cast_zero, List.drop_zero, List.take_length, List.nil_append, zero_add]
      at hloop
    simp only [deserialize, ByteInputStream.getRemainingSize, sub_zero, Int.toNat_ofNat, hloop,
      BytesChunk.setBytes, BytesChunk.ofBytes, BytesChunk.isMutable]
    rfl

end BytesChunkSerializer

/-! ## Claims about the protocol header serializers -/

namespace UdpHeaderSerializer

/-- C26 (the code departs from the claim): given a header whose CRC mode is neither `CRC_OFF` nor
`CRC_COMPUTED`, `UdpHeaderSerializer::serialize` fails, but only after it has written the source
port, the destination port and the total length: the stream is six octets longer than before the
call. -/
theorem serialize_writes_before_failing (stream : ByteOutputStream) (udpHeader : UdpHeader)
    (value : Nat) (h : udpHeader.crcMode = .other value) :
    ∃ after, serialize stream udpHeader = .failed .unsupportedOperation after ∧
      after.bytes = stream.bytes
        ++ [((udpHeader.sourcePort % 65536) / 256).toNat, (udpHeader.sourcePort % 256).toNat,
          ((udpHeader.destinationPort % 65536) / 256).toNat,
          (udpHeader.destinationPort % 256).toNat,
          ((udpHeader.totalLengthField % 65536) / 256).toNat,
          (udpHeader.totalLengthField % 256).toNat] ∧
      after.bytes.length = stream.bytes.length + 6 ∧ after ≠ stream := by
  refine ⟨((stream.writeUint16 udpHeader.sourcePort).writeUint16
      udpHeader.destinationPort).writeUint16 udpHeader.totalLengthField,
    by simp [serialize, h], ?_, ?_, ?_⟩
  · simp [ByteOutputStream.writeUint16]
  · simp [ByteOutputStream.writeUint16]
  · intro he
    have hl := congrArg (fun s => s.bytes.length) he
    simp [ByteOutputStream.writeUint16] at hl

theorem serialize_writes_before_failing_witness :
    ∃ after, serialize ⟨[]⟩ ⟨1000, 2000, 8, 0, .other 0⟩ = .failed .unsupportedOperation after ∧
      after.bytes = [3, 232, 7, 208, 0, 8] := by
  obtain ⟨after, h1, h2, _, _⟩ :=
    serialize_writes_before_failing ⟨[]⟩ ⟨1000, 2000, 8, 0, .other 0⟩ 0 rfl
  exact ⟨after, h1, h2⟩

theorem eight_octets (B : List Nat) (h : B.length = 8) :
    ∃ b0 b1 b2 b3 b4 b5 b6 b7, B = [b0, b1, b2, b3, b4, b5, b6, b7] := by
  match B, h with
  | [b0, b1, b2, b3, b4, b5, b6, b7], _ => exact ⟨b0, b1, b2, b3, b4, b5, b6, b7, rfl⟩

/-- C28: for every input `B` of eight octets, `UdpHeaderSerializer::deserialize` succeeds and
consumes exactly eight octets, and `UdpHeaderSerializer::serialize` applied to the header it
returns succeeds and appends exactly `B`. -/
theorem deserialize_serialize_octets (B : List Nat) (stream : ByteOutputStream)
    (hlen : B.length = 8) (hoct : ∀ b ∈ B, b < 256) :
    ∃ udpHeader, deserialize ⟨B, 0⟩ = .ok (udpHeader, ⟨B, 8⟩) ∧
      serialize stream udpHeader = .ok ⟨stream.bytes ++ B⟩ := by
  obtain ⟨b0, b1, b2, b3, b4, b5, b6, b7, rfl⟩ := eight_octets B hlen
  have h0 : b0 < 256 := hoct b0 (by simp)
  have h1 : b1 < 256 := hoct b1 (by simp)
  have h2 : b2 < 256 := hoct b2 (by simp)
  have h3 : b3 < 256 := hoct b3 (by simp)
  have h4 : b4 < 256 := hoct b4 (by simp)
  have h5 : b5 < 256 := hoct b5 (by simp)
  have h6 : b6 < 256 := hoct b6 (by simp)
  have h7 : b7 < 256 := hoct b7 (by simp)
  refine ⟨⟨((b0 * 256 + b1 : Nat) : Int), ((b2 * 256 + b3 : Nat) : Int),
    ((b4 * 256 + b5 : Nat) : Int), ((b6 * 256 + b7 : Nat) : Int),
    if b6 * 256 + b7 = 0 then .CRC_OFF else .CRC_COMPUTED⟩, ?_, ?_⟩
  · simp [deserialize, ByteInputStream.readUint16, ByteInputStream.readByte]
  · have hmode : ¬ ((if b6 * 256 + b7 = 0 then CrcMode.CRC_OFF
        else CrcMode.CRC_COMPUTED) ≠ .CRC_OFF ∧
        (if b6 * 256 + b7 = 0 then CrcMode.CRC_OFF
        else CrcMode.CRC_COMPUTED) ≠ .CRC_COMPUTED) := by
      split <;> simp
    simp only [serialize, hmode, if_false, ByteOutputStream.writeUint16, List.append_assoc,
      List.cons_append, List.nil_append, SerializeOutcome.ok.injEq, ByteOutputStream.mk.injEq,
      List.append_cancel_left_eq, List.cons.injEq, and_true]
    omega

theorem deserialize_serialize_octets_witness :
    ∃ udpHeader, deserialize ⟨[3, 232, 7, 208, 0, 8, 18, 52], 0⟩
        = .ok (udpHeader, ⟨[3, 232, 7, 208, 0, 8, 18, 52], 8⟩) ∧
      serialize ⟨[9]⟩ udpHeader = .ok ⟨[9] ++ [3, 232, 7, 208, 0, 8, 18, 52]⟩ :=
  deserialize_serialize_octets [3, 232, 7, 208, 0, 8, 18, 52] ⟨[9]⟩ rfl (by decide)

end UdpHeaderSerializer

namespace IPv4HeaderSerializer

theorem writeOctets_bytes : ∀ (octets : List Nat) (stream : ByteOutputStream),
    (writeOctets stream octets).bytes
      = stream.bytes ++ octets.map (fun octet => ((octet : Int) % 256).toNat)
  | [], stream => by simp [writeOctets]
  | octet :: octets, stream => by
    simp [writeOctets, writeOctets_bytes octets, ByteOutputStream.writeByte]

theorem iphdr_length (ipv4Header : IPv4Header) : (iphdr ipv4Header).length = 20 := by
  simp [iphdr, htons, htonl]

/-- C27: `IPv4HeaderSerializer::serialize` fails whenever the CRC mode of the header is not
`CRC_COMPUTED` and leaves the output stream as it was; for every header with CRC mode
`CRC_COMPUTED`, header length 20 and a fragment offset that is a multiple of 8 it succeeds and
appends exactly 20 octets. -/
theorem serialize_needs_computed_crc (stream : ByteOutputStream) (ipv4Header : IPv4Header) :
    (ipv4Header.crcMode ≠ .CRC_COMPUTED →
      ∃ e, serialize stream ipv4Header = .failed e stream) ∧
    (ipv4Header.crcMode = .CRC_COMPUTED → ipv4Header.headerLength = 20 →
      ipv4Header.fragmentOffset % 8 = 0 →
      ∃ octets, octets.length = 20 ∧
        serialize stream ipv4Header = .ok ⟨stream.bytes ++ octets⟩) := by
  constructor
  · intro h
    unfold serialize
    split
    · exact ⟨_, rfl⟩
    · split
      · exact ⟨_, rfl⟩
      · exact ⟨_, rfl⟩
  · intro hc hl hf
    have h1 : ¬ (ipv4Header.headerLength % 4294967296 % 4 ≠ 0) := by omega
    have h2 : ¬ (ipv4Header.fragmentOffset % 8 ≠ 0) := by omega
    have h3 : ¬ (ipv4Header.crcMode ≠ .CRC_COMPUTED) := by simp [hc]
    have h4 : ¬ ((IP_HEADER_BYTES : Int) < ipv4Header.headerLength % 4294967296) := by
      simp only [IP_HEADER_BYTES]
      omega
    refine ⟨((iphdr ipv4Header).take IP_HEADER_BYTES).map
      (fun octet => ((octet : Int) % 256).toNat), ?_, ?_⟩
    · simp [iphdr_length, IP_HEADER_BYTES]
    · unfold serialize
      rw [if_neg h1, if_neg h2, if_neg h3, if_neg h4,
        ← writeOctets_bytes ((iphdr ipv4Header).take IP_HEADER_BYTES) stream]

theorem serialize_needs_computed_crc_witness :
    (∃ e, serialize ⟨[9]⟩ ⟨20, 4, 0, 1, 0, false, false, 64, 17, 1, 2, 28, .CRC_OFF, 0⟩
        = .failed e ⟨[9]⟩) ∧
    (∃ octets, octets.length = 20 ∧
      serialize ⟨[9]⟩ ⟨20, 4, 0, 1, 0, false, false, 64, 17, 1, 2, 28, .CRC_COMPUTED, 0⟩
        = .ok ⟨[9] ++ octets⟩) :=
  ⟨(serialize_needs_computed_crc ⟨[9]⟩
      ⟨20, 4, 0, 1, 0, false, false, 64, 17, 1, 2, 28, .CRC_OFF, 0⟩).1 (by decide),
    (serialize_needs_computed_crc ⟨[9]⟩
      ⟨20, 4, 0, 1, 0, false, false, 64, 17, 1, 2, 28, .CRC_COMPUTED, 0⟩).2 rfl rfl
      (by decide)⟩

end IPv4HeaderSerializer

/-! ## Claims about the serializers of slices and sequences and about the counters -/

namespace SequenceChunkSerializer

/-- C21 (the code departs from the claim): for the sequence of the bytes chunks `[0 .. 4]` and
`[5 .. 9]`, `SequenceChunkSerializer::serialize` appends eight octets for the window `(0, 7)`, the
octets `1 .. 4` for the window `(1, 2)` and only the octets `2 .. 4` for the window `(2, -1)`; the
whole windows `(0, -1)` and `(0, 10)` append the concatenation. -/
theorem serialize_window_departs (registry : SerializerRegistry) :
    serialize registry ⟨[]⟩ ⟨0, 0⟩
        [makeImmutableBytesChunk [0, 1, 2, 3, 4], makeImmutableBytesChunk [5, 6, 7, 8, 9]] 0 7
      = .ok (⟨[0, 1, 2, 3, 4, 5, 6, 7]⟩, ⟨8, 0⟩) ∧
    serialize registry ⟨[]⟩ ⟨0, 0⟩
        [makeImmutableBytesChunk [0, 1, 2, 3, 4], makeImmutableBytesChunk [5, 6, 7, 8, 9]] 1 2
      = .ok (⟨[1, 2, 3, 4]⟩, ⟨4, 0⟩) ∧
    serialize registry ⟨[]⟩ ⟨0, 0⟩
        [makeImmutableBytesChunk [0, 1, 2, 3, 4], makeImmutableBytesChunk [5, 6, 7, 8, 9]] 2 (-1)
      = .ok (⟨[2, 3, 4]⟩, ⟨3, 0⟩) ∧
    serialize registry ⟨[]⟩ ⟨0, 0⟩
        [makeImmutableBytesChunk [0, 1, 2, 3, 4], makeImmutableBytesChunk [5, 6, 7, 8, 9]] 0 (-1)
      = .ok (⟨[0, 1, 2, 3, 4, 5, 6, 7, 8, 9]⟩, ⟨10, 0⟩) ∧
    serialize registry ⟨[]⟩ ⟨0, 0⟩
        [makeImmutableBytesChunk [0, 1, 2, 3, 4], makeImmutableBytesChunk [5, 6, 7, 8, 9]] 0 10
      = .ok (⟨[0, 1, 2, 3, 4, 5, 6, 7, 8, 9]⟩, ⟨10, 0⟩) :=
  ⟨rfl, rfl, rfl, rfl, rfl⟩

end SequenceChunkSerializer

namespace BytesChunkSerializer

theorem serialize_window (stream : ByteOutputStream) (counters : SerializerCounters)
    (chunk : BytesChunk) (offset length : Int) (ho : 0 ≤ offset) (hl : 0 ≤ length)
    (h : offset + length ≤ (chunk.bytes.length : Int)) :
    serialize stream counters chunk offset length
      = .ok (⟨stream.bytes ++ (chunk.bytes.drop offset.toNat).take length.toNat⟩,
          { counters with totalSerializedBytes := counters.totalSerializedBytes + length }) := by
  have hne : length ≠ -1 := by omega
  simp only [serialize, hne, if_false, BytesChunk.getBytes, ByteOutputStream.writeBytes,
    FieldsChunkSerializer.byteWindow_inside chunk.bytes offset length ho hl h]

end BytesChunkSerializer

namespace Chunk

theorem serializesWindowsOf_bytes (registry : SerializerRegistry) (f : ChunkFlags)
    (bs : List Nat) : (Chunk.bytesChunk f bs).serializesWindowsOf registry bs := by
  intro stream counters offset length ho hl h
  exact ⟨_, by
    simp only [serialize]
    exact BytesChunkSerializer.serialize_window stream counters ⟨f, bs⟩ offset length ho hl h⟩

theorem serializesWindowsOf_length (registry : SerializerRegistry) (f : ChunkFlags) (n : Nat) :
    (Chunk.lengthChunk f n).serializesWindowsOf registry (List.replicate n 63) := by
  intro stream counters offset length ho hl h
  have hne : length ≠ -1 := by omega
  simp only [List.length_replicate] at h
  refine ⟨{ counters with totalSerializedBytes := counters.totalSerializedBytes + length }, ?_⟩
  simp only [serialize, ByteCountChunkSerializer.serialize, ByteOutputStream.writeByteRepeatedly,
    hne, if_false, List.drop_replicate, List.take_replicate]
  have hm : min length.toNat (n - offset.toNat) = length.toNat := by omega
  rw [hm]
  rfl

theorem serializesWindowsOf_cached (registry : SerializerRegistry) (f : ChunkFlags) (t : Nat)
    (fs : List Int) (n : Nat) (s : List Nat) :
    (Chunk.fieldsChunk f t fs n (some s)).serializesWindowsOf registry s := by
  intro stream counters offset length ho hl h
  refine ⟨counters, ?_⟩
  simp only [serialize, FieldsChunkSerializer.serialize, FieldsChunk.getSerializedBytes,
    ByteOutputStream.writeBytes, FieldsChunkSerializer.byteWindow_inside s offset length ho hl h]

/-- The serializer of a slice composes the offsets: when the inner chunk honours the window
contract for its serialization `s`, the slice `(inner, o, l)` appends the window
`[o + offset, o + offset + length)` of `s`. -/
theorem slice_appends_window (registry : SerializerRegistry) (inner : Chunk) (o l : Nat)
    (s : List Nat) (hinner : inner.serializesWindowsOf registry s) (hslice : o + l ≤ s.length)
    (stream : ByteOutputStream) (counters : SerializerCounters) (offset length : Int)
    (ho : 0 ≤ offset) (hl : 0 ≤ length) (h : offset + length ≤ (l : Int)) :
    ∃ counted, inner.serialize registry stream counters ((o : Int) + offset) length
      = .ok (⟨stream.bytes ++ (s.drop (o + offset.toNat)).take length.toNat⟩, counted) := by
  obtain ⟨counted, hc⟩ := hinner stream counters ((o : Int) + offset) length (by omega) hl
    (by omega)
  have e : ((o : Int) + offset).toNat = o + offset.toNat := by omega
  rw [e] at hc
  exact ⟨counted, hc⟩

theorem serializesWindowsOf_slice (registry : SerializerRegistry) (f : ChunkFlags)
    (inner : Chunk) (o l : Nat) (s : List Nat) (hinner : inner.serializesWindowsOf registry s)
    (hslice : o + l ≤ s.length) :
    (Chunk.sliceChunk f inner o l).serializesWindowsOf registry ((s.drop o).take l) := by
  intro stream counters offset length ho hl h
  have hlen : ((s.drop o).take l).length = l := by
    simp only [List.length_take, List.length_drop]
    omega
  rw [hlen] at h
  have hne : length ≠ -1 := by omega
  obtain ⟨counted, hc⟩ := slice_appends_window registry inner o l s hinner hslice stream counters
    offset length ho hl h
  refine ⟨counted, ?_⟩
  have hm : min length.toNat (l - offset.toNat) = length.toNat := by omega
  simp only [serialize, hne, if_false, hc]
  congr 3
  rw [List.drop_take, List.take_take, List.drop_drop, hm]

end Chunk

namespace SliceChunkSerializer

/-- C22 (the code departs from the claim): the sequence of the bytes chunks `[0 .. 4]` and
`[5 .. 9]` serializes to the octets `0 .. 9`, yet for the slice `(sequence, 0, 10)` and the window
`(0, 7)` `SliceChunkSerializer::serialize` appends the eight octets `0 .. 7` instead of `0 .. 6`,
for the slice `(sequence, 1, 8)` and the window `(0, 6)` the eight octets `1 .. 8` instead of
`1 .. 6`, and for the slice `(sequence, 2, 6)` and the window `(1, -1)` only the octets `3, 4`
instead of `3 .. 7`: the composed window is handed to `SequenceChunkSerializer::serialize`, which
does not keep to it. -/
theorem serialize_slice_of_sequence_departs (registry : SerializerRegistry) :
    Chunk.serialize registry (.sequenceChunk {}
        [makeImmutableBytesChunk [0, 1, 2, 3, 4], makeImmutableBytesChunk [5, 6, 7, 8, 9]])
        ⟨[]⟩ ⟨0, 0⟩ 0 (-1)
      = .ok (⟨[0, 1, 2, 3, 4, 5, 6, 7, 8, 9]⟩, ⟨10, 0⟩) ∧
    serialize registry ⟨[]⟩ ⟨0, 0⟩ (.sequenceChunk {}
        [makeImmutableBytesChunk [0, 1, 2, 3, 4], makeImmutableBytesChunk [5, 6, 7, 8, 9]])
        0 10 0 7
      = .ok (⟨[0, 1, 2, 3, 4, 5, 6, 7]⟩, ⟨8, 0⟩) ∧
    serialize registry ⟨[]⟩ ⟨0, 0⟩ (.sequenceChunk {}
        [makeImmutableBytesChunk [0, 1, 2, 3, 4], makeImmutableBytesChunk [5, 6, 7, 8, 9]])
        1 8 0 6
      = .ok (⟨[1, 2, 3, 4, 5, 6, 7, 8]⟩, ⟨8, 0⟩) ∧
    serialize registry ⟨[]⟩ ⟨0, 0⟩ (.sequenceChunk {}
        [makeImmutableBytesChunk [0, 1, 2, 3, 4], makeImmutableBytesChunk [5, 6, 7, 8, 9]])
        2 6 1 (-1)
      = .ok (⟨[3, 4]⟩, ⟨2, 0⟩) :=
  ⟨rfl, rfl, rfl, rfl⟩

/-- For a slice `(inner, o, l)` of a chunk with serialization `s` whose serializer honours the
window contract (a bytes chunk, a length-only chunk, a fields chunk with cached bytes, a slice of
one of them), and every window with `0 ≤ off` and `off + len ≤ l`,
`SliceChunkSerializer::serialize` appends exactly the octets `[o + off, o + off + len)` of `s`; with
`len = -1` (and `off ≤ l`) it appends the octets `[o + off, o + l)`. -/
theorem serialize_composes_offsets (registry : SerializerRegistry) (inner : Chunk) (o l : Nat)
    (s : List Nat) (stream : ByteOutputStream) (counters : SerializerCounters) (off len : Int)
    (hinner : inner.serializesWindowsOf registry s) (hslice : o + l ≤ s.length)
    (h0 : 0 ≤ off) :
    (0 ≤ len → off + len ≤ (l : Int) →
      ∃ counted, serialize registry stream counters inner o l off len
        = .ok (⟨stream.bytes ++ (s.drop (o + off.toNat)).take len.toNat⟩, counted)) ∧
    (off ≤ (l : Int) →
      ∃ counted, serialize registry stream counters inner o l off (-1)
        = .ok (⟨stream.bytes ++ (s.drop (o + off.toNat)).take (l - off.toNat)⟩, counted)) := by
  constructor
  · intro hl h
    have hne : len ≠ -1 := by omega
    simp only [serialize, hne, if_false]
    exact Chunk.slice_appends_window registry inner o l s hinner hslice stream counters off len
      h0 hl h
  · intro hoff
    have e : ((l : Int) - off).toNat = l - off.toNat := by omega
    simp only [serialize, if_true]
    rw [← e]
    exact Chunk.slice_appends_window registry inner o l s hinner hslice stream counters off
      ((l : Int) - off) h0 (by omega) (by omega)

/-- The slice `(bytes 0 .. 9, 2, 6)` with the windows `(1, 3)` and `(1, -1)`. -/
theorem serialize_composes_offsets_witness :
    (∃ counted, serialize tlvRegistry ⟨[]⟩ ⟨0, 0⟩ (makeImmutableBytesChunk (makeVector 10)) 2 6
        1 3 = .ok (⟨[] ++ [3, 4, 5]⟩, counted)) ∧
    (∃ counted, serialize tlvRegistry ⟨[]⟩ ⟨0, 0⟩ (makeImmutableBytesChunk (makeVector 10)) 2 6
        1 (-1) = .ok (⟨[] ++ [3, 4, 5, 6, 7]⟩, counted)) :=
  ⟨(serialize_composes_offsets tlvRegistry (makeImmutableBytesChunk (makeVector 10)) 2 6
      (makeVector 10) ⟨[]⟩ ⟨0, 0⟩ 1 3 (Chunk.serializesWindowsOf_bytes _ _ _) (by decide)
      (by decide)).1 (by decide) (by decide),
    (serialize_composes_offsets tlvRegistry (makeImmutableBytesChunk (makeVector 10)) 2 6
      (makeVector 10) ⟨[]⟩ ⟨0, 0⟩ 1 (-1) (Chunk.serializesWindowsOf_bytes _ _ _) (by decide)
      (by decide)).2 (by decide)⟩

end SliceChunkSerializer

namespace FieldsChunkSerializer

theorem byteWindow_length (src : List Nat) (offset length : Int) (window : List Nat)
    (h : byteWindow src offset length = .ok window) : window.length ≤ src.length := by
  unfold byteWindow at h
  split at h
  · cases h
    split
    · simp only [List.length_drop]
      omega
    · simp only [List.length_take, List.length_drop]
      omega
  · cases h

theorem fields_serialize_counts (concrete : ConcreteSerializer) (stream : ByteOutputStream)
    (counters : SerializerCounters) (chunk : FieldsChunk) (offset length : Int)
    (result : ByteOutputStream) (counted : SerializerCounters) (after : FieldsChunk)
    (h : serialize concrete stream counters chunk offset length = .ok (result, counted, after)) :
    counters.totalSerializedBytes ≤ counted.totalSerializedBytes ∧
      counted.totalDeserializedBytes = counters.totalDeserializedBytes := by
  unfold serialize at h
  split at h
  · split at h
    · cases h
    · cases h
      exact ⟨le_refl _, rfl⟩
  · split at h
    · unfold serializeWhole at h
      split at h
      · cases h
      · split at h
        · cases h
        · cases h
          refine ⟨?_, rfl⟩
          simp only [ByteOutputStream.getPosition, List.length_append, Nat.cast_add]
          omega
    · unfold serializeWindow at h
      split at h
      · cases h
      · split at h
        · cases h
        · split at h
          · cases h
          · cases h
            refine ⟨?_, rfl⟩
            simp only [ByteOutputStream.getSize]
            omega

theorem fields_deserialize_counts (concrete : ConcreteSerializer) (stream : ByteInputStream)
    (counters : SerializerCounters) (chunk : FieldsChunk) (next : ByteInputStream)
    (counted : SerializerCounters)
    (hforward : ∀ read position, concrete.deserialize stream = some (read, position) →
      stream.position ≤ position)
    (h : deserialize concrete stream counters = .ok (chunk, next, counted)) :
    counters.totalDeserializedBytes ≤ counted.totalDeserializedBytes ∧
      counted.totalSerializedBytes = counters.totalSerializedBytes := by
  unfold deserialize at h
  split at h
  · cases h
  · rename_i read position hd
    have hf := hforward read position hd
    split at h
    · cases h
    · cases h
      refine ⟨?_, rfl⟩
      simp only [ByteInputStream.getPosition]
      omega

end FieldsChunkSerializer

namespace BytesChunkSerializer

theorem bytes_serialize_counts (stream : ByteOutputStream) (counters : SerializerCounters)
    (chunk : BytesChunk) (offset length : Int) (result : ByteOutputStream)
    (counted : SerializerCounters) (ho : offset ≤ (chunk.bytes.length : Int))
    (hl : length = -1 ∨ 0 ≤ length)
    (h : serialize stream counters chunk offset length = .ok (result, counted)) :
    counters.totalSerializedBytes ≤ counted.totalSerializedBytes ∧
      counted.totalDeserializedBytes = counters.totalDeserializedBytes := by
  unfold serialize at h
  split at h
  · cases h
  · cases h
    refine ⟨?_, rfl⟩
    simp only [BytesChunk.getChunkLength]
    rcases hl with rfl | hl
    · simp only [if_true]
      omega
    · split <;> omega

theorem bytes_deserialize_counts (stream : ByteInputStream) (counters : SerializerCounters)
    (chunk : BytesChunk) (next : ByteInputStream) (counted : SerializerCounters)
    (hpos : stream.position ≤ (stream.bytes.length : Int))
    (h : deserialize stream counters = .ok (chunk, next, counted)) :
    counters.totalDeserializedBytes ≤ counted.totalDeserializedBytes ∧
      counted.totalSerializedBytes = counters.totalSerializedBytes := by
  unfold deserialize at h
  split at h
  · cases h
  · split at h
    · cases h
    · cases h
      refine ⟨?_, rfl⟩
      simp only [ByteInputStream.getRemainingSize]
      omega

end BytesChunkSerializer

namespace ByteCountChunkSerializer

theorem byteCount_deserialize_counts (stream : ByteInputStream) (counters : SerializerCounters)
    (chunk : Chunk) (next : ByteInputStream) (counted : SerializerCounters)
    (hpos : stream.position ≤ (stream.bytes.length : Int))
    (h : deserialize stream counters = .ok (chunk, next, counted)) :
    counters.totalDeserializedBytes ≤ counted.totalDeserializedBytes ∧
      counted.totalSerializedBytes = counters.totalSerializedBytes := by
  unfold deserialize at h
  split at h
  · cases h
  · cases h
    refine ⟨?_, rfl⟩
    simp only [ByteInputStream.getRemainingSize]
    omega

end ByteCountChunkSerializer

namespace Chunk

mutual
theorem serialize_counts (registry : SerializerRegistry) :
    ∀ (c : Chunk) (stream : ByteOutputStream) (counters : SerializerCounters)
      (offset length : Int) (result : ByteOutputStream) (counted : SerializerCounters),
      c.wellFormed = true → 0 ≤ offset → offset ≤ (c.getChunkLength : Int) →
      (length = -1 ∨ (0 ≤ length ∧ offset + length ≤ (c.getChunkLength : Int))) →
      c.serialize registry stream counters offset length = .ok (result, counted) →
      counters.totalSerializedBytes ≤ counted.totalSerializedBytes ∧
        counted.totalDeserializedBytes = counters.totalDeserializedBytes
  | .emptyChunk _, _, _, _, _, _, _, _, _, _, _, h => by
      simp [serialize] at h
  | .lengthChunk _ n, stream, counters, offset, length, result, counted, _, _, ho, hl, h => by
      simp only [serialize, ByteCountChunkSerializer.serialize, Except.ok.injEq,
        Prod.mk.injEq] at h
      simp only [getChunkLength] at ho hl
      obtain ⟨_, rfl⟩ := h
      refine ⟨?_, rfl⟩
      simp only
      rcases hl with rfl | ⟨h1, _⟩
      · simp only [if_true]
        omega
      · split <;> omega
  | .bytesChunk f bs, stream, counters, offset, length, result, counted, _, _, ho, hl, h => by
      simp only [serialize] at h
      simp only [getChunkLength] at ho hl
      exact BytesChunkSerializer.bytes_serialize_counts stream counters ⟨f, bs⟩ offset length
        result counted ho (by omega) h
  | .fieldsChunk f t fs n cache, stream, counters, offset, length, result, counted, _, _, _, _,
      h => by
      simp only [serialize] at h
      split at h
      · cases h
      · rename_i r k after hs
        cases h
        exact FieldsChunkSerializer.fields_serialize_counts (registry t) stream counters
          ⟨f, t, fs, n, cache⟩ offset length _ _ after hs
  | .sliceChunk _ c o l, stream, counters, offset, length, result, counted, hw, h0, ho, hl,
      h => by
      simp only [wellFormed, Bool.and_eq_true, decide_eq_true_eq] at hw
      simp only [getChunkLength] at ho hl
      simp only [serialize] at h
      refine serialize_counts registry c stream counters _ _ result counted hw.1 (by omega)
        (by omega) ?_ h
      rcases hl with rfl | ⟨h1, h2⟩
      · simp only [if_true]
        by_cases he : (l : Int) - offset = -1
        · exact Or.inl he
        · exact Or.inr ⟨by omega, by omega⟩
      · have hne : length ≠ -1 := by omega
        simp only [hne, if_false]
        exact Or.inr ⟨h1, by omega⟩
  | .sequenceChunk _ cs, stream, counters, offset, length, result, counted, hw, _, _, _, h => by
      simp only [wellFormed] at hw
      simp only [serialize] at h
      exact serializeChunks_counts registry cs stream counters _ _ _ result counted hw h
theorem serializeChunks_counts (registry : SerializerRegistry) :
    ∀ (cs : List Chunk) (stream : ByteOutputStream) (counters : SerializerCounters)
      (currentOffset serializeBegin serializeEnd : Int) (result : ByteOutputStream)
      (counted : SerializerCounters),
      wellFormedList cs = true →
      serializeChunks registry cs stream counters currentOffset serializeBegin serializeEnd
        = .ok (result, counted) →
      counters.totalSerializedBytes ≤ counted.totalSerializedBytes ∧
        counted.totalDeserializedBytes = counters.totalDeserializedBytes
  | [], stream, counters, _, _, _, result, counted, _, h => by
      simp only [serializeChunks, Except.ok.injEq, Prod.mk.injEq] at h
      obtain ⟨_, rfl⟩ := h
      exact ⟨le_refl _, rfl⟩
  | chunk :: chunks, stream, counters, cur, b, e, result, counted, hw, h => by
      simp only [wellFormedList, Bool.and_eq_true] at hw
      simp only [serializeChunks] at h
      split at h
      · rename_i hc
        split at h
        · cases h
        · rename_i r k hs
          have h1 := serialize_counts registry chunk stream counters 0 (-1) r k hw.1
            (le_refl _) (by omega) (Or.inl rfl) hs
          have h2 := serializeChunks_counts registry chunks r k _ _ _ result counted hw.2 h
          exact ⟨le_trans h1.1 h2.1, h2.2.trans h1.2⟩
      · split at h
        · rename_i hc
          split at h
          · cases h
          · rename_i r k hs
            have h1 := serialize_counts registry chunk stream counters _ _ r k hw.1
              (by omega) (by omega) (Or.inr ⟨by omega, by omega⟩) hs
            have h2 := serializeChunks_counts registry chunks r k _ _ _ result counted hw.2 h
            exact ⟨le_trans h1.1 h2.1, h2.2.trans h1.2⟩
        · split at h
          · rename_i hc
            split at h
            · cases h
            · rename_i r k hs
              have h1 := serialize_counts registry chunk stream counters _ _ r k hw.1
                (le_refl _) (by omega) (Or.inr ⟨by omega, by omega⟩) hs
              have h2 := serializeChunks_counts registry chunks r k _ _ _ result counted hw.2 h
              exact ⟨le_trans h1.1 h2.1, h2.2.trans h1.2⟩
          · exact serializeChunks_counts registry chunks stream counters _ _ _ result counted
              hw.2 h
end

end Chunk

namespace ChunkSerializer

/-- C29: the serialized and the deserialized counter never decrease: every serialize call of a
ByteCount, Bytes, Slice, Sequence or Fields chunk on a window inside the (well-formed) chunk that
returns, and every deserialize call that returns (on a stream whose position is inside the input,
with a concrete deserializer that does not move the position back), leaves each counter greater
than or equal to its value before the call; the deserializers of slices and sequences throw. -/
theorem counters_never_decrease (registry : SerializerRegistry) :
    (∀ (c : Chunk) (stream : ByteOutputStream) (counters : SerializerCounters)
        (offset length : Int) (result : ByteOutputStream) (counted : SerializerCounters),
        c.wellFormed = true → 0 ≤ offset → offset ≤ (c.getChunkLength : Int) →
        (length = -1 ∨ (0 ≤ length ∧ offset + length ≤ (c.getChunkLength : Int))) →
        c.serialize registry stream counters offset length = .ok (result, counted) →
        counters.totalSerializedBytes ≤ counted.totalSerializedBytes ∧
          counters.totalDeserializedBytes ≤ counted.totalDeserializedBytes) ∧
    (∀ (concrete : ConcreteSerializer) (stream : ByteOutputStream)
        (counters : SerializerCounters) (chunk : FieldsChunk) (offset length : Int)
        (result : ByteOutputStream) (counted : SerializerCounters) (after : FieldsChunk),
        FieldsChunkSerializer.serialize concrete stream counters chunk offset length
          = .ok (result, counted, after) →
        counters.totalSerializedBytes ≤ counted.totalSerializedBytes ∧
          counters.totalDeserializedBytes ≤ counted.totalDeserializedBytes) ∧
    (∀ (stream : ByteInputStream) (counters : SerializerCounters) (chunk : Chunk)
        (next : ByteInputStream) (counted : SerializerCounters),
        stream.position ≤ (stream.bytes.length : Int) →
        ByteCountChunkSerializer.deserialize stream counters = .ok (chunk, next, counted) →
        counters.totalSerializedBytes ≤ counted.totalSerializedBytes ∧
          counters.totalDeserializedBytes ≤ counted.totalDeserializedBytes) ∧
    (∀ (stream : ByteInputStream) (counters : SerializerCounters) (chunk : BytesChunk)
        (next : ByteInputStream) (counted : SerializerCounters),
        stream.position ≤ (stream.bytes.length : Int) →
        BytesChunkSerializer.deserialize stream counters = .ok (chunk, next, counted) →
        counters.totalSerializedBytes ≤ counted.totalSerializedBytes ∧
          counters.totalDeserializedBytes ≤ counted.totalDeserializedBytes) ∧
    (∀ (concrete : ConcreteSerializer) (stream : ByteInputStream)
        (counters : SerializerCounters) (chunk : FieldsChunk) (next : ByteInputStream)
        (counted : SerializerCounters),
        (∀ read position, concrete.deserialize stream = some (read, position) →
          stream.position ≤ position) →
        FieldsChunkSerializer.deserialize concrete stream counters = .ok (chunk, next, counted) →
        counters.totalSerializedBytes ≤ counted.totalSerializedBytes ∧
          counters.totalDeserializedBytes ≤ counted.totalDeserializedBytes) ∧
    (∀ (stream : ByteInputStream) (counters : SerializerCounters),
        SliceChunkSerializer.deserialize stream counters = .error .unsupportedOperation ∧
        SequenceChunkSerializer.deserialize stream counters = .error .unsupportedOperation) := by
  refine ⟨?_, ?_, ?_, ?_, ?_, fun _ _ => ⟨rfl, rfl⟩⟩
  · intro c stream counters offset length result counted hw h0 ho hl h
    have hc := Chunk.serialize_counts registry c stream counters offset length result counted
      hw h0 ho hl h
    exact ⟨hc.1, le_of_eq hc.2.symm⟩
  · intro concrete stream counters chunk offset length result counted after h
    have hc := FieldsChunkSerializer.fields_serialize_counts concrete stream counters chunk
      offset length result counted after h
    exact ⟨hc.1, le_of_eq hc.2.symm⟩
  · intro stream counters chunk next counted hpos h
    have hc := ByteCountChunkSerializer.byteCount_deserialize_counts stream counters chunk next
      counted hpos h
    exact ⟨le_of_eq hc.2.symm, hc.1⟩
  · intro stream counters chunk next counted hpos h
    have hc := BytesChunkSerializer.bytes_deserialize_counts stream counters chunk next counted
      hpos h
    exact ⟨le_of_eq hc.2.symm, hc.1⟩
  · intro concrete stream counters chunk next counted hforward h
    have hc := FieldsChunkSerializer.fields_deserialize_counts concrete stream counters chunk next
      counted hforward h
    exact ⟨le_of_eq hc.2.symm, hc.1⟩

theorem counters_never_decrease_witness :
    (SerializerCounters.mk 5 7).totalSerializedBytes
        ≤ (SerializerCounters.mk (5 + 8) 7).totalSerializedBytes ∧
      (SerializerCounters.mk 5 7).totalDeserializedBytes
        ≤ (SerializerCounters.mk (5 + 8) 7).totalDeserializedBytes :=
  (counters_never_decrease tlvRegistry).1
    (.sequenceChunk {}
      [makeImmutableBytesChunk [0, 1, 2, 3, 4], makeImmutableBytesChunk [5, 6, 7, 8, 9]])
    ⟨[]⟩ ⟨5, 7⟩ 0 7 ⟨[0, 1, 2, 3, 4, 5, 6, 7]⟩ ⟨5 + 8, 7⟩ rfl (by decide) (by decide)
    (Or.inr ⟨by decide, by decide⟩) rfl

end ChunkSerializer

/-! ## Content of a `ChunkBuffer` -/

namespace Region

theorem getEndOffset_units (r : Region) (hw : r.data.wellFormed = true) :
    r.getEndOffset = r.offset + r.data.units.length := by
  rw [getEndOffset, Chunk.getChunkLength_eq_length_units _ hw]

/-- What `before` keeps of a well-formed region that is not empty. -/
theorem before_some (o : Nat) (r p : Region) (hw : r.data.wellFormed = true)
    (hpos : 0 < r.data.getChunkLength) (h : r.before o = some p) :
    p.offset = r.offset ∧ p.data.wellFormed = true ∧ 0 < p.data.getChunkLength ∧
      p.getEndOffset = min r.getEndOffset o ∧
      p.data.units = r.data.units.take (o - r.offset) := by
  have hlen := Chunk.getChunkLength_eq_length_units _ hw
  unfold before at h
  split at h
  · rename_i he
    cases h
    refine ⟨rfl, hw, hpos, by omega, ?_⟩
    rw [List.take_of_length_le]
    unfold getEndOffset at he
    omega
  · rename_i he
    split at h
    · rename_i hlt
      cases h
      unfold getEndOffset at he
      have hu := Chunk.units_window r.data 0 (o - r.offset) hw (by omega)
      have hl := Chunk.getChunkLength_eq_length_units _ hu.2
      simp only [List.drop_zero] at hu
      refine ⟨rfl, hu.2, ?_, ?_, hu.1⟩
      · rw [hl, hu.1, List.length_take]
        omega
      · simp only [getEndOffset]
        rw [hl, hu.1, List.length_take]
        omega
    · cases h

theorem before_none (o : Nat) (r : Region) (h : r.before o = none) : o ≤ r.offset := by
  unfold before at h
  split at h
  · cases h
  · split at h
    · cases h
    · omega

/-- What `after` keeps of a well-formed region that is not empty. -/
theorem after_some (e : Nat) (r p : Region) (hw : r.data.wellFormed = true)
    (hpos : 0 < r.data.getChunkLength) (h : r.after e = some p) :
    p.offset = max r.offset e ∧ p.data.wellFormed = true ∧ 0 < p.data.getChunkLength ∧
      p.getEndOffset = r.getEndOffset ∧
      p.data.units = r.data.units.drop (p.offset - r.offset) := by
  have hlen := Chunk.getChunkLength_eq_length_units _ hw
  unfold after at h
  split at h
  · rename_i he
    cases h
    refine ⟨by omega, hw, hpos, rfl, ?_⟩
    simp
  · rename_i he
    split at h
    · rename_i hlt
      cases h
      unfold getEndOffset at hlt
      have hu := Chunk.units_window r.data (e - r.offset) (r.getEndOffset - e) hw
        (by unfold getEndOffset; omega)
      have hl := Chunk.getChunkLength_eq_length_units _ hu.2
      have ht : ((r.data.units.drop (e - r.offset)).take (r.getEndOffset - e))
          = r.data.units.drop (e - r.offset) := by
        apply List.take_of_length_le
        simp only [List.length_drop, getEndOffset]
        omega
      rw [ht] at hu
      refine ⟨by simp only; omega, hu.2, ?_, ?_, hu.1⟩
      · rw [hl, hu.1, List.length_drop]
        omega
      · simp only [getEndOffset] at hl hu ⊢
        rw [hl, hu.1, List.length_drop]
        omega
    · cases h

theorem after_none (e : Nat) (r : Region) (h : r.after e = none) : r.getEndOffset ≤ e := by
  unfold after at h
  split at h
  · cases h
  · split at h
    · cases h
    · omega

theorem unitAt_eq_none (r : Region) (i : Nat) (h : i < r.offset ∨ r.getEndOffset ≤ i) :
    r.unitAt i = none := by
  unfold unitAt
  rw [if_neg]
  omega

theorem unitAt_inside (r : Region) (i : Nat) (hw : r.data.wellFormed = true)
    (h1 : r.offset ≤ i) (h2 : i < r.getEndOffset) :
    ∃ u, r.unitAt i = some u ∧ r.data.units[i - r.offset]? = some u := by
  have he := getEndOffset_units r hw
  have hlt : i - r.offset < r.data.units.length := by omega
  refine ⟨r.data.units[i - r.offset], ?_, ?_⟩
  · unfold unitAt
    rw [if_pos ⟨h1, h2⟩]
    exact List.getElem?_eq_getElem hlt
  · exact List.getElem?_eq_getElem hlt

theorem before_unitAt (o : Nat) (r p : Region) (hw : r.data.wellFormed = true)
    (hpos : 0 < r.data.getChunkLength) (h : r.before o = some p) (i : Nat) :
    p.unitAt i = if i < o then r.unitAt i else none := by
  obtain ⟨h1, h2, _, h4, h5⟩ := before_some o r p hw hpos h
  by_cases hi : i < o
  · rw [if_pos hi]
    unfold unitAt
    rw [h1, h4, h5]
    by_cases hc : r.offset ≤ i ∧ i < r.getEndOffset
    · rw [if_pos hc, if_pos ⟨hc.1, by omega⟩, List.getElem?_take_of_lt (by omega)]
    · rw [if_neg hc, if_neg (by omega)]
  · rw [if_neg hi]
    exact unitAt_eq_none p i (Or.inr (by omega))

theorem after_unitAt (e : Nat) (r p : Region) (hw : r.data.wellFormed = true)
    (hpos : 0 < r.data.getChunkLength) (h : r.after e = some p) (i : Nat) :
    p.unitAt i = if e ≤ i then r.unitAt i else none := by
  obtain ⟨h1, h2, _, h4, h5⟩ := after_some e r p hw hpos h
  by_cases hi : e ≤ i
  · rw [if_pos hi]
    unfold unitAt
    rw [h4, h5]
    by_cases hc : r.offset ≤ i ∧ i < r.getEndOffset
    · rw [if_pos hc, if_pos ⟨by omega, hc.2⟩, List.getElem?_drop]
      congr 1
      omega
    · rw [if_neg hc, if_neg (by omega)]
  · rw [if_neg hi]
    exact unitAt_eq_none p i (Or.inl (by omega))

end Region

namespace Region

/-- Two adjacent well-formed regions merge into a well-formed region that holds the content of the
first followed by the content of the second. -/
theorem merge_units (r s : Region) (hr : r.data.wellFormed = true)
    (hs : s.data.wellFormed = true) :
    (r.merge s).offset = r.offset ∧ (r.merge s).data.wellFormed = true ∧
      (r.merge s).data.units = r.data.units ++ s.data.units := by
  have h1 := Chunk.units_inlineChunk r.data hr
  have h2 := Chunk.units_inlineChunk s.data hs
  have h3 := Chunk.units_mergeChunks (Chunk.inlineChunk r.data ++ Chunk.inlineChunk s.data)
    (by rw [Chunk.wellFormedList_append, h1.2, h2.2]; rfl)
  have h4 := Chunk.units_collapse _ h3.2
  refine ⟨rfl, h4.2, ?_⟩
  simp only [merge]
  rw [h4.1, h3.1, Chunk.unitsList_append, h1.1, h2.1]

theorem merge_unitAt (r s : Region) (hr : r.data.wellFormed = true)
    (hs : s.data.wellFormed = true) (hadj : r.getEndOffset = s.offset) (i : Nat) :
    (r.merge s).unitAt i = match r.unitAt i with
      | some u => some u
      | none => s.unitAt i := by
  obtain ⟨h1, h2, h3⟩ := merge_units r s hr hs
  have he := getEndOffset_units r hr
  have hes := getEndOffset_units s hs
  have hem := getEndOffset_units (r.merge s) h2
  rw [h1, h3, List.length_append] at hem
  by_cases hc : r.offset ≤ i ∧ i < r.getEndOffset
  · obtain ⟨u, hu, hv⟩ := unitAt_inside r i hr hc.1 hc.2
    rw [hu]
    unfold unitAt
    rw [if_pos (by rw [h1]; omega), h1, h3, List.getElem?_append_left (by omega), hv]
  · have hn : r.unitAt i = none := unitAt_eq_none r i (by omega)
    rw [hn]
    unfold unitAt
    by_cases hd : s.offset ≤ i ∧ i < s.getEndOffset
    · rw [if_pos hd, if_pos (by rw [h1]; omega), h1, h3,
        List.getElem?_append_right (by omega)]
      congr 1
      omega
    · rw [if_neg hd, if_neg (by rw [h1]; omega)]

theorem before_bytes (o : Nat) (r p : Region) (h : r.before o = some p)
    (hb : ∃ f bs, r.data = .bytesChunk f bs) : ∃ f bs, p.data = .bytesChunk f bs := by
  obtain ⟨f, bs, hd⟩ := hb
  unfold before at h
  split at h
  · cases h
    exact ⟨f, bs, hd⟩
  · split at h
    · cases h
      simp only [hd, Chunk.window]
      split
      · exact ⟨_, _, rfl⟩
      · exact ⟨_, _, rfl⟩
    · cases h

theorem after_bytes (e : Nat) (r p : Region) (h : r.after e = some p)
    (hb : ∃ f bs, r.data = .bytesChunk f bs) : ∃ f bs, p.data = .bytesChunk f bs := by
  obtain ⟨f, bs, hd⟩ := hb
  unfold after at h
  split at h
  · cases h
    exact ⟨f, bs, hd⟩
  · split at h
    · cases h
      simp only [hd, Chunk.window]
      split
      · exact ⟨_, _, rfl⟩
      · exact ⟨_, _, rfl⟩
    · cases h

theorem merge_bytes (r s : Region) (hr : ∃ f bs, r.data = .bytesChunk f bs)
    (hs : ∃ f bs, s.data = .bytesChunk f bs) : ∃ f bs, (r.merge s).data = .bytesChunk f bs := by
  obtain ⟨f, bs, hd⟩ := hr
  obtain ⟨g, cs, he⟩ := hs
  exact ⟨Chunk.mergedFlags f g, bs ++ cs, by
    simp [merge, hd, he, Chunk.inlineChunk, Chunk.mergeChunks, Chunk.mergeInto, Chunk.mergePair,
      Chunk.collapse]⟩

end Region

namespace ChunkBuffer

theorem unitAt_append (xs ys : List Region) (i : Nat) :
    unitAt (xs ++ ys) i = match unitAt xs i with
      | some u => some u
      | none => unitAt ys i := by
  induction xs with
  | nil => simp [unitAt]
  | cons x xs ih =>
    simp only [List.cons_append, unitAt]
    cases x.unitAt i with
    | some u => rfl
    | none => exact ih

theorem unitAt_filterMap (f : Region → Option Region) (c : Prop) [Decidable c] (i : Nat) :
    ∀ rs : List Region,
      (∀ r ∈ rs, (∀ p, f r = some p → p.unitAt i = if c then r.unitAt i else none) ∧
        (f r = none → c → r.unitAt i = none)) →
      unitAt (rs.filterMap f) i = if c then unitAt rs i else none
  | [], _ => by simp [unitAt]
  | r :: rs, h => by
    have hr := h r (List.mem_cons_self _ _)
    have ih := unitAt_filterMap f c i rs fun x hx => h x (List.mem_cons_of_mem _ hx)
    cases hf : f r with
    | none =>
      rw [List.filterMap_cons_none hf, ih]
      by_cases hc : c
      · simp only [hc, if_true, unitAt, hr.2 hf hc]
      · simp only [hc, if_false]
    | some p =>
      rw [List.filterMap_cons_some hf]
      simp only [unitAt, hr.1 p hf, ih]
      by_cases hc : c
      · simp only [hc, if_true]
      · simp only [hc, if_false]

theorem unitAt_before (o : Nat) (rs : List Region)
    (hm : ∀ r ∈ rs, r.data.wellFormed = true ∧ 0 < r.data.getChunkLength) (i : Nat) :
    unitAt (rs.filterMap (Region.before o)) i = if i < o then unitAt rs i else none := by
  apply unitAt_filterMap
  intro r hr
  refine ⟨fun p hp => Region.before_unitAt o r p (hm r hr).1 (hm r hr).2 hp i, fun hn hi => ?_⟩
  exact Region.unitAt_eq_none r i (Or.inl (by have := Region.before_none o r hn; omega))

theorem unitAt_after (e : Nat) (rs : List Region)
    (hm : ∀ r ∈ rs, r.data.wellFormed = true ∧ 0 < r.data.getChunkLength) (i : Nat) :
    unitAt (rs.filterMap (Region.after e)) i = if e ≤ i then unitAt rs i else none := by
  apply unitAt_filterMap
  intro r hr
  refine ⟨fun p hp => Region.after_unitAt e r p (hm r hr).1 (hm r hr).2 hp i, fun hn hi => ?_⟩
  exact Region.unitAt_eq_none r i (Or.inr (by have := Region.after_none e r hn; omega))

theorem separated_before (o : Nat) (rs : List Region) (h : separated rs) :
    separated (rs.filterMap (Region.before o)) ∧
      ∀ p ∈ rs.filterMap (Region.before o), p.getEndOffset ≤ o := by
  obtain ⟨hp, hm⟩ := h
  refine ⟨⟨?_, ?_⟩, ?_⟩
  · rw [List.Pairwise.and_mem] at hp
    refine List.Pairwise.filterMap _ ?_ hp
    rintro a a' ⟨ha, ha', hR⟩ b hb b' hb'
    have fa := Region.before_some o a b (hm a ha).1 (hm a ha).2 (Option.mem_def.mp hb)
    have fa' := Region.before_some o a' b' (hm a' ha').1 (hm a' ha').2 (Option.mem_def.mp hb')
    omega
  · intro p hp'
    obtain ⟨r, hr, hf⟩ := List.mem_filterMap.mp hp'
    have fa := Region.before_some o r p (hm r hr).1 (hm r hr).2 hf
    exact ⟨fa.2.1, fa.2.2.1⟩
  · intro p hp'
    obtain ⟨r, hr, hf⟩ := List.mem_filterMap.mp hp'
    have fa := Region.before_some o r p (hm r hr).1 (hm r hr).2 hf
    omega

theorem separated_after (e : Nat) (rs : List Region) (h : separated rs) :
    separated (rs.filterMap (Region.after e)) ∧
      ∀ p ∈ rs.filterMap (Region.after e), e ≤ p.offset := by
  obtain ⟨hp, hm⟩ := h
  refine ⟨⟨?_, ?_⟩, ?_⟩
  · rw [List.Pairwise.and_mem] at hp
    refine List.Pairwise.filterMap _ ?_ hp
    rintro a a' ⟨ha, ha', hR⟩ b hb b' hb'
    have fa := Region.after_some e a b (hm a ha).1 (hm a ha).2 (Option.mem_def.mp hb)
    have fa' := Region.after_some e a' b' (hm a' ha').1 (hm a' ha').2 (Option.mem_def.mp hb')
    omega
  · intro p hp'
    obtain ⟨r, hr, hf⟩ := List.mem_filterMap.mp hp'
    have fa := Region.after_some e r p (hm r hr).1 (hm r hr).2 hf
    exact ⟨fa.2.1, fa.2.2.1⟩
  · intro p hp'
    obtain ⟨r, hr, hf⟩ := List.mem_filterMap.mp hp'
    have fa := Region.after_some e r p (hm r hr).1 (hm r hr).2 hf
    omega

/-- The merge pass turns regions that are in order and do not overlap into regions that do not
touch either, and keeps the content at every offset. -/
theorem mergeInto_separated : ∀ (rs : List Region) (acc : Region), ordered (acc :: rs) →
    separated (mergeInto acc rs) ∧ (∀ i, unitAt (mergeInto acc rs) i = unitAt (acc :: rs) i) ∧
      ∀ x ∈ mergeInto acc rs, acc.offset ≤ x.offset
  | [], acc, h => by
    refine ⟨⟨by simp [mergeInto], fun r hr => ?_⟩, fun i => rfl, fun x hx => ?_⟩
    · exact h.2 r (by simpa [mergeInto] using hr)
    · simp only [mergeInto, List.mem_singleton] at hx
      rw [hx]
  | r :: rs, acc, h => by
    obtain ⟨hp, hm⟩ := h
    rw [List.pairwise_cons] at hp
    obtain ⟨hacc, hrest⟩ := hp
    have hwa := hm acc (List.mem_cons_self _ _)
    have hwr := hm r (List.mem_cons_of_mem _ (List.mem_cons_self _ _))
    have har := hacc r (List.mem_cons_self _ _)
    by_cases hadj : acc.getEndOffset = r.offset
    · obtain ⟨m1, m2, m3⟩ := Region.merge_units acc r hwa.1 hwr.1
      have hea := Region.getEndOffset_units acc hwa.1
      have her := Region.getEndOffset_units r hwr.1
      have hem := Region.getEndOffset_units (acc.merge r) m2
      have hla := Chunk.getChunkLength_eq_length_units _ hwa.1
      have hlm := Chunk.getChunkLength_eq_length_units _ m2
      rw [m1, m3, List.length_append] at hem
      rw [m3, List.length_append] at hlm
      rw [List.pairwise_cons] at hrest
      have ho : ordered (acc.merge r :: rs) := by
        refine ⟨List.pairwise_cons.mpr ⟨fun x hx => ?_, hrest.2⟩, fun x hx => ?_⟩
        · have := hrest.1 x hx
          omega
        · rcases List.mem_cons.mp hx with rfl | hx
          · exact ⟨m2, by omega⟩
          · exact hm x (List.mem_cons_of_mem _ (List.mem_cons_of_mem _ hx))
      obtain ⟨i1, i2, i3⟩ := mergeInto_separated rs (acc.merge r) ho
      simp only [mergeInto, hadj, if_true]
      refine ⟨i1, fun i => ?_, fun x hx => by rw [← m1]; exact i3 x hx⟩
      rw [i2 i]
      simp only [unitAt, Region.merge_unitAt acc r hwa.1 hwr.1 hadj i]
      cases acc.unitAt i <;> rfl
    · have ho : ordered (r :: rs) :=
        ⟨hrest, fun x hx => hm x (List.mem_cons_of_mem _ hx)⟩
      obtain ⟨i1, i2, i3⟩ := mergeInto_separated rs r ho
      simp only [mergeInto, hadj, if_false]
      refine ⟨⟨List.pairwise_cons.mpr ⟨fun x hx => ?_, i1.1⟩, fun x hx => ?_⟩, fun i => ?_,
        fun x hx => ?_⟩
      · have := i3 x hx
        omega
      · rcases List.mem_cons.mp hx with rfl | hx
        · exact hwa
        · exact i1.2 x hx
      · simp only [unitAt, i2 i]
      · rcases List.mem_cons.mp hx with rfl | hx
        · exact le_refl _
        · have := i3 x hx
          have := Region.getEndOffset_units acc hwa.1
          omega

theorem mergeRegions_separated (rs : List Region) (h : ordered rs) :
    separated (mergeRegions rs) ∧ ∀ i, unitAt (mergeRegions rs) i = unitAt rs i := by
  cases rs with
  | nil => exact ⟨⟨by simp [mergeRegions], by simp [mergeRegions]⟩, fun _ => rfl⟩
  | cons r rs =>
    obtain ⟨h1, h2, _⟩ := mergeInto_separated rs r h
    exact ⟨h1, h2⟩

theorem mergeInto_bytes : ∀ (rs : List Region) (acc : Region),
    (∀ r ∈ acc :: rs, ∃ f bs, r.data = .bytesChunk f bs) →
    ∀ r ∈ mergeInto acc rs, ∃ f bs, r.data = .bytesChunk f bs
  | [], acc, h => by
    intro r hr
    exact h r (by simpa [mergeInto] using hr)
  | x :: rs, acc, h => by
    have ha := h acc (List.mem_cons_self _ _)
    have hx := h x (List.mem_cons_of_mem _ (List.mem_cons_self _ _))
    have hrs : ∀ r ∈ rs, ∃ f bs, r.data = .bytesChunk f bs := fun r hr =>
      h r (List.mem_cons_of_mem _ (List.mem_cons_of_mem _ hr))
    intro r hr
    simp only [mergeInto] at hr
    split at hr
    · refine mergeInto_bytes rs (acc.merge x) (fun y hy => ?_) r hr
      rcases List.mem_cons.mp hy with rfl | hy
      · exact Region.merge_bytes acc x ha hx
      · exact hrs y hy
    · rcases List.mem_cons.mp hr with rfl | hr
      · exact ha
      · exact mergeInto_bytes rs x (fun y hy => h y (List.mem_cons_of_mem _ hy)) r hr

end ChunkBuffer

namespace ChunkBuffer

/-- `clear` keeps the regions separated and erases exactly the window. -/
theorem clear_content (buffer : ChunkBuffer) (o l : Nat) (h : separated buffer.regions) :
    separated (buffer.clear o l).regions ∧
      ∀ i, unitAt (buffer.clear o l).regions i
        = if o ≤ i ∧ i < o + l then none else unitAt buffer.regions i := by
  by_cases hl : l = 0
  · subst hl
    refine ⟨by simpa [clear] using h, fun i => ?_⟩
    rw [if_neg (by omega)]
    simp [clear]
  · obtain ⟨⟨b1, b2⟩, b3⟩ := separated_before o buffer.regions h
    obtain ⟨⟨a1, a2⟩, a3⟩ := separated_after (o + l) buffer.regions h
    simp only [clear, hl, if_false]
    refine ⟨⟨List.pairwise_append.mpr ⟨b1, a1, fun p hp q hq => ?_⟩, fun r hr => ?_⟩,
      fun i => ?_⟩
    · have := b3 p hp
      have := a3 q hq
      omega
    · rcases List.mem_append.mp hr with hr | hr
      · exact b2 r hr
      · exact a2 r hr
    · rw [unitAt_append, unitAt_before o _ h.2, unitAt_after (o + l) _ h.2]
      by_cases h1 : i < o
      · rw [if_pos h1, if_neg (by omega), if_neg (by omega)]
        cases unitAt buffer.regions i <;> rfl
      · rw [if_neg h1]
        by_cases h2 : o + l ≤ i
        · rw [if_pos h2, if_neg (by omega)]
        · rw [if_neg h2, if_pos (by omega)]

/-- `replace` keeps the regions separated and overwrites exactly the window of the chunk. -/
theorem replace_content (buffer : ChunkBuffer) (o : Nat) (chunk : Chunk)
    (h : separated buffer.regions) (hw : chunk.wellFormed = true) :
    separated (buffer.replace o chunk).regions ∧
      ∀ i, unitAt (buffer.replace o chunk).regions i
        = if o ≤ i ∧ i < o + chunk.getChunkLength then chunk.units[i - o]?
          else unitAt buffer.regions i := by
  by_cases hl : chunk.getChunkLength = 0
  · refine ⟨by simpa [replace, hl] using h, fun i => ?_⟩
    rw [if_neg (by omega)]
    simp [replace, hl]
  · obtain ⟨⟨b1, b2⟩, b3⟩ := separated_before o buffer.regions h
    obtain ⟨⟨a1, a2⟩, a3⟩ := separated_after (o + chunk.getChunkLength) buffer.regions h
    have hord : ordered (buffer.regions.filterMap (Region.before o)
        ++ ⟨o, chunk⟩ :: buffer.regions.filterMap
          (Region.after (o + chunk.getChunkLength))) := by
      refine ⟨List.pairwise_append.mpr ⟨b1.imp (fun hab => le_of_lt hab),
        List.pairwise_cons.mpr ⟨fun q hq => ?_, a1.imp (fun hab => le_of_lt hab)⟩,
        fun p hp q hq => ?_⟩, fun r hr => ?_⟩
      · have := a3 q hq
        simp only [Region.getEndOffset]
        omega
      · have := b3 p hp
        rcases List.mem_cons.mp hq with rfl | hq
        · exact this
        · have := a3 q hq
          omega
      · rcases List.mem_append.mp hr with hr | hr
        · exact b2 r hr
        · rcases List.mem_cons.mp hr with rfl | hr
          · exact ⟨hw, Nat.pos_of_ne_zero hl⟩
          · exact a2 r hr
    obtain ⟨m1, m2⟩ := mergeRegions_separated _ hord
    simp only [replace, hl, if_false]
    refine ⟨m1, fun i => ?_⟩
    rw [m2 i, unitAt_append, unitAt_before o _ h.2]
    simp only [unitAt, unitAt_after (o + chunk.getChunkLength) _ h.2]
    by_cases hc : o ≤ i ∧ i < o + chunk.getChunkLength
    · obtain ⟨u, hu, hv⟩ := Region.unitAt_inside ⟨o, chunk⟩ i hw hc.1 hc.2
      rw [if_pos hc, if_neg (by omega), hu]
      exact hv.symm
    · have hn : (Region.mk o chunk).unitAt i = none :=
        Region.unitAt_eq_none _ i (by simp only [Region.getEndOffset]; omega)
      rw [if_neg hc, hn]
      by_cases h1 : i < o
      · rw [if_pos h1, if_neg (by omega)]
        cases unitAt buffer.regions i <;> rfl
      · rw [if_neg h1, if_pos (by omega)]

theorem clear_bytes (buffer : ChunkBuffer) (o l : Nat)
    (h : ∀ r ∈ buffer.regions, ∃ f bs, r.data = .bytesChunk f bs) :
    ∀ r ∈ (buffer.clear o l).regions, ∃ f bs, r.data = .bytesChunk f bs := by
  intro r hr
  unfold clear at hr
  split at hr
  · exact h r hr
  · rcases List.mem_append.mp hr with hr | hr
    · obtain ⟨x, hx, hf⟩ := List.mem_filterMap.mp hr
      exact Region.before_bytes o x r hf (h x hx)
    · obtain ⟨x, hx, hf⟩ := List.mem_filterMap.mp hr
      exact Region.after_bytes _ x r hf (h x hx)

theorem replace_bytes (buffer : ChunkBuffer) (o : Nat) (chunk : Chunk)
    (h : ∀ r ∈ buffer.regions, ∃ f bs, r.data = .bytesChunk f bs)
    (hc : ∃ f bs, chunk = .bytesChunk f bs) :
    ∀ r ∈ (buffer.replace o chunk).regions, ∃ f bs, r.data = .bytesChunk f bs := by
  intro r hr
  unfold replace at hr
  split at hr
  · exact h r hr
  · have hall : ∀ x ∈ buffer.regions.filterMap (Region.before o)
        ++ ⟨o, chunk⟩ :: buffer.regions.filterMap
          (Region.after (o + chunk.getChunkLength)), ∃ f bs, x.data = .bytesChunk f bs := by
      intro x hx
      rcases List.mem_append.mp hx with hx | hx
      · obtain ⟨y, hy, hf⟩ := List.mem_filterMap.mp hx
        exact Region.before_bytes o y x hf (h y hy)
      · rcases List.mem_cons.mp hx with rfl | hx
        · exact hc
        · obtain ⟨y, hy, hf⟩ := List.mem_filterMap.mp hx
          exact Region.after_bytes _ y x hf (h y hy)
    revert hr hall
    generalize buffer.regions.filterMap (Region.before o)
      ++ ⟨o, chunk⟩ :: buffer.regions.filterMap
        (Region.after (o + chunk.getChunkLength)) = regions
    intro hr hall
    cases regions with
    | nil => simp [mergeRegions] at hr
    | cons x xs => exact mergeInto_bytes xs x hall r hr

/-- In separated regions the unit at an offset inside a region is the unit of that region. -/
theorem unitAt_of_mem : ∀ (rs : List Region), separated rs → ∀ r ∈ rs, ∀ j,
    j < r.data.getChunkLength → unitAt rs (r.offset + j) = r.data.units[j]?
  | [], _, r, hr, _, _ => by simp at hr
  | x :: xs, h, r, hr, j, hj => by
    obtain ⟨hp, hm⟩ := h
    rw [List.pairwise_cons] at hp
    rcases List.mem_cons.mp hr with rfl | hr
    · obtain ⟨u, hu, hv⟩ := Region.unitAt_inside r (r.offset + j) (hm r (List.mem_cons_self _ _)).1
        (by omega) (by simp only [Region.getEndOffset]; omega)
      simp only [unitAt, hu]
      rw [← hv]
      congr 1
      omega
    · have hlt := hp.1 r hr
      have hx := hm x (List.mem_cons_self _ _)
      have hn : x.unitAt (r.offset + j) = none :=
        Region.unitAt_eq_none x _ (Or.inr (by omega))
      simp only [unitAt, hn]
      exact unitAt_of_mem xs ⟨hp.2, fun y hy => hm y (List.mem_cons_of_mem _ hy)⟩ r hr j hj

theorem unitAt_outside : ∀ (rs : List Region) (i : Nat),
    (∀ r ∈ rs, i < r.offset ∨ r.getEndOffset ≤ i) → unitAt rs i = none
  | [], _, _ => rfl
  | x :: xs, i, h => by
    simp only [unitAt, Region.unitAt_eq_none x i (h x (List.mem_cons_self _ _))]
    exact unitAt_outside xs i fun r hr => h r (List.mem_cons_of_mem _ hr)

/-- The chunk buffer and the plain buffer stay in step under the operations of
`testChunkBuffer`. -/
theorem run_in_step : ∀ (operations : List BufferOperation) (buffer : ChunkBuffer)
    (plain : PlainBuffer), separated buffer.regions →
    (∀ r ∈ buffer.regions, ∃ f bs, r.data = .bytesChunk f bs) →
    (∀ i, plain i = plainValue (unitAt buffer.regions i)) →
    separated (buffer.run operations).regions ∧
      (∀ r ∈ (buffer.run operations).regions, ∃ f bs, r.data = .bytesChunk f bs) ∧
      ∀ i, PlainBuffer.run plain operations i
        = plainValue (unitAt (buffer.run operations).regions i)
  | [], buffer, plain, hs, hb, hp => ⟨hs, hb, hp⟩
  | .replace o bytes :: operations, buffer, plain, hs, hb, hp => by
    have hc := replace_content buffer o (makeImmutableBytesChunk bytes) hs (by rfl)
    have hbytes := replace_bytes buffer o (makeImmutableBytesChunk bytes) hb ⟨_, _, rfl⟩
    refine run_in_step operations (buffer.replace o (makeImmutableBytesChunk bytes))
      (PlainBuffer.write plain o bytes) hc.1 hbytes fun i => ?_
    rw [hc.2 i]
    have hlen : (makeImmutableBytesChunk bytes).getChunkLength = bytes.length := rfl
    have hunits : (makeImmutableBytesChunk bytes).units = bytes.map .octet := rfl
    rw [hlen, hunits]
    simp only [PlainBuffer.write]
    by_cases hw : o ≤ i ∧ i < o + bytes.length
    · have hlt : i - o < bytes.length := by omega
      rw [if_pos hw, if_pos hw, List.getElem?_map, List.getElem?_eq_getElem hlt,
        List.getD_eq_getElem _ _ hlt]
      rfl
    · rw [if_neg hw, if_neg hw]
      exact hp i
  | .clear o l :: operations, buffer, plain, hs, hb, hp => by
    have hc := clear_content buffer o l hs
    have hbytes := clear_bytes buffer o l hb
    refine run_in_step operations (buffer.clear o l) (PlainBuffer.erase plain o l) hc.1 hbytes
      fun i => ?_
    rw [hc.2 i]
    simp only [PlainBuffer.erase]
    by_cases hw : o ≤ i ∧ i < o + l
    · rw [if_pos hw, if_pos hw]
      rfl
    · rw [if_neg hw, if_neg hw]
      exact hp i

/-- C30: after any sequence of `replace(offset, bytes chunk)` and `clear(offset, length)`
operations on a new `ChunkBuffer`, the buffer agrees with the plain array updated by the same
writes and erasures: the regions are listed in increasing offset order and no two of them overlap
or touch, every region is a bytes chunk that is not empty and each of its octets equals the entry
of the array at that offset, and the array is unwritten (`-1`) at every offset outside all
regions. -/
theorem buffer_agrees_with_plain_array (operations : List BufferOperation) :
    (ChunkBuffer.new.run operations).regions.Pairwise
        (fun r s => r.offset < s.offset ∧ r.getEndOffset < s.offset) ∧
    (∀ r ∈ (ChunkBuffer.new.run operations).regions, ∃ f bs, r.data = .bytesChunk f bs ∧
      bs ≠ [] ∧ r.getEndOffset = r.offset + bs.length ∧
      ∀ j (hj : j < bs.length),
        PlainBuffer.run PlainBuffer.new operations (r.offset + j) = (bs[j] : Int)) ∧
    (∀ i, (∀ r ∈ (ChunkBuffer.new.run operations).regions, i < r.offset ∨ r.getEndOffset ≤ i) →
      PlainBuffer.run PlainBuffer.new operations i = -1) := by
  obtain ⟨hs, hb, hp⟩ := run_in_step operations ChunkBuffer.new PlainBuffer.new
    ⟨by simp [new], by simp [new]⟩ (by simp [new]) (fun i => rfl)
  refine ⟨?_, fun r hr => ?_, fun i hi => ?_⟩
  · refine (List.Pairwise.and_mem.mp hs.1).imp ?_
    rintro a b ⟨ha, _, hab⟩
    have := (hs.2 a ha).2
    simp only [Region.getEndOffset] at hab ⊢
    omega
  · obtain ⟨f, bs, hd⟩ := hb r hr
    have hpos := (hs.2 r hr).2
    have hlen : r.data.getChunkLength = bs.length := by rw [hd]; rfl
    refine ⟨f, bs, hd, ?_, by simp only [Region.getEndOffset, hlen], fun j hj => ?_⟩
    · intro he
      rw [he] at hlen
      simp at hlen
      omega
    · rw [hp (r.offset + j), unitAt_of_mem _ hs r hr j (by omega), hd]
      simp only [Chunk.units, List.getElem?_map, List.getElem?_eq_getElem hj]
      rfl
  · rw [hp i, unitAt_outside _ i hi]
    rfl

end ChunkBuffer

/-! ## Claims about `MACRelayUnit` -/

namespace MACRelayUnit

theorem broadcastLoop_sent (frame : EtherFrame) (inputInterfaceId : Int) :
    ∀ (interfaces : List InterfaceEntry), ∀ sent ∈ broadcastLoop frame inputInterfaceId interfaces,
      sent.frame = frame ∧ sent.interfaceInd = inputInterfaceId ∧
        sent.interfaceReq ≠ inputInterfaceId ∧
        ∃ ie ∈ interfaces, ie.getInterfaceId = sent.interfaceReq ∧ ie.isLoopback = false ∧
          ie.isBroadcast = true
  | [], sent, h => by simp [broadcastLoop] at h
  | ie :: rest, sent, h => by
    have lift : (sent ∈ broadcastLoop frame inputInterfaceId rest) →
        sent.frame = frame ∧ sent.interfaceInd = inputInterfaceId ∧
        sent.interfaceReq ≠ inputInterfaceId ∧
        ∃ x ∈ ie :: rest, x.getInterfaceId = sent.interfaceReq ∧ x.isLoopback = false ∧
          x.isBroadcast = true := fun hm => by
      obtain ⟨h1, h2, h3, x, hx, hr⟩ := broadcastLoop_sent frame inputInterfaceId rest sent hm
      exact ⟨h1, h2, h3, x, List.mem_cons_of_mem _ hx, hr⟩
    unfold broadcastLoop at h
    split at h
    · exact lift h
    · rename_i hflags
      split at h
      · rename_i hne
        rcases List.mem_cons.mp h with rfl | h
        · refine ⟨rfl, rfl, fun he => hne he.symm, ie, List.mem_cons_self _ _, rfl, ?_, ?_⟩
          · cases hl : ie.isLoopback
            · rfl
            · simp [hl] at hflags
          · cases hb : ie.isBroadcast
            · simp [hb] at hflags
            · rfl
        · exact lift h
      · exact lift h

theorem handleMessage_sent {Table : Type} (table : IMACAddressTable Table)
    (unit : MACRelayUnit Table) (inputInterfaceId : Int) (frame : EtherFrame) :
    (handleMessage table unit inputInterfaceId frame).1.ift = unit.ift ∧
    ∀ sent ∈ (handleMessage table unit inputInterfaceId frame).2,
      sent.interfaceInd = inputInterfaceId ∧ sent.interfaceReq ≠ inputInterfaceId := by
  unfold handleMessage handleAndDispatchFrame
  split
  · exact ⟨rfl, fun sent h => by simp at h⟩
  · simp only
    split
    · exact ⟨rfl, fun sent h =>
        ⟨(broadcastLoop_sent frame inputInterfaceId _ sent h).2.1,
          (broadcastLoop_sent frame inputInterfaceId _ sent h).2.2.1⟩⟩
    · split
      · exact ⟨rfl, fun sent h => by simp at h⟩
      · rename_i hne
        split
        · refine ⟨rfl, fun sent h => ?_⟩
          rw [List.mem_singleton] at h
          subst h
          exact ⟨rfl, fun he => hne he.symm⟩
        · exact ⟨rfl, fun sent h =>
            ⟨(broadcastLoop_sent frame inputInterfaceId _ sent h).2.1,
              (broadcastLoop_sent frame inputInterfaceId _ sent h).2.2.1⟩⟩

theorem handleMessages_sent {Table : Type} (table : IMACAddressTable Table) :
    ∀ (arrivals : List (Int × EtherFrame)) (unit : MACRelayUnit Table),
      ∀ sent ∈ (handleMessages table unit arrivals).2, sent.interfaceReq ≠ sent.interfaceInd
  | [], unit, sent, h => by simp [handleMessages] at h
  | (inputInterfaceId, frame) :: rest, unit, sent, h => by
    simp only [handleMessages] at h
    rcases List.mem_append.mp h with h | h
    · have hs := (handleMessage_sent table unit inputInterfaceId frame).2 sent h
      rw [hs.1]
      exact hs.2
    · exact handleMessages_sent table rest _ sent h

/-- C40: for every sequence of frames handled by `MACRelayUnit`, whatever the address table does,
no packet is sent with the output interface (`InterfaceReq`) equal to the interface the frame
arrived on (`InterfaceInd`).  For a single frame: a frame whose destination is not the broadcast
address and whose output port, looked up after the source address was learned, equals the input
port is discarded (nothing is sent and the discard counter grows by one); a frame sent to a known
other port is sent once, to that port; a broadcast frame and a frame without a known port are
sent only to interfaces of the interface table that are not loopback, can broadcast and are not the
input interface.  Every frame handled is counted as processed. -/
theorem never_sends_back_to_input {Table : Type} (table : IMACAddressTable Table)
    (unit : MACRelayUnit Table) (arrivals : List (Int × EtherFrame)) (inputInterfaceId : Int)
    (frame : EtherFrame) :
    (∀ sent ∈ (handleMessages table unit arrivals).2, sent.interfaceReq ≠ sent.interfaceInd) ∧
    (∀ sent ∈ (handleAndDispatchFrame table unit inputInterfaceId frame).2,
      sent.frame = frame ∧ sent.interfaceInd = inputInterfaceId ∧
        sent.interfaceReq ≠ inputInterfaceId) ∧
    ((handleAndDispatchFrame table unit inputInterfaceId frame).1.numProcessedFrames
      = unit.numProcessedFrames + 1) ∧
    (frame.dest.isBroadcast = false →
      table.getPortForAddress
        (table.updateTableWithAddress unit.addressTable inputInterfaceId frame.src) frame.dest
        = inputInterfaceId →
      (handleAndDispatchFrame table unit inputInterfaceId frame).2 = [] ∧
      (handleAndDispatchFrame table unit inputInterfaceId frame).1.numDiscardedFrames
        = unit.numDiscardedFrames + 1) ∧
    (frame.dest.isBroadcast = true ∨
      table.getPortForAddress
        (table.updateTableWithAddress unit.addressTable inputInterfaceId frame.src) frame.dest
        < 0 →
      ∀ sent ∈ (handleAndDispatchFrame table unit inputInterfaceId frame).2,
        ∃ ie ∈ unit.ift, ie.getInterfaceId = sent.interfaceReq ∧ ie.isLoopback = false ∧
          ie.isBroadcast = true ∧ ie.getInterfaceId ≠ inputInterfaceId) := by
  refine ⟨handleMessages_sent table arrivals unit, ?_, ?_, ?_, ?_⟩
  · intro sent h
    unfold handleAndDispatchFrame at h
    simp only at h
    split at h
    · obtain ⟨h1, h2, h3, _⟩ := broadcastLoop_sent frame inputInterfaceId _ sent h
      exact ⟨h1, h2, h3⟩
    · split at h
      · simp at h
      · rename_i hne
        split at h
        · rw [List.mem_singleton] at h
          subst h
          exact ⟨rfl, rfl, fun he => hne he.symm⟩
        · obtain ⟨h1, h2, h3, _⟩ := broadcastLoop_sent frame inputInterfaceId _ sent h
          exact ⟨h1, h2, h3⟩
  · unfold handleAndDispatchFrame
    simp only
    split
    · rfl
    · split
      · rfl
      · split <;> rfl
  · intro hb hp
    unfold handleAndDispatchFrame
    simp only [hb, hp, Bool.false_eq_true, if_false, if_true, and_self]
  · intro hc sent h
    unfold handleAndDispatchFrame at h
    simp only at h
    split at h
    · obtain ⟨_, _, h3, ie, hie, h4, h5, h6⟩ := broadcastLoop_sent frame inputInterfaceId _ sent h
      exact ⟨ie, hie, h4, h5, h6, by rw [h4]; exact h3⟩
    · rename_i hb
      split at h
      · simp at h
      · split at h
        · rename_i hge
          rcases hc with hc | hc
          · exact absurd hc hb
          · omega
        · obtain ⟨_, _, h3, ie, hie, h4, h5, h6⟩ :=
            broadcastLoop_sent frame inputInterfaceId _ sent h
          exact ⟨ie, hie, h4, h5, h6, by rw [h4]; exact h3⟩

theorem never_sends_back_to_input_witness :
    (handleAndDispatchFrame learningTable
        ⟨0, 0, [(⟨2⟩, 100)], [⟨100, false, true⟩, ⟨101, false, true⟩], true⟩ 100
        ⟨⟨1⟩, ⟨2⟩⟩).2 = [] ∧
    (handleAndDispatchFrame learningTable
        ⟨0, 0, [(⟨2⟩, 100)], [⟨100, false, true⟩, ⟨101, false, true⟩], true⟩ 100
        ⟨⟨1⟩, ⟨2⟩⟩).1.numDiscardedFrames = 0 + 1 :=
  (never_sends_back_to_input learningTable
    ⟨0, 0, [(⟨2⟩, 100)], [⟨100, false, true⟩, ⟨101, false, true⟩], true⟩ [] 100
    ⟨⟨1⟩, ⟨2⟩⟩).2.2.2.1 (by decide) (by decide)

end MACRelayUnit

/-! ## Claims about a `Packet` without contents -/

namespace Packet

/-- C39 (the code departs from the claim): on a packet that has no contents, as a newly
constructed packet has, no call of `removeFromBeginning` or `removeFromEnd` completes: a call
whose argument checks pass (length 0, the iterator at 0) goes on to `contents->canRemoveFrom...`
through the null contents, every other call fails an `assert`. -/
theorem removeFrom_dereferences_null_contents (p : Packet) (h : p.contents = none) :
    (p.headerIterator.position = 0 →
      p.removeFromBeginning 0 = .failed .nullDereference p) ∧
    (p.trailerIterator.position = 0 → p.removeFromEnd 0 = .failed .nullDereference p) ∧
    (∀ length, ∃ e, p.removeFromBeginning length = .failed e p) ∧
    (∀ length, ∃ e, p.removeFromEnd length = .failed e p) := by
  refine ⟨fun hp => ?_, fun hp => ?_, fun length => ?_, fun length => ?_⟩
  · simp [removeFromBeginning, getPacketLength, h, hp]
  · simp [removeFromEnd, getPacketLength, h, hp]
  · unfold removeFromBeginning
    rw [h]
    split
    · split
      · exact ⟨_, rfl⟩
      · exact ⟨_, rfl⟩
    · exact ⟨_, rfl⟩
  · unfold removeFromEnd
    rw [h]
    split
    · split
      · exact ⟨_, rfl⟩
      · exact ⟨_, rfl⟩
    · exact ⟨_, rfl⟩

theorem removeFrom_dereferences_null_contents_witness :
    Packet.new.removeFromBeginning 0 = .failed .nullDereference Packet.new ∧
    Packet.new.removeFromEnd 0 = .failed .nullDereference Packet.new :=
  ⟨(removeFrom_dereferences_null_contents Packet.new rfl).1 rfl,
    (removeFrom_dereferences_null_contents Packet.new rfl).2.1 rfl⟩

end Packet

/-! ## Round trips through the protocol header serializers -/

namespace UdpHeaderSerializer

/-- C33 (counterexample): a header with CRC mode `CRC_COMPUTED` and CRC 0 is serialized to eight
octets from which `deserialize` returns the CRC mode `CRC_OFF`; a header with CRC mode `CRC_OFF`
and CRC 0x1234 comes back with the CRC mode `CRC_COMPUTED`. -/
theorem crc_mode_not_restored :
    serialize ⟨[]⟩ ⟨1000, 2000, 8, 0, .CRC_COMPUTED⟩ = .ok ⟨[3, 232, 7, 208, 0, 8, 0, 0]⟩ ∧
    deserialize ⟨[3, 232, 7, 208, 0, 8, 0, 0], 0⟩
      = .ok (⟨1000, 2000, 8, 0, .CRC_OFF⟩, ⟨[3, 232, 7, 208, 0, 8, 0, 0], 8⟩) ∧
    serialize ⟨[]⟩ ⟨1000, 2000, 8, 4660, .CRC_OFF⟩ = .ok ⟨[3, 232, 7, 208, 0, 8, 18, 52]⟩ ∧
    deserialize ⟨[3, 232, 7, 208, 0, 8, 18, 52], 0⟩
      = .ok (⟨1000, 2000, 8, 4660, .CRC_COMPUTED⟩, ⟨[3, 232, 7, 208, 0, 8, 18, 52], 8⟩) := by
  refine ⟨by rfl, by rfl, by rfl, by rfl⟩

/-- C33 (amended): for every UDP header whose source port, destination port, total length field
and CRC are each in `[0, 65535]` and whose CRC mode is `CRC_OFF` with CRC 0 or `CRC_COMPUTED` with
a CRC other than 0, `serialize` writes eight octets and `deserialize` of these octets returns a
header with the same source port, destination port, total length field, CRC and CRC mode. -/
theorem serialize_deserialize_header (udpHeader : UdpHeader)
    (hs : 0 ≤ udpHeader.sourcePort ∧ udpHeader.sourcePort ≤ 65535)
    (hd : 0 ≤ udpHeader.destinationPort ∧ udpHeader.destinationPort ≤ 65535)
    (hl : 0 ≤ udpHeader.totalLengthField ∧ udpHeader.totalLengthField ≤ 65535)
    (hc : 0 ≤ udpHeader.crc ∧ udpHeader.crc ≤ 65535)
    (hmode : (udpHeader.crcMode = .CRC_OFF ∧ udpHeader.crc = 0) ∨
      (udpHeader.crcMode = .CRC_COMPUTED ∧ udpHeader.crc ≠ 0)) :
    ∃ octets, octets.length = 8 ∧ serialize ⟨[]⟩ udpHeader = .ok ⟨octets⟩ ∧
      deserialize ⟨octets, 0⟩ = .ok (udpHeader, ⟨octets, 8⟩) := by
  obtain ⟨sourcePort, destinationPort, totalLengthField, crc, crcMode⟩ := udpHeader
  simp only at hs hd hl hc hmode
  obtain ⟨sp, rfl⟩ := Int.eq_ofNat_of_zero_le hs.1
  obtain ⟨dp, rfl⟩ := Int.eq_ofNat_of_zero_le hd.1
  obtain ⟨tl, rfl⟩ := Int.eq_ofNat_of_zero_le hl.1
  obtain ⟨c, rfl⟩ := Int.eq_ofNat_of_zero_le hc.1
  have hmode2 : ¬ (crcMode ≠ .CRC_OFF ∧ crcMode ≠ .CRC_COMPUTED) := by
    rcases hmode with ⟨h, _⟩ | ⟨h, _⟩ <;> simp [h]
  refine ⟨[sp / 256, sp % 256, dp / 256, dp % 256, tl / 256, tl % 256, c / 256, c % 256], rfl,
    ?_, ?_⟩
  · simp only [serialize, hmode2, if_false, ByteOutputStream.writeUint16, List.nil_append,
      List.append_assoc, List.cons_append, SerializeOutcome.ok.injEq, ByteOutputStream.mk.injEq,
      List.cons.injEq, and_true]
    omega
  · have e1 : sp / 256 * 256 + sp % 256 = sp := by omega
    have e2 : dp / 256 * 256 + dp % 256 = dp := by omega
    have e3 : tl / 256 * 256 + tl % 256 = tl := by omega
    have e4 : c / 256 * 256 + c % 256 = c := by omega
    have hm : (if c = 0 then CrcMode.CRC_OFF else CrcMode.CRC_COMPUTED) = crcMode := by
      rcases hmode with ⟨h, h0⟩ | ⟨h, h0⟩
      · have : c = 0 := by omega
        simp [this, h]
      · have : c ≠ 0 := by omega
        simp [this, h]
    simp [deserialize, ByteInputStream.readUint16, ByteInputStream.readByte, e1, e2, e3, e4, hm]

theorem serialize_deserialize_header_witness :
    ∃ octets, octets.length = 8 ∧
      serialize ⟨[]⟩ ⟨1000, 2000, 8, 4660, .CRC_COMPUTED⟩ = .ok ⟨octets⟩ ∧
      deserialize ⟨octets, 0⟩ = .ok (⟨1000, 2000, 8, 4660, .CRC_COMPUTED⟩, ⟨octets, 8⟩) :=
  serialize_deserialize_header ⟨1000, 2000, 8, 4660, .CRC_COMPUTED⟩ (by decide) (by decide)
    (by decide) (by decide) (Or.inr ⟨rfl, by decide⟩)

end UdpHeaderSerializer

/-! ## Claims about `ReorderBuffer` -/

namespace ChunkBuffer

/-- Two regions of a separated list are the same region or lie apart. -/
theorem separated_apart : ∀ (rs : List Region), separated rs → ∀ r ∈ rs, ∀ s ∈ rs,
    r = s ∨ r.getEndOffset < s.offset ∨ s.getEndOffset < r.offset
  | [], _, r, hr, _, _ => by simp at hr
  | x :: xs, h, r, hr, s, hs => by
    obtain ⟨hp, hm⟩ := h
    rw [List.pairwise_cons] at hp
    have hxs : separated xs := ⟨hp.2, fun y hy => hm y (List.mem_cons_of_mem _ hy)⟩
    rcases List.mem_cons.mp hr with hrx | hrm
    · rcases List.mem_cons.mp hs with hsx | hsm
      · exact Or.inl (hrx.trans hsx.symm)
      · exact Or.inr (Or.inl (hrx ▸ hp.1 s hsm))
    · rcases List.mem_cons.mp hs with hsx | hsm
      · exact Or.inr (Or.inr (hsx ▸ hp.1 r hrm))
      · exact separated_apart xs hxs r hrm s hsm

/-- In a separated list the region that starts at an offset is found by its offset. -/
theorem find_region (rs : List Region) (h : separated rs) (r : Region) (hr : r ∈ rs) :
    rs.find? (fun x => x.offset == r.offset) = some r := by
  cases hf : rs.find? (fun x => x.offset == r.offset) with
  | none =>
    have := List.find?_eq_none.mp hf r hr
    simp at this
  | some x =>
    have hx := List.mem_of_find?_eq_some hf
    have hp := List.find?_some hf
    simp only [beq_iff_eq] at hp
    have hpos := (h.2 x hx).2
    have hpos2 := (h.2 r hr).2
    rcases separated_apart rs h x hx r hr with he | he | he
    · rw [he]
    · simp only [Region.getEndOffset] at he
      omega
    · simp only [Region.getEndOffset] at he
      omega

end ChunkBuffer

namespace ReorderBuffer

theorem apply_separated (b : ReorderBuffer) (operation : ReorderOperation)
    (h : ChunkBuffer.separated b.buffer.regions) (hw : operation.wellFormed = true) :
    ChunkBuffer.separated (b.apply operation).buffer.regions ∧
      b.expectedOffset ≤ (b.apply operation).expectedOffset := by
  cases operation with
  | replace offset chunk =>
    exact ⟨(ChunkBuffer.replace_content b.buffer offset chunk h hw).1, le_refl _⟩
  | popData =>
    simp only [apply, popData]
    split
    · exact ⟨(ChunkBuffer.clear_content b.buffer _ _ h).1, Nat.le_add_right _ _⟩
    · exact ⟨h, le_refl _⟩

theorem run_separated : ∀ (operations : List ReorderOperation) (b : ReorderBuffer),
    ChunkBuffer.separated b.buffer.regions → (∀ operation ∈ operations, operation.wellFormed = true) →
    ChunkBuffer.separated (b.run operations).buffer.regions ∧
      b.expectedOffset ≤ (b.run operations).expectedOffset
  | [], b, h, _ => ⟨h, le_refl _⟩
  | operation :: operations, b, h, hw => by
    obtain ⟨h1, h2⟩ := apply_separated b operation h (hw operation (List.mem_cons_self _ _))
    obtain ⟨h3, h4⟩ := run_separated operations (b.apply operation) h1
      (fun x hx => hw x (List.mem_cons_of_mem _ hx))
    exact ⟨h3, le_trans h2 h4⟩

/-- C31: for every `ReorderBuffer` reached from a new one by `replace` and `popData` calls, the
expected offset has not decreased and no further call decreases it; `popData` returns null and
changes nothing when no region starts at the expected offset; otherwise it returns the data of
the region that starts there, which is not empty, holds the content of the buffer from the
expected offset up to the next offset without content, and is removed from the buffer, and the
expected offset advances by exactly the length of the data returned. -/
theorem popData_advances_expected_offset (expectedOffset : Nat)
    (operations : List ReorderOperation) (b : ReorderBuffer)
    (hw : ∀ operation ∈ operations, operation.wellFormed = true)
    (hb : b = (new expectedOffset).run operations) :
    expectedOffset ≤ b.expectedOffset ∧
    (∀ operation, b.expectedOffset ≤ (b.apply operation).expectedOffset) ∧
    ((∀ r ∈ b.buffer.regions, r.offset ≠ b.expectedOffset) → b.popData = (none, b)) ∧
    (∀ r ∈ b.buffer.regions, r.offset = b.expectedOffset →
      b.popData.1 = some r.data ∧ 0 < r.data.getChunkLength ∧
      b.popData.2.expectedOffset = b.expectedOffset + r.data.getChunkLength ∧
      (∀ j, j < r.data.getChunkLength →
        ChunkBuffer.unitAt b.buffer.regions (b.expectedOffset + j) = r.data.units[j]?) ∧
      ChunkBuffer.unitAt b.buffer.regions (b.expectedOffset + r.data.getChunkLength) = none ∧
      ∀ i, ChunkBuffer.unitAt b.popData.2.buffer.regions i
        = if b.expectedOffset ≤ i ∧ i < b.expectedOffset + r.data.getChunkLength then none
          else ChunkBuffer.unitAt b.buffer.regions i) := by
  obtain ⟨hs, hle⟩ := run_separated operations (new expectedOffset)
    ⟨by simp [new, ChunkBuffer.new], by simp [new, ChunkBuffer.new]⟩ hw
  rw [← hb] at hs hle
  refine ⟨hle, fun operation => ?_, fun hnone => ?_, fun r hr ho => ?_⟩
  · cases operation with
    | replace offset chunk => exact le_refl _
    | popData =>
      simp only [apply, popData]
      split
      · exact Nat.le_add_right _ _
      · exact le_refl _
  · have hf : b.buffer.regions.find? (fun r => r.offset == b.expectedOffset) = none :=
      List.find?_eq_none.mpr fun x hx => by simpa using hnone x hx
    simp only [popData, hf]
  · have hf := ChunkBuffer.find_region b.buffer.regions hs r hr
    rw [ho] at hf
    have hpos := (hs.2 r hr).2
    have hc := ChunkBuffer.clear_content b.buffer b.expectedOffset r.data.getChunkLength hs
    refine ⟨by simp only [popData, hf], hpos, by simp only [popData, hf], fun j hj => ?_, ?_,
      fun i => ?_⟩
    · rw [← ho]
      exact ChunkBuffer.unitAt_of_mem _ hs r hr j hj
    · apply ChunkBuffer.unitAt_outside
      intro s hs2
      rcases ChunkBuffer.separated_apart _ hs r hr s hs2 with he | he | he
      · subst he
        right
        simp only [Region.getEndOffset]
        omega
      · left
        simp only [Region.getEndOffset] at he
        omega
      · right
        omega
    · simp only [popData, hf]
      exact hc.2 i

theorem popData_advances_expected_offset_witness :
    ((new 1000).run [.replace 1020 (makeImmutableByteCountChunk 10)]).popData.1 = none ∧
    (((new 1000).run [.replace 1020 (makeImmutableByteCountChunk 10),
        .replace 1000 (makeImmutableByteCountChunk 10),
        .replace 1010 (makeImmutableByteCountChunk 10)]).popData.1.map Chunk.getChunkLength
      = some 30) ∧
    ((new 1000).run [.replace 1020 (makeImmutableByteCountChunk 10),
        .replace 1000 (makeImmutableByteCountChunk 10),
        .replace 1010 (makeImmutableByteCountChunk 10)]).popData.2.expectedOffset = 1030 := by
  have h1 := (popData_advances_expected_offset 1000
    [.replace 1020 (makeImmutableByteCountChunk 10)] _
    (by intro operation h; simp at h; subst h; rfl) rfl).2.2.1
    (by intro r hr; simp [run, new, apply, replace, ChunkBuffer.new, ChunkBuffer.replace,
          makeImmutableByteCountChunk, Chunk.markImmutable, Chunk.setFlags, Chunk.getChunkLength,
          ChunkBuffer.mergeRegions, ChunkBuffer.mergeInto] at hr
        subst hr
        decide)
  have h2 := (popData_advances_expected_offset 1000
    [.replace 1020 (makeImmutableByteCountChunk 10),
      .replace 1000 (makeImmutableByteCountChunk 10),
      .replace 1010 (makeImmutableByteCountChunk 10)] _
    (by intro operation h; simp at h; rcases h with rfl | rfl | rfl <;> rfl) rfl).2.2.2
    ⟨1000, .lengthChunk {} 30⟩
    (by
      have hregions : ((new 1000).run [.replace 1020 (makeImmutableByteCountChunk 10),
          .replace 1000 (makeImmutableByteCountChunk 10),
          .replace 1010 (makeImmutableByteCountChunk 10)]).buffer.regions
          = [⟨1000, .lengthChunk {} 30⟩] := by rfl
      rw [hregions]
      exact List.mem_singleton_self _)
    (by rfl)
  refine ⟨by rw [h1], ?_, ?_⟩
  · rw [h2.1]
    rfl
  · rw [h2.2.2.1]
    rfl

end ReorderBuffer

/-! ## Claims about `BytesChunk::createChunk` -/

namespace BytesChunk

theorem get_at (bs : List Nat) (q : Nat) (h : q < bs.length) :
    (ByteOutputStream.mk bs).get (q : Int) = .ok bs[q] := by
  have h0 : (0 : Int) ≤ (q : Int) := by omega
  simp only [ByteOutputStream.get, h0, if_true, Int.toNat_ofNat, List.drop_eq_getElem_cons h]

theorem get_outside (bs : List Nat) (q : Nat) (h : bs.length ≤ q) :
    (ByteOutputStream.mk bs).get (q : Int) = .error .programmingError := by
  have h0 : (0 : Int) ≤ (q : Int) := by omega
  simp only [ByteOutputStream.get, h0, if_true, Int.toNat_ofNat, List.drop_eq_nil_of_le h]

/-- The loop copies the octets it reads while the index stays inside the stream. -/
theorem createLoop_inside (bs : List Nat) (offset : Nat) :
    ∀ (count i : Nat) (chunkBytes : List Nat), offset + i + count ≤ bs.length →
      createLoop ⟨bs⟩ (offset : Int) count (i : Int) chunkBytes
        = .ok (chunkBytes ++ (bs.drop (offset + i)).take count)
  | 0, i, chunkBytes, _ => by simp [createLoop]
  | count + 1, i, chunkBytes, h => by
    have hq : offset + i < bs.length := by omega
    have ih := createLoop_inside bs offset count (i + 1) (chunkBytes ++ [bs[offset + i]])
      (by omega)
    have e : ((offset : Int) + (i : Int)) = ((offset + i : Nat) : Int) := by omega
    have e2 : ((i : Int) + 1) = ((i + 1 : Nat) : Int) := by omega
    simp only [createLoop, e, get_at bs (offset + i) hq]
    rw [e2, ih, List.drop_eq_getElem_cons hq]
    simp only [List.take_succ_cons, List.append_assoc, List.singleton_append]
    rfl

/-- The loop fails when it is to read more octets than the stream holds behind the index. -/
theorem createLoop_outside (bs : List Nat) (offset : Nat) :
    ∀ (count i : Nat) (chunkBytes : List Nat), offset + i ≤ bs.length →
      bs.length < offset + i + count →
      createLoop ⟨bs⟩ (offset : Int) count (i : Int) chunkBytes = .error .programmingError
  | 0, i, chunkBytes, h1, h2 => by omega
  | count + 1, i, chunkBytes, h1, h2 => by
    have e : ((offset : Int) + (i : Int)) = ((offset + i : Nat) : Int) := by omega
    have e2 : ((i : Int) + 1) = ((i + 1 : Nat) : Int) := by omega
    by_cases hq : offset + i < bs.length
    · simp only [createLoop, e, get_at bs (offset + i) hq]
      rw [e2]
      exact createLoop_outside bs offset count (i + 1) _ (by omega) (by omega)
    · simp only [createLoop, e, get_outside bs (offset + i) (by omega)]

/-- `createChunk` once the chunk is serialized and the number of octets to copy is known. -/
theorem createChunk_of_serialized (registry : SerializerRegistry)
    (counters counted : SerializerCounters) (chunk : Chunk) (s : List Nat)
    (hs : chunk.serialize registry ⟨[]⟩ counters 0 (-1) = .ok (⟨s⟩, counted))
    (offset length : Int) (count : Nat)
    (hc : (toInt32 (if length = -1 then (s.length : Int) else length)).toNat = count) :
    createChunk registry counters chunk offset length
      = match createLoop ⟨s⟩ offset count 0 [] with
        | .error e => .error e
        | .ok chunkBytes => .ok (BytesChunk.ofBytes chunkBytes, counted) := by
  unfold createChunk
  rewrite [hs]
  simp only [ByteOutputStream.getSize]
  rewrite [hc]
  rfl

/-- C32 (the code departs from the claim): for a chunk whose serialization is `s`,
`BytesChunk::createChunk(chunk, offset, length)` returns the bytes `s[offset .. offset + length)`
for a window inside `s`, but with the length `-1` it takes the size of `s` for the number of
octets to copy, whatever the offset: for offset 0 it returns `s`, and for every offset from 1 to
`|s|` it reads `s` past its end and returns no chunk. -/
theorem createChunk_sentinel_reads_past_end (registry : SerializerRegistry)
    (counters counted : SerializerCounters) (chunk : Chunk) (s : List Nat)
    (hs : chunk.serialize registry ⟨[]⟩ counters 0 (-1) = .ok (⟨s⟩, counted))
    (hsize : (s.length : Int) < 2147483648) :
    (∀ offset length : Int, 0 ≤ offset → 0 ≤ length → offset + length ≤ (s.length : Int) →
      createChunk registry counters chunk offset length
        = .ok (BytesChunk.ofBytes ((s.drop offset.toNat).take length.toNat), counted)) ∧
    createChunk registry counters chunk 0 (-1) = .ok (BytesChunk.ofBytes s, counted) ∧
    (∀ offset : Int, 0 < offset → offset ≤ (s.length : Int) →
      createChunk registry counters chunk offset (-1) = .error .programmingError) := by
  have ht : (toInt32 (if (-1 : Int) = -1 then (s.length : Int) else -1)).toNat = s.length := by
    rw [if_pos rfl]
    unfold toInt32
    omega
  refine ⟨fun offset length ho hl hol => ?_, ?_, fun offset ho hol => ?_⟩
  · obtain ⟨o, rfl⟩ := Int.eq_ofNat_of_zero_le ho
    obtain ⟨l, rfl⟩ := Int.eq_ofNat_of_zero_le hl
    have hc : (toInt32 (if (l : Int) = -1 then (s.length : Int) else (l : Int))).toNat = l := by
      rw [if_neg (by omega)]
      unfold toInt32
      omega
    have hloop := createLoop_inside s o l 0 [] (by omega)
    simp only [Nat.cast_zero, Nat.add_zero, List.nil_append] at hloop
    rw [createChunk_of_serialized registry counters counted chunk s hs o l l hc, hloop]
    simp only [Int.toNat_ofNat]
  · have hloop := createLoop_inside s 0 s.length 0 [] (by omega)
    simp only [Nat.cast_zero, Nat.add_zero, List.nil_append, List.drop_zero, List.take_length]
      at hloop
    rw [createChunk_of_serialized registry counters counted chunk s hs 0 (-1) s.length ht, hloop]
  · obtain ⟨o, rfl⟩ := Int.eq_ofNat_of_zero_le (le_of_lt ho)
    have hloop := createLoop_outside s o s.length 0 [] (by omega) (by omega)
    simp only [Nat.cast_zero] at hloop
    rw [createChunk_of_serialized registry counters counted chunk s hs o (-1) s.length ht, hloop]

theorem createChunk_sentinel_reads_past_end_witness :
    createChunk tlvRegistry ⟨0, 0⟩ (makeImmutableBytesChunk (makeVector 10)) 3 7
      = .ok (BytesChunk.ofBytes [3, 4, 5, 6, 7, 8, 9], ⟨10, 0⟩) ∧
    createChunk tlvRegistry ⟨0, 0⟩ (makeImmutableBytesChunk (makeVector 10)) 3 (-1)
      = .error .programmingError :=
  ⟨(createChunk_sentinel_reads_past_end tlvRegistry ⟨0, 0⟩ ⟨10, 0⟩
      (makeImmutableBytesChunk (makeVector 10)) [0, 1, 2, 3, 4, 5, 6, 7, 8, 9] (by rfl)
      (by decide)).1 3 7 (by decide) (by decide) (by decide),
    (createChunk_sentinel_reads_past_end tlvRegistry ⟨0, 0⟩ ⟨10, 0⟩
      (makeImmutableBytesChunk (makeVector 10)) [0, 1, 2, 3, 4, 5, 6, 7, 8, 9] (by rfl)
      (by decide)).2.2 3 (by decide) (by decide)⟩

end BytesChunk

/-! ## Claims about the IPv4 options -/

namespace ByteInputStream

/-- Reading the octet at the position of a stream whose remaining octets are known. -/
theorem readByte_of_drop (bs : List Nat) (q : Nat) (value : Nat) (rest : List Nat)
    (h : bs.drop q = value :: rest) :
    (ByteInputStream.mk bs (q : Int)).readByte = .ok (value, ⟨bs, ((q + 1 : Nat) : Int)⟩) ∧
      bs.drop (q + 1) = rest := by
  have h0 : (0 : Int) ≤ (q : Int) := by omega
  refine ⟨?_, ?_⟩
  · simp only [readByte, h0, if_true, Int.toNat_ofNat, h]
    congr 2
  · rw [← List.drop_drop, h]
    rfl

end ByteInputStream

namespace IPv4HeaderSerializer

/-- C38 (the code departs from the claim): for an input positioned at a timestamp option with the
timestamp-only flag, a length octet `L = 4 + 4 k` with `k ≥ 1` and a valid pointer,
`deserializeOption` returns a timestamp option with the type and the length `L`, but it consumes
four octets, not `L`: the loop that reads the records runs over the record address array, which is
empty for this flag, so the `k` timestamps returned are all zero, whatever the option body
holds. -/
theorem deserializeOption_skips_timestamps (bytes : List Nat) (position length pointer
    flagbyte : Nat) (body : List Nat)
    (hat : bytes.drop position = IPOPTION_TIMESTAMP :: length :: pointer :: flagbyte :: body)
    (hflag : flagbyte &&& 0x0f = 0) (hl : 4 < length) (hl4 : (length - 4) % 4 = 0)
    (hp : 5 ≤ pointer) (hp4 : (pointer - 5) % 4 = 0) :
    deserializeOption ⟨bytes, (position : Int)⟩
      = .ok (.IPv4OptionTimestamp IPOPTION_TIMESTAMP length IP_TIMESTAMP_TIMESTAMP_ONLY
          (flagbyte >>> 4) ((pointer - 5) / 4) (List.replicate ((length - 4) / 4) 0) [],
        ⟨bytes, ((position + 4 : Nat) : Int)⟩) ∧
    ((position + 4 : Nat) : Int) - (position : Int) < (length : Int) := by
  obtain ⟨r1, d1⟩ := ByteInputStream.readByte_of_drop bytes position _ _ hat
  obtain ⟨r2, d2⟩ := ByteInputStream.readByte_of_drop bytes (position + 1) _ _ d1
  obtain ⟨r3, d3⟩ := ByteInputStream.readByte_of_drop bytes (position + 1 + 1) _ _ d2
  obtain ⟨r4, _⟩ := ByteInputStream.readByte_of_drop bytes (position + 1 + 1 + 1) _ _ d3
  refine ⟨?_, by omega⟩
  have hcond : (IP_TIMESTAMP_TIMESTAMP_ONLY ≠ -1 ∧ length > 4 ∧ (4 : Nat) ≠ 0 ∧
      (length - 4) % 4 = 0 ∧ pointer ≥ 5 ∧ (pointer - 5) % 4 = 0) :=
    ⟨by decide, hl, by decide, hl4, hp, hp4⟩
  have h48 : ((4 : Nat) = 8) = False := by decide
  simp only [deserializeOption, r1, deserializeTimestamp, r2, r3, r4, hflag, if_true, hcond,
    h48, if_false, readRecords, IPOPTION_TIMESTAMP, IPOPTION_END_OF_OPTIONS, IPOPTION_NO_OPTION,
    IPOPTION_STREAM_ID, List.replicate_zero]
  rfl

theorem deserializeOption_skips_timestamps_witness :
    deserializeOption ⟨[68, 8, 5, 0, 0, 0, 0, 42], 0⟩
      = .ok (.IPv4OptionTimestamp 68 8 0 0 0 [0] [], ⟨[68, 8, 5, 0, 0, 0, 0, 42], 4⟩) :=
  (deserializeOption_skips_timestamps [68, 8, 5, 0, 0, 0, 0, 42] 0 8 5 0 [0, 0, 0, 42] rfl
    (by decide) (by decide) (by decide) (by decide) (by decide)).1

end IPv4HeaderSerializer

/-! ## Claims about `IPv6HeaderSerializer` -/

namespace IPv6HeaderSerializer

theorem ip6h_length (order : ByteOrder) (dgram : IPv6Header) : (ip6h order dgram).length = 40 := by
  cases order <;> simp [ip6h, addressOctets, ByteOrder.store32, ByteOrder.store16]

theorem writeAddresses_length : ∀ (address : List IPv6Address) (stream : ByteOutputStream),
    (writeAddresses stream address).bytes.length = stream.bytes.length + 16 * address.length
  | [], stream => by simp [writeAddresses]
  | a :: rest, stream => by
    simp only [writeAddresses, writeAddresses_length rest, ByteOutputStream.writeIPv6Address,
      ByteOutputStream.writeUint32, List.length_append, List.length_cons, List.length_nil]
    omega

/-- The octets a completed extension header body adds to the stream. -/
theorem serializeExtensionBody_length (stream after : ByteOutputStream)
    (extHdr : IPv6ExtensionHeader) (h : serializeExtensionBody stream extHdr = .ok after) :
    after.bytes.length = stream.bytes.length + (extHdr.byteLength - 2).toNat ∨
      ∃ n, after.bytes.length = stream.bytes.length + 6 + 16 * n := by
  unfold serializeExtensionBody at h
  have fill : ∀ count : Int, (stream.writeByteRepeatedly 0 count).bytes.length
      = stream.bytes.length + count.toNat := fun count => by
    simp [ByteOutputStream.writeByteRepeatedly]
  split at h
  · split at h
    · cases h
      exact Or.inl (fill _)
    · cases h
  · split at h
    · split at h
      · cases h
        exact Or.inl (fill _)
      · cases h
    · split at h
      · split at h
        · rename_i address _
          cases h
          refine Or.inr ⟨address.length, ?_⟩
          simp only [ByteOutputStream.writeByteRepeatedly, List.length_append,
            List.length_replicate, writeAddresses_length, ByteOutputStream.writeByte,
            List.length_cons, List.length_nil]
          omega
        · cases h
      · split at h
        · split at h
          · split at h
            · cases h
            · cases h
              refine Or.inr ⟨0, ?_⟩
              simp [ByteOutputStream.writeUint16, ByteOutputStream.writeUint32]
          · cases h
        · split at h
          · split at h
            · cases h
              exact Or.inl (fill _)
            · cases h
          · split at h
            · split at h
              · cases h
                exact Or.inl (fill _)
              · cases h
            · cases h

/-- A round of the loop over the extension headers fails when it starts 40 octets behind the
position from which `nextHdrCodePos` was computed. -/
theorem serializeExtensionHeader_fails (nextHdrCodePos start : Nat) (nextType : Int)
    (extHdr : IPv6ExtensionHeader) (stream : ByteOutputStream)
    (hn : (nextHdrCodePos : Int) = ((start : Int) + 6) % 4294967296)
    (hs : stream.bytes.length = start + 40) :
    (∃ e after, serializeExtensionHeader nextHdrCodePos nextType extHdr stream
      = .failed e after) ∧
    (extHdr.byteLength % 8 = 0 → ∀ body,
      serializeExtensionBody
        ((stream.writeByte nextType).writeByte ((extHdr.byteLength - 8) / 8)) extHdr = .ok body →
      serializeExtensionHeader nextHdrCodePos nextType extHdr stream
        = .failed .programmingError body) := by
  have hfail : ∀ body, extHdr.byteLength % 8 = 0 →
      serializeExtensionBody
        ((stream.writeByte nextType).writeByte ((extHdr.byteLength - 8) / 8)) extHdr = .ok body →
      ¬ (((nextHdrCodePos : Int) + extHdr.byteLength) % 4294967296 = body.getPosition) := by
    intro body h8 hbody
    have hl := serializeExtensionBody_length _ _ _ hbody
    simp only [ByteOutputStream.writeByte, List.length_append, List.length_cons, List.length_nil,
      hs] at hl
    simp only [ByteOutputStream.getPosition]
    rcases hl with hl | ⟨n, hl⟩ <;> omega
  constructor
  · unfold serializeExtensionHeader
    split
    · exact ⟨_, _, rfl⟩
    · rename_i h8
      split
      · exact ⟨_, _, rfl⟩
      · rename_i body hbody
        rw [if_neg (hfail body (by omega) hbody)]
        exact ⟨_, _, rfl⟩
  · intro h8 body hbody
    unfold serializeExtensionHeader
    rw [if_neg (by omega), hbody]
    simp only
    rw [if_neg (hfail body h8 hbody)]

/-- C37 (the code departs from the claim): `IPv6HeaderSerializer::serialize` never completes on a
header that carries an extension header.  When the byte length of the first extension header is a
multiple of 8 and its body is written, the `ASSERT` on the stream position behind it fails:
`nextHdrCodePos` is the position of the stream plus 6 at the start of the call, but the 40 octets of
the fixed header lie between that position and the extension header. -/
theorem serialize_fails_with_extension_header (order : ByteOrder) (stream : ByteOutputStream)
    (dgram : IPv6Header) (first : IPv6ExtensionHeader) (rest : List IPv6ExtensionHeader)
    (hext : dgram.extensionHeader = first :: rest) :
    (∃ e after, serialize order stream dgram = .failed e after) ∧
    (first.byteLength % 8 = 0 → ∀ body,
      serializeExtensionBody
        (((IPv4HeaderSerializer.writeOctets stream
          ((ip6h order dgram).take IPv6_HEADER_BYTES)).writeByte
            (nextHeaderType dgram.transportProtocol rest)).writeByte
              ((first.byteLength - 8) / 8)) first
        = .ok body →
      serialize order stream dgram = .failed .programmingError body) := by
  have hlen : (IPv4HeaderSerializer.writeOctets stream
      ((ip6h order dgram).take IPv6_HEADER_BYTES)).bytes.length = stream.bytes.length + 40 := by
    rw [IPv4HeaderSerializer.writeOctets_bytes]
    simp [ip6h_length, IPv6_HEADER_BYTES]
  have hn : ((((stream.getPosition + 6) % 4294967296).toNat : Nat) : Int)
      = ((stream.bytes.length : Int) + 6) % 4294967296 := by
    simp only [ByteOutputStream.getPosition]
    omega
  obtain ⟨⟨e, after, h1⟩, h2⟩ := serializeExtensionHeader_fails _ stream.bytes.length
    (nextHeaderType dgram.transportProtocol rest) first _ hn hlen
  constructor
  · refine ⟨e, after, ?_⟩
    unfold serialize
    rw [hext, serializeExtensionHeaders, h1]
  · intro h8 body hbody
    unfold serialize
    rw [hext, serializeExtensionHeaders, h2 h8 body hbody]

theorem serialize_fails_with_extension_header_witness :
    ∃ e after, serialize .littleEndian ⟨[]⟩
      ⟨0, 0, 64, 17, 16, ⟨0, 0, 0, 1⟩, ⟨0, 0, 0, 2⟩,
        [⟨44, 8, .IPv6FragmentHeader 0 false 7⟩]⟩ = .failed e after :=
  (serialize_fails_with_extension_header .littleEndian ⟨[]⟩
    ⟨0, 0, 64, 17, 16, ⟨0, 0, 0, 1⟩, ⟨0, 0, 0, 2⟩, [⟨44, 8, .IPv6FragmentHeader 0 false 7⟩]⟩
    ⟨44, 8, .IPv6FragmentHeader 0 false 7⟩ [] rfl).1

end IPv6HeaderSerializer

/-! ## Host byte order and the octets on the wire -/

namespace ByteOrder

/-- The octets of a 16 bit member that holds the result of `htons` do not depend on the host. -/
theorem store16_htons (order : ByteOrder) (value : Int) :
    order.store16 (order.htons value) = IPv4HeaderSerializer.htons value := by
  obtain ⟨x, hx, hlt⟩ : ∃ x : Nat, (x : Int) = value % 65536 ∧ x < 65536 :=
    ⟨(value % 65536).toNat, by omega, by omega⟩
  have e1 : (value % 65536).toNat = x := by omega
  have e2 : ((value % 65536) / 256).toNat = x / 256 % 256 := by omega
  have e3 : (value % 256).toNat = x % 256 := by omega
  have h0 : x % 256 < 256 := by omega
  have h1 : x / 256 % 256 < 256 := by omega
  cases order
  · simp only [store16, htons, swap16, IPv4HeaderSerializer.htons, e1, e2, e3]
    generalize x % 256 = b0 at h0 ⊢
    generalize x / 256 % 256 = b1 at h1 ⊢
    simp only [List.cons.injEq, and_true]
    omega
  · simp only [store16, htons, IPv4HeaderSerializer.htons, e1, e2, e3]

/-- The octets of a 32 bit member that holds the result of `htonl` do not depend on the host. -/
theorem store32_htonl (order : ByteOrder) (value : Int) :
    order.store32 (order.htonl value) = IPv4HeaderSerializer.htonl value := by
  obtain ⟨x, hx, hlt⟩ : ∃ x : Nat, (x : Int) = value % 4294967296 ∧ x < 4294967296 :=
    ⟨(value % 4294967296).toNat, by omega, by omega⟩
  have e1 : (value % 4294967296).toNat = x := by omega
  have e2 : ((value % 4294967296) / 16777216).toNat = x / 16777216 % 256 := by omega
  have e3 : ((value % 16777216) / 65536).toNat = x / 65536 % 256 := by omega
  have e4 : ((value % 65536) / 256).toNat = x / 256 % 256 := by omega
  have e5 : (value % 256).toNat = x % 256 := by omega
  have h0 : x % 256 < 256 := by omega
  have h1 : x / 256 % 256 < 256 := by omega
  have h2 : x / 65536 % 256 < 256 := by omega
  have h3 : x / 16777216 % 256 < 256 := by omega
  cases order
  · simp only [store32, htonl, swap32, IPv4HeaderSerializer.htonl, e1, e2, e3, e4, e5]
    generalize x % 256 = b0 at h0 ⊢
    generalize x / 256 % 256 = b1 at h1 ⊢
    generalize x / 65536 % 256 = b2 at h2 ⊢
    generalize x / 16777216 % 256 = b3 at h3 ⊢
    simp only [List.cons.injEq, and_true]
    omega
  · simp only [store32, htonl, IPv4HeaderSerializer.htonl, e1, e2, e3, e4, e5]

/-- `ntohs` of a 16 bit member gives the value its octets stand for in network byte order. -/
theorem ntohs_load16 (order : ByteOrder) (b0 b1 : Nat) (h0 : b0 < 256) (h1 : b1 < 256) :
    order.ntohs ((order.load16 b0 b1 : Nat) : Int) = b0 * 256 + b1 := by
  cases order <;> simp only [ntohs, load16, swap16] <;> omega

/-- `ntohl` of a 32 bit member gives the value its octets stand for in network byte order. -/
theorem ntohl_load32 (order : ByteOrder) (b0 b1 b2 b3 : Nat) (h0 : b0 < 256) (h1 : b1 < 256)
    (h2 : b2 < 256) (h3 : b3 < 256) :
    order.ntohl ((order.load32 b0 b1 b2 b3 : Nat) : Int)
      = b0 * 16777216 + b1 * 65536 + b2 * 256 + b3 := by
  cases order <;> simp only [ntohl, load32, swap32] <;> omega

end ByteOrder

namespace ByteInputStream

/-- Reading a whole input into a buffer. -/
theorem readBuffer_all (bs : List Nat) (count : Nat) (h : bs.length = count) :
    (ByteInputStream.mk bs 0).readBuffer count = .ok (bs, ⟨bs, (count : Int)⟩) := by
  have hloop := BytesChunkSerializer.readLoop_reads bs count 0 [] (by omega)
  simp only [Nat.cast_zero, List.drop_zero, List.nil_append, zero_add] at hloop
  rw [readBuffer, hloop, ← h, List.take_length]

end ByteInputStream

/-- A mask of the `n` low bits keeps the value modulo `2 ^ n`. -/
theorem and_mask (x n mask : Nat) (h : mask = 2 ^ n - 1) : x &&& mask = x % 2 ^ n := by
  rw [h, Nat.and_pow_two_sub_one_eq_mod]

/-- A mask of one bit keeps that bit. -/
theorem and_bit (x i bit : Nat) (h : bit = 2 ^ i) : x &&& bit = x / 2 ^ i % 2 * 2 ^ i := by
  rw [h, Nat.and_two_pow, Nat.toNat_testBit]

/-- Bits or-ed in below the lowest bit of a value are added to it. -/
theorem or_low (a b i : Nat) (hb : b < 2 ^ i) (ha : a % 2 ^ i = 0) : a ||| b = a + b := by
  have e : a = 2 ^ i * (a / 2 ^ i) := by
    have := Nat.div_add_mod a (2 ^ i)
    omega
  rw [e, ← Nat.mul_add_lt_is_or hb]

namespace ByteOrder

/-- A 32 bit value comes back from the four octets `htonl` leaves in memory. -/
theorem ntohl_load32_htonl (order : ByteOrder) (value : Int) (h0 : 0 ≤ value)
    (h1 : value < 4294967296) :
    order.ntohl ((order.load32 ((value % 4294967296) / 16777216).toNat
      ((value % 16777216) / 65536).toNat ((value % 65536) / 256).toNat
      (value % 256).toNat : Nat) : Int) = value.toNat := by
  obtain ⟨x, rfl⟩ := Int.eq_ofNat_of_zero_le h0
  have e2 : (((x : Int) % 4294967296) / 16777216).toNat = x / 16777216 % 256 := by omega
  have e3 : (((x : Int) % 16777216) / 65536).toNat = x / 65536 % 256 := by omega
  have e4 : (((x : Int) % 65536) / 256).toNat = x / 256 % 256 := by omega
  have e5 : ((x : Int) % 256).toNat = x % 256 := by omega
  rw [e2, e3, e4, e5, ntohl_load32 order _ _ _ _ (by omega) (by omega) (by omega) (by omega)]
  simp only [Int.toNat_ofNat]
  omega

/-- A 16 bit value comes back from the two octets `htons` leaves in memory. -/
theorem ntohs_load16_htons (order : ByteOrder) (value : Int) (h0 : 0 ≤ value)
    (h1 : value < 65536) :
    order.ntohs ((order.load16 ((value % 65536) / 256).toNat (value % 256).toNat : Nat) : Int)
      = value.toNat := by
  obtain ⟨x, rfl⟩ := Int.eq_ofNat_of_zero_le h0
  have e4 : (((x : Int) % 65536) / 256).toNat = x / 256 % 256 := by omega
  have e5 : ((x : Int) % 256).toNat = x % 256 := by omega
  rw [e4, e5, ntohs_load16 order _ _ (by omega) (by omega)]
  simp only [Int.toNat_ofNat]
  omega

end ByteOrder

/-! ## Claims about `IPv4HeaderSerializer::deserialize` -/

namespace IPv4HeaderSerializer

/-- Octets below 256 are written as they are. -/
theorem writeOctets_octets : ∀ (octets : List Nat) (stream : ByteOutputStream),
    (∀ o ∈ octets, o < 256) →
    writeOctets stream octets = ⟨stream.bytes ++ octets⟩
  | [], stream, _ => by simp [writeOctets]
  | octet :: octets, stream, h => by
    have ho := h octet (List.mem_cons_self _ _)
    have e : ((octet : Int) % 256).toNat = octet := by omega
    rw [writeOctets,
      writeOctets_octets octets _ fun o hm => h o (List.mem_cons_of_mem _ hm)]
    simp only [ByteOutputStream.writeByte, e, List.append_assoc, List.singleton_append]

theorem htonl_octets (value : Int) : ∀ o ∈ htonl value, o < 256 := by
  intro o ho
  simp only [htonl, List.mem_cons, List.mem_singleton, List.not_mem_nil,
    or_false] at ho
  rcases ho with rfl | rfl | rfl | rfl <;> omega

theorem htons_octets (value : Int) : ∀ o ∈ htons value, o < 256 := by
  intro o ho
  simp only [htons, List.mem_cons, List.mem_singleton, List.not_mem_nil,
    or_false] at ho
  rcases ho with rfl | rfl <;> omega

/-- Bits or-ed in above the highest bit of a value are added to it. -/
theorem or_high (x m i : Nat) (hx : x < 2 ^ i) (hm : m % 2 ^ i = 0) : x ||| m = x + m := by
  rw [Nat.lor_comm, or_low m x i hx hm, Nat.add_comm]

/-- The fragment offset and the two flags are read back from `ip_off`. -/
theorem ip_off_bits (x : Nat) (hx : x < 8192) (mf df : Bool) :
    ((x ||| (if mf then IP_MF else 0)) ||| (if df then IP_DF else 0)) < 65536 ∧
    ((x ||| (if mf then IP_MF else 0)) ||| (if df then IP_DF else 0)) &&& IP_OFFMASK = x ∧
    ((((x ||| (if mf then IP_MF else 0)) ||| (if df then IP_DF else 0)) &&& IP_MF) != 0) = mf ∧
    ((((x ||| (if mf then IP_MF else 0)) ||| (if df then IP_DF else 0)) &&& IP_DF) != 0)
      = df := by
  have hm : (if mf then IP_MF else 0) = if mf then 8192 else 0 := by cases mf <;> rfl
  have hd : (if df then IP_DF else 0) = if df then 16384 else 0 := by cases df <;> rfl
  have hm0 : (if mf then 8192 else 0) = 0 ∨ (if mf then 8192 else 0) = 8192 := by
    cases mf <;> simp
  have hd0 : (if df then 16384 else 0) = 0 ∨ (if df then 16384 else 0) = 16384 := by
    cases df <;> simp
  have e1 : x ||| (if mf then 8192 else 0) = x + (if mf then 8192 else 0) :=
    or_high x _ 13 (by omega) (by omega)
  have e2 : (x + (if mf then 8192 else 0)) ||| (if df then 16384 else 0)
      = x + (if mf then 8192 else 0) + (if df then 16384 else 0) :=
    or_high _ _ 14 (by omega) (by omega)
  rw [hm, hd, e1, e2, and_mask _ 13 IP_OFFMASK (by decide), and_bit _ 13 IP_MF (by decide),
    and_bit _ 14 IP_DF (by decide)]
  refine ⟨by omega, by omega, ?_, ?_⟩
  · cases mf
    · have : (x + (if false then 8192 else 0) + (if df then 16384 else 0)) / 2 ^ 13 % 2 * 2 ^ 13
          = 0 := by
        simp only [Bool.false_eq_true, if_false]
        omega
      rw [this]
      rfl
    · have : (x + (if true then 8192 else 0) + (if df then 16384 else 0)) / 2 ^ 13 % 2 * 2 ^ 13
          = 8192 := by
        simp only [if_true]
        omega
      rw [this]
      rfl
  · cases df
    · have : (x + (if mf then 8192 else 0) + (if false then 16384 else 0)) / 2 ^ 14 % 2 * 2 ^ 14
          = 0 := by
        simp only [Bool.false_eq_true, if_false]
        omega
      rw [this]
      rfl
    · have : (x + (if mf then 8192 else 0) + (if true then 16384 else 0)) / 2 ^ 14 % 2 * 2 ^ 14
          = 16384 := by
        simp only [if_true]
        omega
      rw [this]
      rfl

theorem iphdr_octet_range (ipv4Header : IPv4Header) : ∀ o ∈ iphdr ipv4Header, o < 256 := by
  intro o ho
  simp only [iphdr, htons, htonl, List.cons_append, List.nil_append, List.append_assoc,
    List.mem_cons, List.mem_singleton, List.not_mem_nil, or_false] at ho
  rcases ho with rfl | rfl | rfl | rfl | rfl | rfl | rfl | rfl | rfl | rfl | rfl | rfl | rfl |
    rfl | rfl | rfl | rfl | rfl | rfl | rfl <;> omega

/-- The first octet of `iphdr`: the version and the header length in words. -/
theorem iphdr_first_octet (ipv4Header : IPv4Header) :
    (iphdr ipv4Header).getD 0 0
      = ((ipv4Header.version % 16) * 16
          + (ipv4Header.headerLength % 4294967296 / 4) % 16).toNat :=
  rfl

/-- On an input of 20 octets whose header length is 20, `deserialize` returns the header read from
them, without options. -/
theorem deserialize_iphdr (order : ByteOrder) (octets : List Nat) (h : octets.length = 20)
    (hhl : headerLengthOf octets = 20) :
    deserialize order ⟨octets, 0⟩
      = .ok (⟨fromBuffer order octets, [], decide ((octets.getD 0 0 % 16) <<< 2 < 20)⟩,
          ⟨octets, 20⟩) := by
  have hr := ByteInputStream.readBuffer_all octets 20 h
  have hgt : ¬ (20 > 20) := by decide
  unfold deserialize
  simp only [IP_HEADER_BYTES]
  rw [hr]
  simp only [hhl, hgt, if_false]
  rfl

/-- C34 (the code departs from the claim): for every IPv4 header without options (header length
20) with CRC mode `CRC_COMPUTED`, a fragment offset that is a multiple of 8 below 65536 and every
field within its wire width, `serialize` writes 20 octets and `deserialize` of these octets
returns a header without options that has the same version, type of service, identification,
flags, fragment offset, time to live, transport protocol, addresses, total length field and header
length, but on a little-endian host not the same CRC: `ip_sum` is written through `htons` and read
without `ntohs`, so the CRC comes back with its two octets swapped.  On a big-endian host the CRC
comes back as it was. -/
theorem deserialize_swaps_crc (order : ByteOrder) (ipv4Header : IPv4Header)
    (hlen : ipv4Header.headerLength = 20) (hmode : ipv4Header.crcMode = .CRC_COMPUTED)
    (hfo : 0 ≤ ipv4Header.fragmentOffset ∧ ipv4Header.fragmentOffset < 65536 ∧
      ipv4Header.fragmentOffset % 8 = 0)
    (hv : 0 ≤ ipv4Header.version ∧ ipv4Header.version < 16)
    (htos : 0 ≤ ipv4Header.typeOfService ∧ ipv4Header.typeOfService < 256)
    (hid : 0 ≤ ipv4Header.identification ∧ ipv4Header.identification < 65536)
    (httl : 0 ≤ ipv4Header.timeToLive ∧ ipv4Header.timeToLive < 256)
    (hp : 0 ≤ ipv4Header.transportProtocol ∧ ipv4Header.transportProtocol < 256)
    (hsrc : 0 ≤ ipv4Header.srcAddress ∧ ipv4Header.srcAddress < 4294967296)
    (hdst : 0 ≤ ipv4Header.destAddress ∧ ipv4Header.destAddress < 4294967296)
    (htl : 0 ≤ ipv4Header.totalLengthField ∧ ipv4Header.totalLengthField < 65536)
    (hcrc : 0 ≤ ipv4Header.crc ∧ ipv4Header.crc < 65536) :
    ∃ octets, octets.length = 20 ∧ serialize ⟨[]⟩ ipv4Header = .ok ⟨octets⟩ ∧
      deserialize order ⟨octets, 0⟩
        = .ok (⟨{ ipv4Header with
                  crc := order.withoutNtohs ipv4Header.crc }, [], false⟩, ⟨octets, 20⟩) := by
  obtain ⟨headerLength, version, typeOfService, identification, fragmentOffset, moreFragments,
    dontFragment, timeToLive, transportProtocol, srcAddress, destAddress, totalLengthField,
    crcMode, crc⟩ := ipv4Header
  simp only at hlen hmode hfo hv htos hid httl hp hsrc hdst htl hcrc ⊢
  subst hlen hmode
  have e5 : ((version % 16) * 16 + ((20 : Int) % 4294967296 / 4) % 16).toNat % 16 = 5 := by
    omega
  have ev : ((((version % 16) * 16 + ((20 : Int) % 4294967296 / 4) % 16).toNat / 16 % 16 : Nat)
      : Int) = version := by
    omega
  have etos : (((typeOfService % 256).toNat : Nat) : Int) = typeOfService := by omega
  have ettl : (((timeToLive % 256).toNat : Nat) : Int) = timeToLive := by omega
  have ep : (((transportProtocol % 256).toNat : Nat) : Int) = transportProtocol := by omega
  have eid : ((identification.toNat : Nat) : Int) = identification := by omega
  have etl : ((totalLengthField.toNat : Nat) : Int) = totalLengthField := by omega
  have esrc : ((srcAddress.toNat : Nat) : Int) = srcAddress := by omega
  have edst : ((destAddress.toNat : Nat) : Int) = destAddress := by omega
  have hx : ((fragmentOffset / 8) % 65536).toNat < 8192 := by omega
  have efo : (((((fragmentOffset / 8) % 65536).toNat * 8 : Nat)) : Int) = fragmentOffset := by
    omega
  have h1 : ¬ ((20 : Int) % 4294967296 % 4 ≠ 0) := by omega
  have h2 : ¬ (fragmentOffset % 8 ≠ 0) := by omega
  have h4 : ¬ ((IP_HEADER_BYTES : Int) < (20 : Int) % 4294967296) := by
    simp only [IP_HEADER_BYTES]
    omega
  have ecrc : ((order.load16 ((crc % 65536) / 256).toNat (crc % 256).toNat : Nat) : Int)
      = order.withoutNtohs crc := by
    obtain ⟨c, rfl⟩ := Int.eq_ofNat_of_zero_le hcrc.1
    have e1 : (((c : Int) % 65536) / 256).toNat = c / 256 % 256 := by omega
    have e2 : ((c : Int) % 256).toNat = c % 256 := by omega
    cases order
    · simp only [ByteOrder.withoutNtohs, ByteOrder.load16, ByteOrder.swap16, e1, e2,
        Int.toNat_ofNat]
    · simp only [ByteOrder.withoutNtohs, ByteOrder.load16, e1, e2]
      omega
  clear hfo hv htos httl hp hcrc
  obtain ⟨o1, o2, o3, o4⟩ := ip_off_bits ((fragmentOffset / 8) % 65536).toNat hx
    moreFragments dontFragment
  have hoff : ∀ off : Nat, off < 65536 →
      order.ntohs ((order.load16 ((((off : Nat) : Int) % 65536) / 256).toNat
        (((off : Nat) : Int) % 256).toNat : Nat) : Int) = off := by
    intro off hlt
    rw [ByteOrder.ntohs_load16_htons order _ (Int.ofNat_zero_le _) (by omega)]
    exact Int.toNat_ofNat _
  have key : ∀ X : Nat, X < 65536 →
      X &&& IP_OFFMASK = ((fragmentOffset / 8) % 65536).toNat →
      ((X &&& IP_MF) != 0) = moreFragments → ((X &&& IP_DF) != 0) = dontFragment →
      (((order.ntohs
          ((order.load16 (((X : Int) % 65536) / 256).toNat ((X : Int) % 256).toNat : Nat) : Int)
        &&& IP_OFFMASK) * 8 : Nat) : Int) = fragmentOffset ∧
      ((order.ntohs
          ((order.load16 (((X : Int) % 65536) / 256).toNat ((X : Int) % 256).toNat : Nat) : Int)
        &&& IP_MF) != 0) = moreFragments ∧
      ((order.ntohs
          ((order.load16 (((X : Int) % 65536) / 256).toNat ((X : Int) % 256).toNat : Nat) : Int)
        &&& IP_DF) != 0) = dontFragment := by
    intro X x1 x2 x3 x4
    rw [hoff X x1, x2, x3, x4]
    exact ⟨efo, rfl, rfl⟩
  obtain ⟨k1, k2, k3⟩ := key _ o1 o2 o3 o4
  have hhl : headerLengthOf (iphdr ⟨20, version, typeOfService, identification, fragmentOffset,
      moreFragments, dontFragment, timeToLive, transportProtocol, srcAddress, destAddress,
      totalLengthField, .CRC_COMPUTED, crc⟩) = 20 := by
    rw [headerLengthOf, iphdr_first_octet, e5]
    decide
  have hmark : decide (((iphdr ⟨20, version, typeOfService, identification, fragmentOffset,
      moreFragments, dontFragment, timeToLive, transportProtocol, srcAddress, destAddress,
      totalLengthField, .CRC_COMPUTED, crc⟩).getD 0 0 % 16) <<< 2 < 20) = false := by
    rw [iphdr_first_octet, e5]
    decide
  have hfields : fromBuffer order (iphdr ⟨20, version, typeOfService, identification,
      fragmentOffset, moreFragments, dontFragment, timeToLive, transportProtocol, srcAddress,
      destAddress, totalLengthField, .CRC_COMPUTED, crc⟩)
      = ⟨20, version, typeOfService, identification, fragmentOffset, moreFragments,
          dontFragment, timeToLive, transportProtocol, srcAddress, destAddress,
          totalLengthField, .CRC_COMPUTED, order.withoutNtohs crc⟩ := by
    rw [fromBuffer, IPv4Header.mk.injEq]
    refine ⟨?_, ?_, ?_, ?_, ?_, ?_, ?_, ?_, ?_, ?_, ?_, ?_, rfl, ?_⟩
    · rw [hhl]
      rfl
    · exact ev
    · exact etos
    · change ((order.ntohs ((order.load16 ((identification % 65536) / 256).toNat
        (identification % 256).toNat : Nat) : Int) : Nat) : Int) = identification
      rw [ByteOrder.ntohs_load16_htons order _ hid.1 hid.2]
      exact eid
    · exact k1
    · exact k2
    · exact k3
    · exact ettl
    · exact ep
    · change ((order.ntohl ((order.load32 ((srcAddress % 4294967296) / 16777216).toNat
        ((srcAddress % 16777216) / 65536).toNat ((srcAddress % 65536) / 256).toNat
        (srcAddress % 256).toNat : Nat) : Int) : Nat) : Int) = srcAddress
      rw [ByteOrder.ntohl_load32_htonl order _ hsrc.1 hsrc.2]
      exact esrc
    · change ((order.ntohl ((order.load32 ((destAddress % 4294967296) / 16777216).toNat
        ((destAddress % 16777216) / 65536).toNat ((destAddress % 65536) / 256).toNat
        (destAddress % 256).toNat : Nat) : Int) : Nat) : Int) = destAddress
      rw [ByteOrder.ntohl_load32_htonl order _ hdst.1 hdst.2]
      exact edst
    · change ((order.ntohs ((order.load16 ((totalLengthField % 65536) / 256).toNat
        (totalLengthField % 256).toNat : Nat) : Int) : Nat) : Int) = totalLengthField
      rw [ByteOrder.ntohs_load16_htons order _ htl.1 htl.2]
      exact etl
    · exact ecrc
  refine ⟨iphdr ⟨20, version, typeOfService, identification, fragmentOffset, moreFragments,
    dontFragment, timeToLive, transportProtocol, srcAddress, destAddress, totalLengthField,
    .CRC_COMPUTED, crc⟩, iphdr_length _, ?_, ?_⟩
  · have h3 : ¬ (CrcMode.CRC_COMPUTED ≠ CrcMode.CRC_COMPUTED) := by simp
    unfold serialize
    rw [if_neg h1, if_neg h2, if_neg h3, if_neg h4,
      List.take_of_length_le (by rw [iphdr_length]; decide),
      writeOctets_octets _ _ (iphdr_octet_range _)]
    rfl
  · rw [deserialize_iphdr order _ (iphdr_length _) hhl, hfields, hmark]

theorem deserialize_swaps_crc_witness :
    ∃ octets, octets.length = 20 ∧
      serialize ⟨[]⟩ ⟨20, 4, 0, 1, 0, false, true, 64, 17, 1, 2, 28, .CRC_COMPUTED, 4660⟩
        = .ok ⟨octets⟩ ∧
      deserialize .littleEndian ⟨octets, 0⟩
        = .ok (⟨⟨20, 4, 0, 1, 0, false, true, 64, 17, 1, 2, 28, .CRC_COMPUTED, 13330⟩, [],
            false⟩, ⟨octets, 20⟩) :=
  deserialize_swaps_crc .littleEndian
    ⟨20, 4, 0, 1, 0, false, true, 64, 17, 1, 2, 28, .CRC_COMPUTED, 4660⟩ rfl rfl (by decide)
    (by decide) (by decide) (by decide) (by decide) (by decide) (by decide) (by decide)
    (by decide) (by decide)

end IPv4HeaderSerializer

/-! ## Claims about `IPv6HeaderSerializer`: the fixed header -/

namespace IPv6HeaderSerializer

/-- The octets of `ip6h`, member by member. -/
theorem ip6h_octets (order : ByteOrder) (dgram : IPv6Header) :
    ip6h order dgram
      = IPv4HeaderSerializer.htonl (flowinfo dgram)
        ++ IPv4HeaderSerializer.htons dgram.payloadLength
        ++ [(nextHeaderType dgram.transportProtocol dgram.extensionHeader % 256).toNat,
            order.htons dgram.hopLimit % 256]
        ++ (IPv4HeaderSerializer.htonl dgram.srcAddress.d0
          ++ IPv4HeaderSerializer.htonl dgram.srcAddress.d1
          ++ IPv4HeaderSerializer.htonl dgram.srcAddress.d2
          ++ IPv4HeaderSerializer.htonl dgram.srcAddress.d3)
        ++ (IPv4HeaderSerializer.htonl dgram.destAddress.d0
          ++ IPv4HeaderSerializer.htonl dgram.destAddress.d1
          ++ IPv4HeaderSerializer.htonl dgram.destAddress.d2
          ++ IPv4HeaderSerializer.htonl dgram.destAddress.d3) := by
  simp only [ip6h, addressOctets, ByteOrder.store32_htonl, ByteOrder.store16_htons]

theorem ip6h_octet_range (order : ByteOrder) (dgram : IPv6Header) :
    ∀ o ∈ ip6h order dgram, o < 256 := by
  intro o ho
  rw [ip6h_octets] at ho
  simp only [List.mem_append, List.mem_cons, List.mem_singleton, List.not_mem_nil, or_false]
    at ho
  rcases ho with (((ho | ho) | (rfl | rfl)) | (((ho | ho) | ho) | ho)) |
    (((ho | ho) | ho) | ho)
  all_goals first
    | exact IPv4HeaderSerializer.htonl_octets _ o ho
    | exact IPv4HeaderSerializer.htons_octets _ o ho
    | omega

/-- Without extension headers `serialize` completes and appends the 40 octets of `ip6h`. -/
theorem serialize_ip6h (order : ByteOrder) (stream : ByteOutputStream) (dgram : IPv6Header)
    (hext : dgram.extensionHeader = []) :
    serialize order stream dgram = .ok ⟨stream.bytes ++ ip6h order dgram⟩ := by
  have ht : (ip6h order dgram).take IPv6_HEADER_BYTES = ip6h order dgram :=
    List.take_of_length_le (by rw [ip6h_length]; decide)
  unfold serialize
  rw [hext, ht, serializeExtensionHeaders,
    IPv4HeaderSerializer.writeOctets_octets _ stream (ip6h_octet_range order dgram)]

/-- On an input of 40 octets `deserialize` returns the header read from them. -/
theorem deserialize_ip6h (order : ByteOrder) (octets : List Nat) (h : octets.length = 40) :
    deserialize order ⟨octets, 0⟩ = .ok (fromBuffer order octets, ⟨octets, 40⟩) := by
  have hr := ByteInputStream.readBuffer_all octets 40 h
  simp only [deserialize, IPv6_HEADER_BYTES, hr]
  rfl

/-- The low octet of `htons` of a value below 256: nothing on a little-endian host. -/
theorem htons_low_octet (order : ByteOrder) (hl : Nat) (h : hl ≤ 255) :
    order.htons (hl : Int) % 256 = (match order with
      | .littleEndian => 0
      | .bigEndian => hl) := by
  have e1 : ((hl : Int) % 65536).toNat = hl := by omega
  cases order
  · simp only [ByteOrder.htons, ByteOrder.swap16, e1]
    have e2 : hl % 256 = hl := by omega
    have e3 : hl / 256 % 256 = 0 := by omega
    rw [e2, e3]
    omega
  · simp only [ByteOrder.htons, e1]
    omega

/-- `ntohs` of an 8 bit member that holds the low octet of `htons` of a value below 256. -/
theorem ntohs_low_octet (order : ByteOrder) (hl : Nat) (h : hl ≤ 255) :
    order.ntohs ((order.htons (hl : Int) % 256 : Nat) : Int) = (match order with
      | .littleEndian => 0
      | .bigEndian => hl) := by
  rw [htons_low_octet order hl h]
  cases order
  · simp [ByteOrder.ntohs, ByteOrder.swap16]
  · have e1 : ((hl : Int) % 65536).toNat = hl := by omega
    simp only [ByteOrder.ntohs, e1]

/-- C35 (the code departs from the claim): for a header without extension headers and with a hop
limit in `[0, 255]`, `serialize` writes 40 octets; on a little-endian host octet 7 is 0, not the
hop limit, because the 8 bit member `ip6_hlim` receives the low octet of `htons(hop limit)`, and
`deserialize` of the 40 octets returns the hop limit 0.  On a big-endian host octet 7 is the hop
limit and `deserialize` returns it. -/
theorem hop_limit_lost_on_little_endian_host (order : ByteOrder) (stream : ByteOutputStream)
    (dgram : IPv6Header) (hext : dgram.extensionHeader = [])
    (hh : 0 ≤ dgram.hopLimit ∧ dgram.hopLimit ≤ 255) :
    ∃ octets, octets.length = 40 ∧ serialize order stream dgram = .ok ⟨stream.bytes ++ octets⟩ ∧
      octets[7]? = some (match order with
        | .littleEndian => 0
        | .bigEndian => dgram.hopLimit.toNat) ∧
      ∃ header, deserialize order ⟨octets, 0⟩ = .ok (header, ⟨octets, 40⟩) ∧
        header.hopLimit = (match order with
          | .littleEndian => 0
          | .bigEndian => dgram.hopLimit) := by
  obtain ⟨hl, hhl⟩ := Int.eq_ofNat_of_zero_le hh.1
  have hle : hl ≤ 255 := by omega
  have h7 : (ip6h order dgram)[7]? = some (order.htons dgram.hopLimit % 256) := by
    rw [ip6h_octets]
    rfl
  have h7d : (ip6h order dgram).getD 7 0 = order.htons dgram.hopLimit % 256 := by
    rw [ip6h_octets]
    rfl
  refine ⟨ip6h order dgram, ip6h_length order dgram, serialize_ip6h order stream dgram hext,
    ?_, fromBuffer order (ip6h order dgram),
    deserialize_ip6h order _ (ip6h_length order dgram), ?_⟩
  · rw [h7, hhl, htons_low_octet order hl hle]
    cases order <;> simp
  · simp only [fromBuffer, h7d]
    rw [hhl, ntohs_low_octet order hl hle]
    cases order <;> simp

theorem hop_limit_lost_on_little_endian_host_witness :
    ∃ octets, octets.length = 40 ∧
      serialize .littleEndian ⟨[]⟩ ⟨0, 0, 64, 17, 16, ⟨0, 0, 0, 1⟩, ⟨0, 0, 0, 2⟩, []⟩
        = .ok ⟨[] ++ octets⟩ ∧
      octets[7]? = some 0 ∧
      ∃ header, deserialize .littleEndian ⟨octets, 0⟩ = .ok (header, ⟨octets, 40⟩) ∧
        header.hopLimit = 0 :=
  hop_limit_lost_on_little_endian_host .littleEndian ⟨[]⟩
    ⟨0, 0, 64, 17, 16, ⟨0, 0, 0, 1⟩, ⟨0, 0, 0, 2⟩, []⟩ rfl (by decide)

/-- The value of `flowinfo` for a traffic class of 8 bits and a flow label of 20 bits. -/
theorem flowinfo_value (dgram : IPv6Header) (t f : Nat) (ht : dgram.trafficClass = (t : Int))
    (hf : dgram.flowLabel = (f : Int)) (htr : t ≤ 255) (hfr : f < 1048576) :
    flowinfo dgram = 6 * 268435456 + t * 1048576 + f := by
  have e1 : ((t : Int) % 4294967296).toNat = t := by omega
  have e2 : ((f : Int) % 4294967296).toNat = f := by omega
  have e3 : (0x06 <<< 8) % 4294967296 = 1536 := by decide
  have e4 : 1536 ||| t = 1536 + t := or_low 1536 t 8 (by omega) (by decide)
  have e5 : ((1536 + t) <<< 20) % 4294967296 = (1536 + t) * 1048576 := by
    rw [Nat.shiftLeft_eq]
    omega
  have e6 : (1536 + t) * 1048576 ||| f = (1536 + t) * 1048576 + f :=
    or_low _ f 20 (by omega) (by omega)
  unfold flowinfo
  rw [ht, hf, e1, e2, e3, e4, e5, e6]
  omega

/-- A word written by `htonl` is read back by `ntohl`. -/
theorem word_read_back (order : ByteOrder) (value : Nat) (h : value < 4294967296) :
    order.ntohl ((order.load32 (((value : Int) % 4294967296) / 16777216).toNat
      (((value : Int) % 16777216) / 65536).toNat (((value : Int) % 65536) / 256).toNat
      ((value : Int) % 256).toNat : Nat) : Int) = value := by
  rw [ByteOrder.ntohl_load32_htonl order (value : Int) (by omega) (by omega)]
  simp

/-- The words `deserialize` reads from the octets of `ip6h`. -/
theorem wordOf_ip6h (order : ByteOrder) (dgram : IPv6Header)
    (hsrc : dgram.srcAddress.isUint32) (hdst : dgram.destAddress.isUint32)
    (hflow : flowinfo dgram < 4294967296) :
    wordOf order (ip6h order dgram) 0 = flowinfo dgram ∧
    (wordOf order (ip6h order dgram) 8 = dgram.srcAddress.d0 ∧
      wordOf order (ip6h order dgram) 12 = dgram.srcAddress.d1 ∧
      wordOf order (ip6h order dgram) 16 = dgram.srcAddress.d2 ∧
      wordOf order (ip6h order dgram) 20 = dgram.srcAddress.d3) ∧
    (wordOf order (ip6h order dgram) 24 = dgram.destAddress.d0 ∧
      wordOf order (ip6h order dgram) 28 = dgram.destAddress.d1 ∧
      wordOf order (ip6h order dgram) 32 = dgram.destAddress.d2 ∧
      wordOf order (ip6h order dgram) 36 = dgram.destAddress.d3) := by
  rw [ip6h_octets]
  exact ⟨word_read_back order _ hflow,
    ⟨word_read_back order _ hsrc.1, word_read_back order _ hsrc.2.1,
      word_read_back order _ hsrc.2.2.1, word_read_back order _ hsrc.2.2.2⟩,
    ⟨word_read_back order _ hdst.1, word_read_back order _ hdst.2.1,
      word_read_back order _ hdst.2.2.1, word_read_back order _ hdst.2.2.2⟩⟩

/-- C36 (counterexample): a header without extension headers whose transport protocol is 273 is
serialized to 40 octets of which octet 6 is 17, and `deserialize` of these octets returns the
transport protocol 17. -/
theorem transport_protocol_truncated :
    serialize .bigEndian ⟨[]⟩ ⟨0, 0, 0, 273, 0, ⟨0, 0, 0, 1⟩, ⟨0, 0, 0, 2⟩, []⟩
      = .ok ⟨[96, 0, 0, 0, 0, 0, 17, 0, 0, 0, 0, 0, 0, 0, 0, 0, 0, 0, 0, 0, 0, 0, 0, 1,
          0, 0, 0, 0, 0, 0, 0, 0, 0, 0, 0, 0, 0, 0, 0, 2]⟩ ∧
    deserialize .bigEndian ⟨[96, 0, 0, 0, 0, 0, 17, 0, 0, 0, 0, 0, 0, 0, 0, 0, 0, 0, 0, 0, 0, 0,
        0, 1, 0, 0, 0, 0, 0, 0, 0, 0, 0, 0, 0, 0, 0, 0, 0, 2], 0⟩
      = .ok (⟨0, 0, 0, 17, 0, ⟨0, 0, 0, 1⟩, ⟨0, 0, 0, 2⟩, []⟩,
          ⟨[96, 0, 0, 0, 0, 0, 17, 0, 0, 0, 0, 0, 0, 0, 0, 0, 0, 0, 0, 0, 0, 0, 0, 1,
            0, 0, 0, 0, 0, 0, 0, 0, 0, 0, 0, 0, 0, 0, 0, 2], 40⟩) := by
  constructor
  · rfl
  · rfl

/-- C36 (amended): for every IPv6 header without extension headers, with traffic class in
`[0, 255]`, flow label in `[0, 2^20)` and transport protocol in `[0, 255]`, on a host of either
byte order: `serialize` writes exactly 40 octets whose first four are the big-endian encoding of
`6 * 2^28 + trafficClass * 2^20 + flowLabel`, and `deserialize` of those 40 octets returns a header
with the same traffic class, flow label, source address, destination address and transport
protocol.  The words of the addresses are 32 bit values. -/
theorem serialize_deserialize_flow (order : ByteOrder) (stream : ByteOutputStream)
    (dgram : IPv6Header) (hext : dgram.extensionHeader = [])
    (htc : 0 ≤ dgram.trafficClass ∧ dgram.trafficClass ≤ 255)
    (hfl : 0 ≤ dgram.flowLabel ∧ dgram.flowLabel < 1048576)
    (htp : 0 ≤ dgram.transportProtocol ∧ dgram.transportProtocol ≤ 255)
    (hsrc : dgram.srcAddress.isUint32) (hdst : dgram.destAddress.isUint32) :
    ∃ octets, octets.length = 40 ∧ serialize order stream dgram = .ok ⟨stream.bytes ++ octets⟩ ∧
      octets.take 4
        = [((6 * 268435456 + dgram.trafficClass * 1048576 + dgram.flowLabel) / 16777216).toNat,
            ((6 * 268435456 + dgram.trafficClass * 1048576 + dgram.flowLabel) / 65536
              % 256).toNat,
            ((6 * 268435456 + dgram.trafficClass * 1048576 + dgram.flowLabel) / 256
              % 256).toNat,
            ((6 * 268435456 + dgram.trafficClass * 1048576 + dgram.flowLabel) % 256).toNat] ∧
      ∃ header, deserialize order ⟨octets, 0⟩ = .ok (header, ⟨octets, 40⟩) ∧
        header.trafficClass = dgram.trafficClass ∧ header.flowLabel = dgram.flowLabel ∧
        header.srcAddress = dgram.srcAddress ∧ header.destAddress = dgram.destAddress ∧
        header.transportProtocol = dgram.transportProtocol := by
  obtain ⟨t, ht⟩ := Int.eq_ofNat_of_zero_le htc.1
  obtain ⟨f, hf⟩ := Int.eq_ofNat_of_zero_le hfl.1
  obtain ⟨p, hp⟩ := Int.eq_ofNat_of_zero_le htp.1
  have hflow := flowinfo_value dgram t f ht hf (by omega) (by omega)
  obtain ⟨w0, ⟨s0, s1, s2, s3⟩, ⟨d0, d1, d2, d3⟩⟩ :=
    wordOf_ip6h order dgram hsrc hdst (by omega)
  have h6 : (ip6h order dgram).getD 6 0 = (dgram.transportProtocol % 256).toNat := by
    rw [ip6h_octets, hext]
    rfl
  have h4 : (ip6h order dgram).take 4 = IPv4HeaderSerializer.htonl (flowinfo dgram) := by
    rw [ip6h_octets]
    rfl
  refine ⟨ip6h order dgram, ip6h_length order dgram, serialize_ip6h order stream dgram hext,
    ?_, fromBuffer order (ip6h order dgram),
    deserialize_ip6h order _ (ip6h_length order dgram), ?_, ?_, ?_, ?_, ?_⟩
  · rw [h4, hflow, ht, hf]
    simp only [IPv4HeaderSerializer.htonl, List.cons.injEq, and_true]
    refine ⟨?_, ?_, ?_, ?_⟩ <;> omega
  · simp only [fromBuffer, w0, hflow, ht]
    rw [and_mask _ 8 0xFF (by decide), Nat.shiftRight_eq_div_pow]
    have : (6 * 268435456 + t * 1048576 + f) / 2 ^ 20 % 2 ^ 8 = t := by omega
    rw [this]
  · simp only [fromBuffer, w0, hflow, hf]
    rw [and_mask _ 20 0xFFFFF (by decide)]
    have : (6 * 268435456 + t * 1048576 + f) % 2 ^ 20 = f := by omega
    rw [this]
  · simp only [fromBuffer, s0, s1, s2, s3]
  · simp only [fromBuffer, d0, d1, d2, d3]
  · simp only [fromBuffer, h6, hp]
    omega

theorem serialize_deserialize_flow_witness :
    ∃ octets, octets.length = 40 ∧
      serialize .littleEndian ⟨[]⟩ ⟨3, 5, 64, 17, 16, ⟨0, 0, 0, 1⟩, ⟨0, 0, 0, 2⟩, []⟩
        = .ok ⟨[] ++ octets⟩ ∧
      octets.take 4 = [96, 48, 0, 5] ∧
      ∃ header, deserialize .littleEndian ⟨octets, 0⟩ = .ok (header, ⟨octets, 40⟩) ∧
        header.trafficClass = 3 ∧ header.flowLabel = 5 ∧
        header.srcAddress = ⟨0, 0, 0, 1⟩ ∧ header.destAddress = ⟨0, 0, 0, 2⟩ ∧
        header.transportProtocol = 17 :=
  serialize_deserialize_flow .littleEndian ⟨[]⟩
    ⟨3, 5, 64, 17, 16, ⟨0, 0, 0, 1⟩, ⟨0, 0, 0, 2⟩, []⟩ rfl (by decide) (by decide) (by decide)
    (by decide) (by decide)

end IPv6HeaderSerializer

end Inet
